import Mathlib

/-!
# go_kraken: frame decoding (`websocket/data.go`) and event handling (`websocket/events.go`)

A shallow embedding of `Message.UnmarshalJSON` and of the orders-channel event
handlers, together with the fragment of Go's `encoding/json` they call.

Conventions.
* A frame (`[]byte`) is a list of Unicode scalar values: frames are text, and
  every byte test the code makes (`'}'`, `'{'`, `','`) is on an ASCII character.
* `int64` is `Int` with an explicit range check where `strconv.ParseInt` has one.
* A Go call that may return an error or panic returns an `Outcome`.
-/

namespace Kraken

/-- Frame bytes, payload bytes (`[]byte`, `json.RawMessage`). -/
abbrev Bytes := List Char

/-! ## `encoding/json`: the scanner -/

/-- The double quote. -/
def cQuote : Char := Char.ofNat 34
/-- The reverse solidus that starts an escape. -/
def cEsc : Char := Char.ofNat 92
/-- The opening brace of an object. -/
def cLBrace : Char := Char.ofNat 123
/-- The closing brace of an object. -/
def cRBrace : Char := Char.ofNat 125

/-- Go `isSpace`: space, tab, carriage return, line feed. -/
def isSpace (c : Char) : Bool :=
  c == ' ' || c == Char.ofNat 9 || c == Char.ofNat 13 || c == Char.ofNat 10

/-- Decimal digit. -/
def isDigit (c : Char) : Bool := decide ('0' ≤ c) && decide (c ≤ '9')

/-- Hexadecimal digit, as accepted after `\u`. -/
def isHex (c : Char) : Bool :=
  isDigit c || (decide ('a' ≤ c) && decide (c ≤ 'f')) || (decide ('A' ≤ c) && decide (c ≤ 'F'))

/-- The one-letter escapes of a JSON string. -/
def isSimpleEsc (c : Char) : Bool :=
  c == 'b' || c == 'f' || c == 'n' || c == 'r' || c == 't' || c == cEsc || c == '/' || c == cQuote

/-- Drop leading white space. -/
def skipSpace : Bytes → Bytes
  | [] => []
  | c :: r => if isSpace c then skipSpace r else c :: r

/-- Put a character in front of what a scan consumed. -/
def consC (c : Char) (p : Bytes × Bytes) : Bytes × Bytes := (c :: p.1, p.2)

/-- Put characters in front of what a scan consumed. -/
def consL (l : Bytes) (p : Bytes × Bytes) : Bytes × Bytes := (l ++ p.1, p.2)

/-- The rest of a string literal, from just after its opening quote: the
characters up to and including the closing quote, and what follows. -/
def scanStr : Bytes → Option (Bytes × Bytes)
  | [] => none
  | c :: r =>
    if c == cQuote then some ([c], r)
    else if c == cEsc then
      match r with
      | [] => none
      | e :: r1 =>
        if isSimpleEsc e then (scanStr r1).map (consL [c, e])
        else if e == 'u' then
          match r1 with
          | h1 :: h2 :: h3 :: h4 :: r2 =>
            if isHex h1 && isHex h2 && isHex h3 && isHex h4 then
              (scanStr r2).map (consL [c, e, h1, h2, h3, h4])
            else none
          | _ => none
        else none
    else if c.toNat < 32 then none
    else (scanStr r).map (consC c)

/-- A maximal run of digits and what follows. -/
def spanDigits (s : Bytes) : Bytes × Bytes := s.span isDigit

/-- The optional exponent of a number. -/
def scanExp (s : Bytes) : Option (Bytes × Bytes) :=
  match s with
  | [] => some ([], [])
  | e :: r =>
    if e == 'e' || e == 'E' then
      match r with
      | [] => none
      | g :: r1 =>
        if g == '+' || g == '-' then
          match r1 with
          | [] => none
          | d :: r2 =>
            if isDigit d then some (consL [e, g, d] (spanDigits r2)) else none
        else if isDigit g then some (consL [e, g] (spanDigits r1))
        else none
    else some ([], s)

/-- The optional fraction of a number, then its exponent. -/
def scanFrac (s : Bytes) : Option (Bytes × Bytes) :=
  match s with
  | [] => some ([], [])
  | p :: r =>
    if p == '.' then
      match r with
      | [] => none
      | d :: r1 =>
        if isDigit d then
          let ds := spanDigits r1
          (scanExp ds.2).map (consL ([p, d] ++ ds.1))
        else none
    else scanExp s

/-- The integer part of a number without its sign, then fraction and exponent. -/
def scanInt (s : Bytes) : Option (Bytes × Bytes) :=
  match s with
  | [] => none
  | c :: r =>
    if c == '0' then (scanFrac r).map (consC c)
    else if isDigit c then
      let ds := spanDigits r
      (scanFrac ds.2).map (consL (c :: ds.1))
    else none

/-- A number literal: `-? (0 | [1-9][0-9]*) (. [0-9]+)? ([eE] [+-]? [0-9]+)?`. -/
def scanNum (s : Bytes) : Option (Bytes × Bytes) :=
  match s with
  | [] => none
  | c :: r => if c == '-' then (scanInt r).map (consC c) else scanInt s

/-- One of the literals `true`, `false`, `null`. -/
def scanWord (w : Bytes) (s : Bytes) : Option (Bytes × Bytes) :=
  if w.isPrefixOf s then some (w, s.drop w.length) else none

/-- What follows an item of an array or object: white space, then either the
closing bracket or a comma, white space and the next item. `n` bounds the
number of items. The result is the items, the characters consumed and the rest. -/
def scanMore {α : Type} (item : Bytes → Option (α × Bytes × Bytes)) (close : Char) :
    Nat → Bytes → Option (List α × Bytes × Bytes)
  | 0, _ => none
  | n + 1, s =>
    let w := s.span isSpace
    match w.2 with
    | [] => none
    | c :: r =>
      if c == close then some ([], w.1 ++ [c], r)
      else if c == ',' then
        let w2 := r.span isSpace
        match item w2.2 with
        | none => none
        | some (a, raw, r3) =>
          match scanMore item close n r3 with
          | none => none
          | some (more, raw2, r4) => some (a :: more, w.1 ++ c :: w2.1 ++ raw ++ raw2, r4)
      else none

/-- The inside of an array or object, from just after its opening bracket. -/
def scanItems {α : Type} (item : Bytes → Option (α × Bytes × Bytes)) (close : Char)
    (s : Bytes) : Option (List α × Bytes × Bytes) :=
  let w := s.span isSpace
  match w.2 with
  | [] => none
  | c :: r =>
    if c == close then some ([], w.1 ++ [c], r)
    else
      match item w.2 with
      | none => none
      | some (a, raw, r3) =>
        match scanMore item close r3.length r3 with
        | none => none
        | some (more, raw2, r4) => some (a :: more, w.1 ++ raw ++ raw2, r4)

/-- An array element: the element's own text is what is kept of it. -/
def asElem (val : Bytes → Option (Bytes × Bytes)) (s : Bytes) : Option (Bytes × Bytes × Bytes) :=
  (val s).map (fun p => (p.1, p.1, p.2))

/-- An object member `"key" : value`: the key literal and the value's text are kept. -/
def asMember (val : Bytes → Option (Bytes × Bytes)) (s : Bytes) :
    Option ((Bytes × Bytes) × Bytes × Bytes) :=
  match s with
  | [] => none
  | q :: r =>
    if q == cQuote then
      match scanStr r with
      | none => none
      | some (k, r1) =>
        let w := r1.span isSpace
        match w.2 with
        | [] => none
        | c :: r2 =>
          if c == ':' then
            let w2 := r2.span isSpace
            match val w2.2 with
            | none => none
            | some (v, r3) => some ((q :: k, v), q :: k ++ w.1 ++ c :: w2.1 ++ v, r3)
          else none
    else none

/-- Go `maxNestingDepth`. -/
def maxNestingDepth : Nat := 10000

/-- One JSON value at the head of the input (no leading white space): its text
and what follows. The first argument is the number of nesting levels still
allowed plus one, so that running out of it is Go's "exceeded max depth". -/
def scanValue : Nat → Bytes → Option (Bytes × Bytes)
  | 0, _ => none
  | f + 1, s =>
    match s with
    | [] => none
    | c :: r =>
      if c == cQuote then (scanStr r).map (consC c)
      else if c == '[' then
        match f with
        | 0 => none
        | _ + 1 => (scanItems (asElem (scanValue f)) ']' r).map (fun t => (c :: t.2.1, t.2.2))
      else if c == cLBrace then
        match f with
        | 0 => none
        | _ + 1 => (scanItems (asMember (scanValue f)) cRBrace r).map (fun t => (c :: t.2.1, t.2.2))
      else if c == 't' then scanWord ['t', 'r', 'u', 'e'] s
      else if c == 'f' then scanWord ['f', 'a', 'l', 's', 'e'] s
      else if c == 'n' then scanWord ['n', 'u', 'l', 'l'] s
      else scanNum s

/-- Go `checkValid`: the input is one JSON value with optional white space around it. -/
def checkValid (data : Bytes) : Bool :=
  match scanValue (maxNestingDepth + 1) (skipSpace data) with
  | none => false
  | some (_, rest) => (skipSpace rest).isEmpty

/-- Frame bytes from a string. -/
def bytes (s : String) : Bytes := s.toList

/-! ## `encoding/json`: decoding -/

/-- The errors the decoded functions return. -/
inductive GoError where
  /-- The `SyntaxError` of `encoding/json`: the input is not valid JSON. -/
  | invalidJSON
  /-- The `UnmarshalTypeError` of `encoding/json`: a value does not fit its Go type. -/
  | typeMismatch
  /-- The `fmt.Errorf("invalid data length: ...")` of `Message.UnmarshalJSON`. -/
  | invalidLength
  /-- The `fmt.Errorf("invalid data length/payload: ...")` of `Message.UnmarshalJSON`. -/
  | invalidPayload
  /-- The "invalid number literal" error of `encoding/json` for a `json.Number`. -/
  | invalidNumber
  deriving DecidableEq, Repr

/-- How a Go call ends: it returns, with the state it leaves and its `error`
(`none` is `nil`), or it panics. -/
inductive Outcome (σ : Type) where
  /-- The call returned. -/
  | done (s : σ) (err : Option GoError)
  /-- The call panicked (index out of range, nil dereference). -/
  | panic
  deriving DecidableEq, Repr

/-- The result of a `json.Unmarshal` whose value is read only when the
returned error is nil: the decoded value, or the error. -/
inductive Decoded (σ : Type) where
  /-- The error is nil; the decoded value. -/
  | ok (v : σ)
  /-- The error returned. -/
  | error (e : GoError)
  deriving DecidableEq, Repr

/-- The error a call returned, if it returned one. -/
def Outcome.err {σ : Type} : Outcome σ → Option GoError
  | .done _ e => e
  | .panic => none

/-- The call returned a non-nil error. -/
def Outcome.failed {σ : Type} (o : Outcome σ) : Bool := o.err.isSome

/-- The call panicked. -/
def Outcome.panicked {σ : Type} : Outcome σ → Bool
  | .panic => true
  | _ => false

/-- The call returned a nil error. -/
def Outcome.succeeded {σ : Type} : Outcome σ → Bool
  | .done _ none => true
  | _ => false

/-- The JSON kinds, told apart by the first character of a value. -/
inductive Kind where
  | object | array | string | number | bool | null
  deriving DecidableEq, Repr

/-- The kind of a value from its first character, as the decoder dispatches. -/
def kindOf (raw : Bytes) : Kind :=
  match raw with
  | [] => .number
  | c :: _ =>
    if c == cLBrace then .object
    else if c == '[' then .array
    else if c == cQuote then .string
    else if c == 't' || c == 'f' then .bool
    else if c == 'n' then .null
    else .number

/-- What the top level of an input is, for a decode into a Go slice. -/
inductive Top where
  /-- Not valid JSON. -/
  | invalid
  /-- The literal `null`. -/
  | null
  /-- An array, with the text of each element. -/
  | array (elems : List Bytes)
  /-- An object, string, number or boolean. -/
  | other
  deriving DecidableEq, Repr

/-- The top level of an input: `checkValid`, then the dispatch on the first
character after white space. -/
def decodeTop (data : Bytes) : Top :=
  if checkValid data then
    match skipSpace data with
    | [] => .invalid
    | c :: r =>
      if c == '[' then
        match scanItems (asElem (scanValue maxNestingDepth)) ']' r with
        | some (elems, _, _) => .array elems
        | none => .invalid
      else if c == 'n' then .null
      else .other
  else .invalid

/-- The members of an object value, each as its key literal and the text of its value. -/
def objectMembers (raw : Bytes) : List (Bytes × Bytes) :=
  match raw with
  | [] => []
  | _ :: r =>
    match scanItems (asMember (scanValue (maxNestingDepth + 1))) cRBrace r with
    | some (ms, _, _) => ms
    | none => []

/-- The elements of an array value, each as its text. -/
def arrayElems (raw : Bytes) : List Bytes :=
  match raw with
  | [] => []
  | _ :: r =>
    match scanItems (asElem (scanValue (maxNestingDepth + 1))) ']' r with
    | some (es, _, _) => es
    | none => []

/-- The value of a decimal digit. -/
def digitVal (c : Char) : Nat := c.toNat - 48

/-- The value of a non-empty run of decimal digits. -/
def parseNat (s : Bytes) : Option Nat :=
  if s.isEmpty || !s.all isDigit then none
  else some (s.foldl (fun a c => a * 10 + digitVal c) 0)

/-- Go `strconv.ParseInt(lit, 10, 64)` on a number literal: digits with an
optional minus sign, within the range of `int64`. -/
def parseInt64 (lit : Bytes) : Option Int :=
  match lit with
  | [] => none
  | c :: r =>
    if c == '-' then
      match parseNat r with
      | some n => if n ≤ 2 ^ 63 then some (-(n : Int)) else none
      | none => none
    else
      match parseNat lit with
      | some n => if n < 2 ^ 63 then some (n : Int) else none
      | none => none

/-- The value of a hexadecimal digit. -/
def hexVal (c : Char) : Nat :=
  if isDigit c then c.toNat - 48
  else if decide ('a' ≤ c) && decide (c ≤ 'f') then c.toNat - 87
  else c.toNat - 55

/-- Go `getu4` on four hexadecimal digits. -/
def hex4 (a b c d : Char) : Nat := ((hexVal a * 16 + hexVal b) * 16 + hexVal c) * 16 + hexVal d

/-- The character a one-letter escape stands for. -/
def simpleEscChar (e : Char) : Char :=
  if e == 'b' then Char.ofNat 8
  else if e == 'f' then Char.ofNat 12
  else if e == 'n' then Char.ofNat 10
  else if e == 'r' then Char.ofNat 13
  else if e == 't' then Char.ofNat 9
  else e

/-- Unicode replacement character U+FFFD. -/
def replacementChar : Char := Char.ofNat 65533

/-- Go `utf16.DecodeRune` of the surrogate `rr` with the `\uXXXX` escape that
may follow it: the character of a valid pair, if there is one. -/
def surrogatePair (rr : Nat) (s : Bytes) : Option Char :=
  match s with
  | b :: u :: g1 :: g2 :: g3 :: g4 :: _ =>
    let rr1 := hex4 g1 g2 g3 g4
    if b == cEsc && u == 'u' && isHex g1 && isHex g2 && isHex g3 && isHex g4
        && decide (rr < 56320) && decide (56320 ≤ rr1) && decide (rr1 < 57344) then
      some (Char.ofNat (65536 + (rr - 55296) * 1024 + (rr1 - 56320)))
    else none
  | _ => none

/-- Go `unquoteBytes` on the body of a string literal (after the opening
quote, up to the closing one): escapes are resolved, a surrogate pair becomes
one character and a lone surrogate the replacement character. The first
argument counts characters still to pass over (the second escape of a pair). -/
def unescapeFrom : Nat → Bytes → Bytes
  | _, [] => []
  | k + 1, _ :: r => unescapeFrom k r
  | 0, c :: r =>
    if c == cQuote then []
    else if c == cEsc then
      match r with
      | [] => []
      | e :: r1 =>
        if e == 'u' then
          match r1 with
          | h1 :: h2 :: h3 :: h4 :: r2 =>
            let rr := hex4 h1 h2 h3 h4
            if 55296 ≤ rr ∧ rr < 57344 then
              match surrogatePair rr r2 with
              | some ch => ch :: unescapeFrom 6 r2
              | none => replacementChar :: unescapeFrom 0 r2
            else Char.ofNat rr :: unescapeFrom 0 r2
          | _ => []
        else simpleEscChar e :: unescapeFrom 0 r1
    else c :: unescapeFrom 0 r

/-- Go `unquoteBytes` on the body of a string literal. -/
def unescape (s : Bytes) : Bytes := unescapeFrom 0 s

/-- The Go string a string literal denotes. -/
def unquote (lit : Bytes) : String := String.mk (unescape lit.tail)

/-! ## `encoding/json`: encoding raw messages -/

/-- The escape Go's `compact` writes for a character when `escapeHTML` is set
(as it is in `json.Marshal`): `<`, `>`, `&`, U+2028 and U+2029. -/
def htmlEscape (c : Char) : Bytes :=
  if c == '<' then bytes "\\u003c"
  else if c == '>' then bytes "\\u003e"
  else if c == '&' then bytes "\\u0026"
  else if c == Char.ofNat 8232 then bytes "\\u2028"
  else if c == Char.ofNat 8233 then bytes "\\u2029"
  else [c]

/-- The characters Go's `compact` keeps of valid JSON: white space outside
strings is dropped and the HTML characters are escaped. The flag says whether
the position is inside a string. -/
def compactChars : Bool → Bytes → Bytes
  | _, [] => []
  | false, c :: r =>
    if isSpace c then compactChars false r
    else if c == cQuote then c :: compactChars true r
    else htmlEscape c ++ compactChars false r
  | true, c :: r =>
    if c == cQuote then c :: compactChars false r
    else if c == cEsc then
      match r with
      | [] => [c]
      | e :: r1 => c :: htmlEscape e ++ compactChars true r1
    else htmlEscape c ++ compactChars true r

/-- The encoding of one `json.RawMessage` by `json.Marshal`: `null` for a nil
message, otherwise the compacted text, or an error when the text is not valid JSON. -/
def marshalRaw (m : Bytes) : Option Bytes :=
  if m.isEmpty then some (bytes "null")
  else if checkValid m then some (compactChars false m)
  else none

/-- The elements of an encoded array, each preceded by a comma. -/
def marshalTail : List Bytes → Option Bytes
  | [] => some []
  | m :: ms =>
    match marshalRaw m, marshalTail ms with
    | some e, some t => some (',' :: e ++ t)
    | _, _ => none

/-- Go `json.Marshal` of a `[]json.RawMessage`; `none` is a returned error. -/
def marshalRaws (ms : List Bytes) : Option Bytes :=
  match ms with
  | [] => some (bytes "[]")
  | m :: rest =>
    match marshalRaw m, marshalTail rest with
    | some e, some t => some ('[' :: e ++ t ++ [']'])
    | _, _ => none

/-! ## `encoding/json`: decoding into `interface{}` -/

/-- The characters a number literal is made of. -/
def isNumChar (c : Char) : Bool :=
  isDigit c || c == '-' || c == '+' || c == '.' || c == 'e' || c == 'E'

/-- The number literals of a valid JSON text, outside its strings. The flag
says whether the position is inside a string; `cur` is the literal being read. -/
def numberTokens : Bool → Bytes → Bytes → List Bytes
  | _, cur, [] => if cur.isEmpty then [] else [cur]
  | true, _, c :: r =>
    if c == cQuote then numberTokens false [] r
    else if c == cEsc then
      match r with
      | [] => []
      | _ :: r1 => numberTokens true [] r1
    else numberTokens true [] r
  | false, cur, c :: r =>
    if cur.isEmpty then
      if c == '-' || isDigit c then numberTokens false [c] r
      else if c == cQuote then numberTokens true [] r
      else numberTokens false [] r
    else if isNumChar c then numberTokens false (cur ++ [c]) r
    else cur :: (if c == cQuote then numberTokens true [] r else numberTokens false [] r)

/-- The value of a run of digits, zero for the empty run. -/
def digitsVal (s : Bytes) : Nat := s.foldl (fun a c => a * 10 + digitVal c) 0

/-- The exponent of a number literal, from its `e` on. -/
def exponentOf (s : Bytes) : Int :=
  match s with
  | [] => 0
  | _ :: r =>
    match r with
    | [] => 0
    | g :: r1 =>
      if g == '-' then -(digitsVal r1 : Int)
      else if g == '+' then (digitsVal r1 : Int)
      else (digitsVal r : Int)

/-- The least magnitude that rounds to infinity as a `float64`: `2^1024 - 2^970`. -/
def float64Limit : Nat := (2 ^ 256) ^ 4 - (2 ^ 256) ^ 3 * 2 ^ 202

/-- Go `strconv.ParseFloat(lit, 64)` reports a range error: the magnitude of
the literal rounds to infinity, that is, it is at least `2^1024 - 2^970`. -/
def floatOverflows (lit : Bytes) : Bool :=
  let body := match lit with
    | [] => []
    | c :: r => if c == '-' then r else lit
  let ip := body.span isDigit
  let fp := match ip.2 with
    | [] => (([] : Bytes), ([] : Bytes))
    | c :: r => if c == '.' then r.span isDigit else ([], ip.2)
  let m := digitsVal (ip.1 ++ fp.1)
  let e10 : Int := exponentOf fp.2 - (fp.1.length : Int)
  if 0 ≤ e10 then decide (float64Limit ≤ m * 10 ^ e10.toNat)
  else decide (float64Limit * 10 ^ (-e10).toNat ≤ m)

/-- Decoding a value into an empty `interface{}` saves an error: one of its
numbers does not fit a `float64`. -/
def interfaceFails (raw : Bytes) : Bool :=
  (numberTokens false [] raw).any floatOverflows

/-! ## `websocket/data.go`: `Message` -/

/-- Go `Seq`: `struct { Value int64 "json:sequence" }`. -/
structure Seq where
  Value : Int
  deriving DecidableEq, Repr

/-- Go `Message`. A nil `Data` is the empty list. -/
structure Message where
  ChannelID : Int
  Data : Bytes
  ChannelName : String
  Pair : String
  Sequence : Seq
  deriving DecidableEq, Repr

/-- The zero `Message` (`var msg Message`). -/
def Message.fresh : Message :=
  { ChannelID := 0, Data := [], ChannelName := "", Pair := "", Sequence := { Value := 0 } }

/-- The letter a character folds to when `encoding/json` matches an object key
against a field name without regard to case: ASCII letters to upper case, and
the two non-ASCII characters that fold to an ASCII letter, U+017F to `S` and
U+212A to `K`. -/
def foldChar (c : Char) : Char :=
  if decide ('a' ≤ c) && decide (c ≤ 'z') then Char.ofNat (c.toNat - 32)
  else if c == Char.ofNat 383 then 'S'
  else if c == Char.ofNat 8490 then 'K'
  else c

/-- An object key (as a literal) names the struct field with the given JSON name. -/
def keyMatches (name : String) (keyLit : Bytes) : Bool :=
  (unquote keyLit).toList.map foldChar == name.toList.map foldChar

/-- The state of a decode: the value being filled and the first saved error. -/
abbrev Dec (σ : Type) := σ × Option GoError

/-- Go `d.saveError`: only the first error is kept. -/
def saveError {σ : Type} (st : Dec σ) : Dec σ :=
  (st.1, st.2.orElse (fun _ => some GoError.typeMismatch))

/-- Decode one value into an `int64`: a number literal that `ParseInt` accepts
is stored, `null` leaves the value alone, anything else saves an error. -/
def storeInt64 {σ : Type} (set : σ → Int → σ) (raw : Bytes) (st : Dec σ) : Dec σ :=
  match kindOf raw with
  | .null => st
  | .number =>
    match parseInt64 raw with
    | some n => (set st.1 n, st.2)
    | none => saveError st
  | _ => saveError st

/-- Decode one value into a `string`: a string literal is stored unquoted,
`null` leaves the value alone, anything else saves an error. -/
def storeString {σ : Type} (set : σ → String → σ) (raw : Bytes) (st : Dec σ) : Dec σ :=
  match kindOf raw with
  | .null => st
  | .string => (set st.1 (unquote raw), st.2)
  | _ => saveError st

/-- Decode one value through a pointer to a `json.RawMessage` held in an
`interface{}`: the text of the value is stored; for `null` the interface itself
is set to nil and the message is left alone. -/
def storeRaw {σ : Type} (set : σ → Bytes → σ) (raw : Bytes) (st : Dec σ) : Dec σ :=
  match kindOf raw with
  | .null => st
  | _ => (set st.1 raw, st.2)

/-- Decode the members of an object into a `Seq`: a member whose key matches
`sequence` is decoded into `Value`, the others are passed over. -/
def storeSeqMembers : List (Bytes × Bytes) → Dec Seq → Dec Seq
  | [], st => st
  | (k, v) :: ms, st =>
    if keyMatches "sequence" k then
      storeSeqMembers ms (storeInt64 (fun _ n => { Value := n }) v st)
    else storeSeqMembers ms st

/-- Decode one value into a `Seq`: an object is decoded member by member,
`null` leaves the value alone, anything else saves an error. -/
def storeSeq {σ : Type} (get : σ → Seq) (set : σ → Seq → σ) (raw : Bytes) (st : Dec σ) : Dec σ :=
  match kindOf raw with
  | .null => st
  | .object =>
    let r := storeSeqMembers (objectMembers raw) (get st.1, st.2)
    (set st.1 r.1, r.2)
  | _ => saveError st

/-- The destinations `Message.UnmarshalJSON` puts in `body`. -/
inductive Target where
  | channelID | data | channelName | pair | sequence
  deriving DecidableEq, Repr

/-- Decode one array element into a destination. -/
def storeTarget (t : Target) (raw : Bytes) (st : Dec Message) : Dec Message :=
  match t with
  | .channelID => storeInt64 (fun m n => { m with ChannelID := n }) raw st
  | .data => storeRaw (fun m b => { m with Data := b }) raw st
  | .channelName => storeString (fun m x => { m with ChannelName := x }) raw st
  | .pair => storeString (fun m x => { m with Pair := x }) raw st
  | .sequence => storeSeq (fun m => m.Sequence) (fun m q => { m with Sequence := q }) raw st

/-- Decode the elements of an array into the slice `body`: element `i` goes to
`body[i]`; past the end of `body` the slice grows and the element is decoded
into an empty `interface{}`. -/
def storeAll : List Target → List Bytes → Dec Message → Dec Message
  | _, [], st => st
  | [], e :: es, st => storeAll [] es (if interfaceFails e then saveError st else st)
  | t :: ts, e :: es, st => storeAll ts es (storeTarget t e st)

/-- Go `json.Unmarshal(data, &body)` for the `body` of `Message.UnmarshalJSON`. -/
def unmarshalBody (body : List Target) (data : Bytes) (msg : Message) : Outcome Message :=
  match decodeTop data with
  | .invalid => .done msg (some .invalidJSON)
  | .null => .done msg none
  | .other => .done msg (some .typeMismatch)
  | .array elems =>
    let r := storeAll body elems (msg, none)
    .done r.1 r.2

/-- Go `json.Unmarshal(data, &raw)` for `raw []json.RawMessage`: the text of
each element of the array; `null` gives the nil slice. -/
def unmarshalRaw (data : Bytes) : Decoded (List Bytes) :=
  match decodeTop data with
  | .invalid => .error .invalidJSON
  | .null => .ok []
  | .other => .error .typeMismatch
  | .array elems => .ok elems

/-- The merge of the ask and bid objects of a depth frame:
`ask[0:len(ask)-1]`, then `,`, then `bid[1:]`. -/
def mergeAskBid (ask bid : Bytes) : Bytes := ask.dropLast ++ ',' :: bid.tail

/-- The `body` of `Message.UnmarshalJSON` for a frame of `n` elements. -/
def bodyFor (n : Nat) : List Target :=
  if n == 3 then [.data, .channelName, .sequence]
  else [.channelID, .data, .channelName, .pair]

/-- Go `(msg *Message) UnmarshalJSON(data []byte) error`. -/
def Message.UnmarshalJSON (msg : Message) (data : Bytes) : Outcome Message :=
  match unmarshalRaw data with
  | .error e => .done msg (some e)
  | .ok raw =>
    if raw.length < 3 then .done msg (some .invalidLength)
    else if raw.length == 5 then
      match raw with
      | [r0, ask, bid, r3, r4] =>
        match ask.getLast? with
        | none => .panic
        | some a =>
          if a != cRBrace then .done msg (some .invalidPayload)
          else
            match bid.head? with
            | none => .panic
            | some b =>
              if b != cLBrace then .done msg (some .invalidPayload)
              else
                let merged := mergeAskBid ask bid
                let data2 := (marshalRaws [r0, merged, r3, r4]).getD []
                unmarshalBody (bodyFor raw.length) data2 msg
      | _ => .panic
    else unmarshalBody (bodyFor raw.length) data msg

/-! ## `websocket/events.go`: the orders channel -/

/-- The part of `encoding/json` that decodes a `[]OrderEvent`, whose fields
are `float64` and `time.Time` values: the decoded slices, the nil slice,
whether the decode of a JSON value into such a slice reports an error (which
depends on the JSON text only), and the slice a decode leaves in a field. -/
structure EventsCodec where
  /-- The decoded `[]OrderEvent` values. -/
  Events : Type
  /-- The nil slice. -/
  zero : Events
  /-- The decode of this JSON value into a `[]OrderEvent` reports no error. -/
  valid : Bytes → Bool
  /-- The slice a field holds after one JSON value was decoded into it. -/
  store : Bytes → Events → Events

/-- Go `OrdersUpdate`. -/
structure OrdersUpdate (C : EventsCodec) where
  Symbol : String
  Bids : C.Events
  Asks : C.Events
  Checksum : Int
  IsSnapshot : Bool

/-- The zero `OrdersUpdate`. -/
def OrdersUpdate.zero (C : EventsCodec) : OrdersUpdate C :=
  { Symbol := "", Bids := C.zero, Asks := C.zero, Checksum := 0, IsSnapshot := false }

/-- Go `OrdersUpdateFullMessage`. Of `Data []*OrdersUpdate` the model keeps
what the handlers read: its length and its first element (`none` is a nil
pointer). -/
structure OrdersUpdateFullMessage (C : EventsCodec) where
  Channel : String
  Typ : String
  DataLen : Nat
  Data0 : Option (OrdersUpdate C)

/-- The zero `OrdersUpdateFullMessage`. -/
def OrdersUpdateFullMessage.zero (C : EventsCodec) : OrdersUpdateFullMessage C :=
  { Channel := "", Typ := "", DataLen := 0, Data0 := none }

/-- Modelled from the spec: `EventType`, declared outside the files at hand;
the spec's event object carries `channel` and `type`, the two fields
`handleEvent` and `handleOrdersEvent` read. -/
structure EventType where
  Channel : String
  Typ : String
  deriving DecidableEq, Repr

/-- Go `Update`, with the `Data` the orders handlers put in it. -/
structure Update (C : EventsCodec) where
  ChannelID : Int
  Data : OrdersUpdate C
  ChannelName : String
  Pair : String
  Sequence : Seq

/-- Decode one value into a `bool`: `true` and `false` are stored, `null`
leaves the value alone, anything else saves an error. -/
def storeBool {σ : Type} (set : σ → Bool → σ) (raw : Bytes) (st : Dec σ) : Dec σ :=
  match kindOf raw with
  | .null => st
  | .bool => (set st.1 (raw.head? == some 't'), st.2)
  | _ => saveError st

/-- Decode one value into a `[]OrderEvent` field. -/
def storeEvents {σ : Type} (C : EventsCodec) (get : σ → C.Events) (set : σ → C.Events → σ)
    (raw : Bytes) (st : Dec σ) : Dec σ :=
  if C.valid raw then (set st.1 (C.store raw (get st.1)), st.2)
  else saveError (set st.1 (C.store raw (get st.1)), st.2)

/-- Decode one member of an object into an `OrdersUpdate`. -/
def storeOrdersField (C : EventsCodec) (k v : Bytes) (st : Dec (OrdersUpdate C)) :
    Dec (OrdersUpdate C) :=
  if keyMatches "symbol" k then storeString (fun u x => { u with Symbol := x }) v st
  else if keyMatches "bids" k then
    storeEvents C (fun u => u.Bids) (fun u x => { u with Bids := x }) v st
  else if keyMatches "asks" k then
    storeEvents C (fun u => u.Asks) (fun u x => { u with Asks := x }) v st
  else if keyMatches "checksum" k then storeInt64 (fun u x => { u with Checksum := x }) v st
  else if keyMatches "snapshot" k then storeBool (fun u x => { u with IsSnapshot := x }) v st
  else st

/-- Decode the members of an object into an `OrdersUpdate`, in order. -/
def storeOrdersMembers (C : EventsCodec) :
    List (Bytes × Bytes) → Dec (OrdersUpdate C) → Dec (OrdersUpdate C)
  | [], st => st
  | (k, v) :: ms, st => storeOrdersMembers C ms (storeOrdersField C k v st)

/-- Decode one array element into a `*OrdersUpdate` slot: `null` makes the
pointer nil; an object is decoded into the struct the pointer holds, a new one
if it is nil; anything else saves an error. -/
def storeOrdersPtr (C : EventsCodec) (raw : Bytes) (st : Dec (Option (OrdersUpdate C))) :
    Dec (Option (OrdersUpdate C)) :=
  match kindOf raw with
  | .null => (none, st.2)
  | .object =>
    let r := storeOrdersMembers C (objectMembers raw) (st.1.getD (OrdersUpdate.zero C), st.2)
    (some r.1, r.2)
  | _ => saveError (some (st.1.getD (OrdersUpdate.zero C)), st.2)

/-- Decode the elements after the first: only their errors are kept. -/
def storeOrdersRest (C : EventsCodec) : List Bytes → Option GoError → Option GoError
  | [], e => e
  | raw :: rest, e => storeOrdersRest C rest (storeOrdersPtr C raw (none, e)).2

/-- Decode one value into the `Data` field: `null` makes the slice nil; an
array is decoded element by element, the first element into the element the
slice already has at index 0 when it has one; anything else saves an error. -/
def storeData (C : EventsCodec) (raw : Bytes) (st : Dec (OrdersUpdateFullMessage C)) :
    Dec (OrdersUpdateFullMessage C) :=
  match kindOf raw with
  | .null => ({ st.1 with DataLen := 0, Data0 := none }, st.2)
  | .array =>
    match arrayElems raw with
    | [] => ({ st.1 with DataLen := 0, Data0 := none }, st.2)
    | e :: es =>
      let old := if st.1.DataLen = 0 then none else st.1.Data0
      let r := storeOrdersPtr C e (old, st.2)
      ({ st.1 with DataLen := es.length + 1, Data0 := r.1 }, storeOrdersRest C es r.2)
  | _ => saveError st

/-- Decode the members of an object into an `OrdersUpdateFullMessage`, in order. -/
def storeFullMembers (C : EventsCodec) :
    List (Bytes × Bytes) → Dec (OrdersUpdateFullMessage C) → Dec (OrdersUpdateFullMessage C)
  | [], st => st
  | (k, v) :: ms, st =>
    storeFullMembers C ms
      (if keyMatches "channel" k then storeString (fun m x => { m with Channel := x }) v st
       else if keyMatches "type" k then storeString (fun m x => { m with Typ := x }) v st
       else if keyMatches "data" k then storeData C v st
       else st)

/-- Decode the members of an object into an `EventType`, in order. -/
def storeEventMembers : List (Bytes × Bytes) → Dec EventType → Dec EventType
  | [], st => st
  | (k, v) :: ms, st =>
    storeEventMembers ms
      (if keyMatches "channel" k then storeString (fun m x => { m with Channel := x }) v st
       else if keyMatches "type" k then storeString (fun m x => { m with Typ := x }) v st
       else st)

/-- Go `json.Unmarshal(msg, &v)` for a struct `v` that starts at `zero`: the
input must be valid JSON; an object is decoded member by member, `null` leaves
the struct alone, anything else is a type error. The decoded struct is given
only when no error is returned. -/
def unmarshalStruct {σ : Type} (members : List (Bytes × Bytes) → Dec σ → Dec σ) (zero : σ)
    (msg : Bytes) : Decoded σ :=
  if checkValid msg then
    match kindOf (skipSpace msg) with
    | .null => .ok zero
    | .object =>
      match members (objectMembers (skipSpace msg)) (zero, none) with
      | (v, none) => .ok v
      | (_, some e) => .error e
    | _ => .error .typeMismatch
  else .error .invalidJSON

/-- Go `(k *Kraken) handleOrdersSnapshotEvent(msg []byte) error`; the state is
the list of updates sent on `k.msg`. -/
def handleOrdersSnapshotEvent (C : EventsCodec) (chanOrders : String) (msg : Bytes) :
    Outcome (List (Update C)) :=
  match unmarshalStruct (storeFullMembers C) (OrdersUpdateFullMessage.zero C) msg with
  | .error e => .done [] (some e)
  | .ok snapshotMsg =>
    if snapshotMsg.DataLen = 0 then .panic
    else
      match snapshotMsg.Data0 with
      | none => .panic
      | some d =>
        .done [{ ChannelID := 0, Data := { d with IsSnapshot := true },
                 ChannelName := chanOrders ++ ":snapshot", Pair := "",
                 Sequence := { Value := 0 } }] none

/-- Go `(k *Kraken) handleOrdersUpdateEvent(msg []byte) error`. -/
def handleOrdersUpdateEvent (C : EventsCodec) (chanOrders : String) (msg : Bytes) :
    Outcome (List (Update C)) :=
  match unmarshalStruct (storeFullMembers C) (OrdersUpdateFullMessage.zero C) msg with
  | .error e => .done [] (some e)
  | .ok updateMsg =>
    if updateMsg.DataLen = 0 then .panic
    else
      match updateMsg.Data0 with
      | none => .panic
      | some d =>
        .done [{ ChannelID := 0, Data := d, ChannelName := chanOrders ++ ":update", Pair := "",
                 Sequence := { Value := 0 } }] none

/-- Go `(k *Kraken) handleOrdersEvent(msg []byte, event EventType) error`. -/
def handleOrdersEvent (C : EventsCodec) (chanOrders : String) (msg : Bytes) (event : EventType) :
    Outcome (List (Update C)) :=
  if event.Typ = "update" then handleOrdersUpdateEvent C chanOrders msg
  else if event.Typ = "snapshot" then handleOrdersSnapshotEvent C chanOrders msg
  else .done [] none

/-- Go `(k *Kraken) handleEvent(msg []byte) error`; `chanOrders` is the
constant `ChanOrders`. -/
def handleEvent (C : EventsCodec) (chanOrders : String) (msg : Bytes) :
    Outcome (List (Update C)) :=
  match unmarshalStruct storeEventMembers { Channel := "", Typ := "" } msg with
  | .error e => .done [] (some e)
  | .ok event =>
    if event.Channel = chanOrders then handleOrdersEvent C chanOrders msg event
    else .done [] none

/-- A codec that keeps the text of the elements of the array it is given and
reports an error for a value that is neither an array nor `null`. -/
def textCodec : EventsCodec :=
  { Events := List Bytes
    zero := []
    valid := fun raw => kindOf raw == .null || kindOf raw == .array
    store := fun raw old =>
      match kindOf raw with
      | .null => []
      | .array => arrayElems raw
      | _ => old }

/-- The channel name and the `IsSnapshot` flag of each update a call sent. -/
def sentFlags {C : EventsCodec} : Outcome (List (Update C)) → List (String × Bool)
  | .done out _ => out.map (fun u => (u.ChannelName, u.Data.IsSnapshot))
  | .panic => []

/-- The text that follows does not continue a number literal: it is empty or
starts with a character no number literal contains. -/
def noNumHead (r : Bytes) : Bool :=
  match r with
  | [] => true
  | c :: _ => !isNumChar c

/-- What the lemmas of this section say of a scan of part of a number: the
input is what was consumed followed by the rest, what was consumed is made of
number characters, and the scan consumes the same whatever follows, as long as
it does not continue a number. -/
def NumScan (scan : Bytes → Option (Bytes × Bytes)) (s k r : Bytes) : Prop :=
  s = k ++ r ∧ (∀ c ∈ k, isNumChar c = true) ∧
    ∀ r2, noNumHead r2 = true → scan (k ++ r2) = some (k, r2)

/-! ## The grammar the scanner accepts -/

/-- The text of a string literal after its opening quote, closing quote included. -/
inductive StrBody : Bytes → Prop where
  /-- The closing quote. -/
  | close : StrBody [cQuote]
  /-- A one-letter escape. -/
  | esc (e : Char) (k : Bytes) : isSimpleEsc e = true → StrBody k → StrBody (cEsc :: e :: k)
  /-- A `\uXXXX` escape. -/
  | uni (h1 h2 h3 h4 : Char) (k : Bytes) :
      (isHex h1 && isHex h2 && isHex h3 && isHex h4) = true → StrBody k →
      StrBody (cEsc :: 'u' :: h1 :: h2 :: h3 :: h4 :: k)
  /-- Any other character from U+0020 on. -/
  | char (c : Char) (k : Bytes) :
      (c == cQuote) = false → (c == cEsc) = false → ¬ c.toNat < 32 → StrBody k →
      StrBody (c :: k)

/-- White space only. -/
def allSpace (w : Bytes) : Prop := ∀ c ∈ w, isSpace c = true

/-- The text after an item of an array or object, up to and including the
closing bracket, with the items it holds. -/
inductive More {α : Type} (Item : α → Bytes → Prop) (close : Char) : List α → Bytes → Prop where
  /-- White space and the closing bracket. -/
  | close (w : Bytes) : allSpace w → More Item close [] (w ++ [close])
  /-- White space, a comma, white space, an item, and more. -/
  | next (w w2 : Bytes) (a : α) (raw : Bytes) (items : List α) (t : Bytes) :
      allSpace w → allSpace w2 → Item a raw → More Item close items t →
      More Item close (a :: items) (w ++ ',' :: w2 ++ raw ++ t)

/-- The text after the opening bracket of an array or object, up to and
including the closing bracket, with the items it holds. -/
inductive Items {α : Type} (Item : α → Bytes → Prop) (close : Char) : List α → Bytes → Prop where
  /-- No item: white space and the closing bracket. -/
  | empty (w : Bytes) : allSpace w → Items Item close [] (w ++ [close])
  /-- White space, a first item, and more. -/
  | first (w : Bytes) (a : α) (raw : Bytes) (items : List α) (t : Bytes) :
      allSpace w → Item a raw → More Item close items t →
      Items Item close (a :: items) (w ++ raw ++ t)

/-- An array element is a value; what is kept of it is its text. -/
def ElemItem (V : Bytes → Prop) (a raw : Bytes) : Prop := a = raw ∧ V raw

/-- An object member is a string literal, a colon and a value, with optional
white space around the colon; what is kept is the key literal and the value. -/
def MemberItem (V : Bytes → Prop) (a : Bytes × Bytes) (raw : Bytes) : Prop :=
  ∃ k w w2, StrBody k ∧ allSpace w ∧ allSpace w2 ∧ a.1 = cQuote :: k ∧ V a.2 ∧
    raw = cQuote :: k ++ w ++ ':' :: w2 ++ a.2

/-- A number literal. -/
def IsNumber (v : Bytes) : Prop := scanNum v = some (v, [])

/-- The JSON values nested at most `f - 1` levels deep, as texts. -/
def JValue : Nat → Bytes → Prop
  | 0, _ => False
  | f + 1, v =>
    (∃ k, StrBody k ∧ v = cQuote :: k) ∨ IsNumber v ∨
    v = ['t', 'r', 'u', 'e'] ∨ v = ['f', 'a', 'l', 's', 'e'] ∨ v = ['n', 'u', 'l', 'l'] ∨
    (0 < f ∧ ∃ items t, Items (ElemItem (JValue f)) ']' items t ∧ v = '[' :: t) ∨
    (0 < f ∧ ∃ ms t, Items (MemberItem (JValue f)) cRBrace ms t ∧ v = cLBrace :: t)

/-- The characters a JSON value can start with. -/
def valueHead (c : Char) : Bool :=
  c == cQuote || c == '-' || isDigit c || c == 't' || c == 'f' || c == 'n' || c == '['
    || c == cLBrace

/-- The text needs no compaction: it has no white space and none of the
characters `json.Marshal` escapes (`<`, `>`, `&`, U+2028, U+2029). -/
def isCompact (m : Bytes) : Bool := m.all (fun c => !isSpace c && htmlEscape c == [c])

/-- The frame of four elements, written without white space. -/
def frame4 (e0 e1 e2 e3 : Bytes) : Bytes :=
  '[' :: (e0 ++ (',' :: e1 ++ (',' :: e2 ++ (',' :: e3 ++ []))) ++ [']'])

/-! ## `websocket/data.go`: the positional payloads -/

/-- Go `isValidNumber`: the whole text is one number literal. -/
def isValidNumber (s : Bytes) : Bool := scanNum s == some (s, [])

/-- Go `strconv.ParseInt(lit, 10, 64)` followed by the `OverflowInt` check of
an integer field `bits` wide. -/
def parseIntBits (bits : Nat) (lit : Bytes) : Option Int :=
  match parseInt64 lit with
  | some n => if -(2 ^ (bits - 1) : Int) ≤ n ∧ n < 2 ^ (bits - 1) then some n else none
  | none => none

/-- One step of a decode that can stop: it goes on with a state, or the
decoder returns at once with an error. -/
inductive Step (σ : Type) where
  /-- Go on. -/
  | next (st : Dec σ)
  /-- Stop: the value as it is and the error returned. -/
  | abort (s : σ) (e : GoError)
  deriving DecidableEq, Repr

/-- Decode one value into a `json.Number`: a number literal is stored as its
text, a string literal that holds a number as its content; `null` leaves the
value alone; a string that holds no number stops the decode; anything else
saves an error. -/
def storeNumber {σ : Type} (set : σ → String → σ) (raw : Bytes) (st : Dec σ) : Step σ :=
  match kindOf raw with
  | .null => .next st
  | .number => .next (set st.1 (String.mk raw), st.2)
  | .string =>
    if isValidNumber (unquote raw).toList then .next (set st.1 (unquote raw), st.2)
    else .abort st.1 .invalidNumber
  | _ => .next (saveError st)

/-- Decode one value into an integer field `bits` wide. -/
def storeInt {σ : Type} (bits : Nat) (set : σ → Int → σ) (raw : Bytes) (st : Dec σ) : Step σ :=
  match kindOf raw with
  | .null => .next st
  | .number =>
    match parseIntBits bits raw with
    | some n => .next (set st.1 n, st.2)
    | none => .next (saveError st)
  | _ => .next (saveError st)

/-- A destination of a positional decode: what decoding one value into it does. -/
abbrev Slot (σ : Type) := Bytes → Dec σ → Step σ

/-- Decode the elements of an array into a slice of destinations: element `i`
goes to destination `i`; past the last destination the element is decoded into
an empty `interface{}`; destinations past the last element are left alone. -/
def storeFields {σ : Type} : List (Slot σ) → List Bytes → Dec σ → Step σ
  | _, [], st => .next st
  | [], e :: es, st => storeFields [] es (if interfaceFails e then saveError st else st)
  | f :: fs, e :: es, st =>
    match f e st with
    | .next st2 => storeFields fs es st2
    | .abort s err => .abort s err

/-- Go `json.Unmarshal(data, &raw)` for a `raw []interface{}` of pointers to
the fields of a struct. -/
def unmarshalFields {σ : Type} (slots : List (Slot σ)) (data : Bytes) (s : σ) : Outcome σ :=
  match decodeTop data with
  | .invalid => .done s (some .invalidJSON)
  | .null => .done s none
  | .other => .done s (some .typeMismatch)
  | .array elems =>
    match storeFields slots elems (s, none) with
    | .next st => .done st.1 st.2
    | .abort s2 e => .done s2 (some e)

/-- Go `Level`. -/
structure Level where
  Price : String
  Volume : String
  WholeLotVolume : Int
  deriving DecidableEq, Repr

/-- Go `(l *Level) UnmarshalJSON(data []byte) error`; `intSize` is the width
of Go's `int`. -/
def Level.UnmarshalJSON (intSize : Nat) (l : Level) (data : Bytes) : Outcome Level :=
  unmarshalFields
    [storeNumber (fun l x => { l with Price := x }),
     storeInt intSize (fun l n => { l with WholeLotVolume := n }),
     storeNumber (fun l x => { l with Volume := x })] data l

/-- Go `DecimalValues`. -/
structure DecimalValues where
  Today : String
  Last24 : String
  deriving DecidableEq, Repr

/-- Go `(v *DecimalValues) UnmarshalJSON(data []byte) error`. -/
def DecimalValues.UnmarshalJSON (v : DecimalValues) (data : Bytes) : Outcome DecimalValues :=
  unmarshalFields
    [storeNumber (fun v x => { v with Today := x }),
     storeNumber (fun v x => { v with Last24 := x })] data v

/-- Go `IntValues`. -/
structure IntValues where
  Today : Int
  Last24 : Int
  deriving DecidableEq, Repr

/-- Go `(v *IntValues) UnmarshalJSON(data []byte) error`. -/
def IntValues.UnmarshalJSON (v : IntValues) (data : Bytes) : Outcome IntValues :=
  unmarshalFields
    [storeInt 64 (fun v n => { v with Today := n }),
     storeInt 64 (fun v n => { v with Last24 := n })] data v

/-- Go `Candle`. -/
structure Candle where
  Time : String
  EndTime : String
  Open : String
  High : String
  Low : String
  Close : String
  VolumeWAP : String
  Volume : String
  Count : Int
  deriving DecidableEq, Repr

/-- The destinations of `Candle.UnmarshalJSON`, in order. -/
def candleSlots : List (Slot Candle) :=
  [storeNumber (fun c x => { c with Time := x }),
   storeNumber (fun c x => { c with EndTime := x }),
   storeNumber (fun c x => { c with Open := x }),
   storeNumber (fun c x => { c with High := x }),
   storeNumber (fun c x => { c with Low := x }),
   storeNumber (fun c x => { c with Close := x }),
   storeNumber (fun c x => { c with VolumeWAP := x }),
   storeNumber (fun c x => { c with Volume := x }),
   storeInt 64 (fun c n => { c with Count := n })]

/-- Go `(c *Candle) UnmarshalJSON(data []byte) error`. -/
def Candle.UnmarshalJSON (c : Candle) (data : Bytes) : Outcome Candle :=
  unmarshalFields candleSlots data c

/-- Go `Spread`. -/
structure Spread where
  Ask : String
  Bid : String
  AskVolume : String
  BidVolume : String
  Time : String
  deriving DecidableEq, Repr

/-- Go `(s *Spread) UnmarshalJSON(data []byte) error`: the destinations are
`&s.Bid, &s.Ask, &s.Time, &s.AskVolume, &s.BidVolume, &s.Time`. -/
def Spread.UnmarshalJSON (s : Spread) (data : Bytes) : Outcome Spread :=
  unmarshalFields
    [storeNumber (fun s x => { s with Bid := x }),
     storeNumber (fun s x => { s with Ask := x }),
     storeNumber (fun s x => { s with Time := x }),
     storeNumber (fun s x => { s with AskVolume := x }),
     storeNumber (fun s x => { s with BidVolume := x }),
     storeNumber (fun s x => { s with Time := x })] data s

/-- The element is a number or a string that holds a number. -/
def isNumeric (raw : Bytes) : Bool :=
  kindOf raw == .number || (kindOf raw == .string && isValidNumber (unquote raw).toList)

/-- The `json.Number` a numeric element is decoded to. -/
def numberText (raw : Bytes) : String :=
  if kindOf raw == .number then String.mk raw else unquote raw

/-- A `json.Number` field accepts the element without an error. -/
def numberAccepts (raw : Bytes) : Bool := kindOf raw == .null || isNumeric raw

/-- An integer field `bits` wide accepts the element without an error. -/
def intAccepts (bits : Nat) (raw : Bytes) : Bool :=
  kindOf raw == .null || (kindOf raw == .number && (parseIntBits bits raw).isSome)

/-- The error a step leaves: the saved error, or the error it stopped with. -/
def Step.err {σ : Type} : Step σ → Option GoError
  | .next st => st.2
  | .abort _ e => some e

/-- The elements of an array are accepted by the destinations they are decoded
into, in order; an element past the last destination is accepted when its
decode into an empty `interface{}` reports no error. An array shorter than
the destinations is accepted as far as it goes. -/
def acceptedBy : List (Bytes → Bool) → List Bytes → Bool
  | _, [] => true
  | [], e :: es => !interfaceFails e && acceptedBy [] es
  | a :: as, e :: es => a e && acceptedBy as es

/-- The destination `f` accepts exactly the elements `a` accepts: on an
accepted element it goes on and saves no error; on another it stops, or goes
on with an error saved; an error saved before stays. -/
def SlotSpec {σ : Type} (f : Slot σ) (a : Bytes → Bool) : Prop :=
  ∀ raw st,
    match f raw st with
    | .next st2 => (st2.2 = none ↔ (st.2 = none ∧ a raw = true))
    | .abort _ _ => a raw = false

/-- The value a step leaves: the value of the state it goes on with, or the
value as it was when the decode stopped. -/
def Step.val {σ : Type} : Step σ → σ
  | .next st => st.1
  | .abort s _ => s

/-- The destination `slot` never changes the part `f` of the value. -/
def SlotKeeps {σ α : Type} (f : σ → α) (slot : Slot σ) : Prop :=
  ∀ raw st, f (slot raw st).val = f st.1

/-- What the destinations of `Candle.UnmarshalJSON` accept, in order. -/
def candleAccepts : List (Bytes → Bool) :=
  [numberAccepts, numberAccepts, numberAccepts, numberAccepts, numberAccepts, numberAccepts,
   numberAccepts, numberAccepts, intAccepts 64]

/-- What the destinations of `Level.UnmarshalJSON` accept, in order. -/
def levelAccepts (intSize : Nat) : List (Bytes → Bool) :=
  [numberAccepts, intAccepts intSize, numberAccepts]

/-- What the destinations of `DecimalValues.UnmarshalJSON` accept, in order. -/
def decimalAccepts : List (Bytes → Bool) := [numberAccepts, numberAccepts]

/-- What the destinations of `IntValues.UnmarshalJSON` accept, in order. -/
def intValuesAccepts : List (Bytes → Bool) := [intAccepts 64, intAccepts 64]

/-! ## What a decode does to a `Message` -/

/-- For each field of a `Message`, the value a decode stores in it, if it
stores one. -/
structure Patch where
  ChannelID : Option Int
  Data : Option Bytes
  ChannelName : Option String
  Pair : Option String
  Sequence : Option Int

/-- The patch that stores nothing. -/
def Patch.none : Patch :=
  { ChannelID := Option.none, Data := Option.none, ChannelName := Option.none,
    Pair := Option.none, Sequence := Option.none }

/-- The message after the stores of a patch. -/
def Patch.apply (p : Patch) (m : Message) : Message :=
  { ChannelID := p.ChannelID.getD m.ChannelID
    Data := p.Data.getD m.Data
    ChannelName := p.ChannelName.getD m.ChannelName
    Pair := p.Pair.getD m.Pair
    Sequence := { Value := p.Sequence.getD m.Sequence.Value } }

/-- The stores of `p`, then those of `q`. -/
def Patch.andThen (p q : Patch) : Patch :=
  { ChannelID := q.ChannelID.orElse (fun _ => p.ChannelID)
    Data := q.Data.orElse (fun _ => p.Data)
    ChannelName := q.ChannelName.orElse (fun _ => p.ChannelName)
    Pair := q.Pair.orElse (fun _ => p.Pair)
    Sequence := q.Sequence.orElse (fun _ => p.Sequence) }

/-- A decode step on a message is a patch of the message and a map of the
saved error, neither of which depends on the message. -/
def IsPatch (f : Dec Message → Dec Message) : Prop :=
  ∃ (p : Patch) (g : Option GoError → Option GoError), ∀ m e, f (m, e) = (p.apply m, g e)

/-! ## The order-book replica

The repository has no order-book code under `src/`: the example only mentions
a constructor, `ws.NewOrderBook(10, 5, 8)`, in a comment. The definitions of
this section follow the design document. -/

/-- Modelled from the spec: the side of a book. The order book is missing
from the sources; bids are ordered by descending price, asks by ascending
price. -/
inductive BookSide where
  | bid | ask
  deriving DecidableEq, Repr

/-- Modelled from the spec: `PriceLevel`, a price and the volume at that
price; the type of the order book is missing from the sources. Prices are
taken from any linear order, volumes from any type. -/
structure PriceLevel (P V : Type) where
  price : P
  volume : V
  deriving DecidableEq, Repr

/-- Modelled from the spec: the kind of an `OrderEvent` as the missing replica
reads it, `Add`, `Modify` or `Delete` (the constants `add`, `modify` and
`delete` of `OrderEventType`). -/
inductive EventKind where
  | add | modify | delete
  deriving DecidableEq, Repr

/-- Modelled from the spec: `OrderEvent`, the unit of book mutation of the
missing replica: a kind, a price, a volume and a timestamp. -/
structure BookEvent (P V : Type) where
  kind : EventKind
  price : P
  volume : V
  timestamp : Nat
  deriving DecidableEq, Repr

/-- Modelled from the spec: the price `p` comes before the price `q` on a
side of the missing order book: it is higher for bids, lower for asks. -/
def comesBefore {P : Type} [LinearOrder P] (side : BookSide) (p q : P) : Prop :=
  match side with
  | .bid => q < p
  | .ask => p < q

instance {P : Type} [LinearOrder P] (side : BookSide) (p q : P) :
    Decidable (comesBefore side p q) := by
  cases side <;> unfold comesBefore <;> exact inferInstance

/-- Modelled from the spec: the insert and update-volume of the missing
`OrderBookSide`: the level at the price gets the volume when the side has the
price, and a new level is put at its place in the order when it has not. -/
def upsertLevel {P V : Type} [LinearOrder P] (side : BookSide) (p : P) (v : V) :
    List (PriceLevel P V) → List (PriceLevel P V)
  | [] => [{ price := p, volume := v }]
  | l :: rest =>
    if p = l.price then { price := p, volume := v } :: rest
    else if comesBefore side p l.price then { price := p, volume := v } :: l :: rest
    else l :: upsertLevel side p v rest

/-- Modelled from the spec: the delete by price of the missing
`OrderBookSide`; nothing changes when the side has no level at the price. -/
def deleteLevel {P V : Type} [LinearOrder P] (p : P) (levels : List (PriceLevel P V)) :
    List (PriceLevel P V) :=
  levels.filter (fun l => decide (l.price ≠ p))

/-- Modelled from the spec: how the missing replica applies one `OrderEvent`
to a side: `Add` and `Modify` insert the level or overwrite its volume, and
the levels past `depth` are evicted, the worst first; `Delete` removes the
level. -/
def applyEvent {P V : Type} [LinearOrder P] (side : BookSide) (depth : Nat)
    (levels : List (PriceLevel P V)) (ev : BookEvent P V) : List (PriceLevel P V) :=
  match ev.kind with
  | .add => (upsertLevel side ev.price ev.volume levels).take depth
  | .modify => (upsertLevel side ev.price ev.volume levels).take depth
  | .delete => deleteLevel ev.price levels

/-- Modelled from the spec: the sides and the depth of `OrderBookReplica`,
the replica that is missing from the sources. -/
structure OrderBook (P V : Type) where
  bids : List (PriceLevel P V)
  asks : List (PriceLevel P V)
  depth : Nat
  deriving DecidableEq, Repr

/-- Modelled from the spec: how the missing replica applies a delta: the
events of each side, in the order given. -/
def applyDelta {P V : Type} [LinearOrder P] (book : OrderBook P V)
    (bidEvents askEvents : List (BookEvent P V)) : OrderBook P V :=
  { book with
    bids := bidEvents.foldl (applyEvent .bid book.depth) book.bids
    asks := askEvents.foldl (applyEvent .ask book.depth) book.asks }

/-- Modelled from the spec: the volume at a price of a side of the missing
order book, if the side has a level at the price. -/
def volumeAt {P V : Type} [LinearOrder P] (p : P) : List (PriceLevel P V) → Option V
  | [] => none
  | l :: rest => if l.price = p then some l.volume else volumeAt p rest

/-- Modelled from the spec: the invariant of a side of the missing order book:
the levels are in the order of the side, so that no two have the same price. -/
def SideSorted {P V : Type} [LinearOrder P] (side : BookSide) (levels : List (PriceLevel P V)) :
    Prop :=
  levels.Pairwise (fun a b => comesBefore side a.price b.price)

/-- Modelled from the spec: the snapshot of the design document's example,
bids `[(100,5),(99,3)]` and asks `[(101,4),(102,2)]`, in a replica of depth 10. -/
def exampleBook : OrderBook Int Int :=
  { bids := [{ price := 100, volume := 5 }, { price := 99, volume := 3 }]
    asks := [{ price := 101, volume := 4 }, { price := 102, volume := 2 }]
    depth := 10 }

/-! ## The scanner consumes what it returns -/

theorem span_append (p : Char → Bool) (s : Bytes) : (s.span p).1 ++ (s.span p).2 = s := by
  rw [List.span_eq_take_drop]
  exact List.takeWhile_append_dropWhile p s

theorem span_snd_head (p : Char → Bool) (s : Bytes) (c : Char) (r : Bytes)
    (h : (s.span p).2 = c :: r) : p c = false := by
  rw [List.span_eq_take_drop] at h
  have h1 : List.dropWhile p s = c :: r := h
  have h2 : (List.dropWhile p s).head? = some c := by rw [h1]; rfl
  have h3 := List.head?_dropWhile_not p s
  rw [h2] at h3
  simpa using h3

theorem span_fst_all (p : Char → Bool) (s : Bytes) : ∀ c ∈ (s.span p).1, p c = true := by
  rw [List.span_eq_take_drop]
  intro c hc
  exact List.mem_takeWhile_imp hc


/-! ## String literals -/

theorem scanStr_grammar : ∀ (s k r : Bytes), scanStr s = some (k, r) → StrBody k ∧ s = k ++ r
  | [], k, r, h => by simp [scanStr] at h
  | c :: s, k, r, h => by
    unfold scanStr at h
    split at h
    · rename_i hq
      cases h
      have : c = cQuote := by simpa using hq
      subst this
      exact ⟨StrBody.close, rfl⟩
    · rename_i hq
      split at h
      · rename_i he
        have hce : c = cEsc := by simpa using he
        subst hce
        split at h
        · cases h
        · rename_i e r1
          split at h
          · rename_i hs1
            cases hs : scanStr r1 with
            | none => simp [hs] at h
            | some p =>
              obtain ⟨k1, r2⟩ := p
              simp [hs, consL] at h
              obtain ⟨rfl, rfl⟩ := h
              obtain ⟨g1, g2⟩ := scanStr_grammar r1 k1 r2 hs
              exact ⟨StrBody.esc e k1 hs1 g1, by simp [g2]⟩
          · split at h
            · rename_i hu
              have : e = 'u' := by simpa using hu
              subst this
              split at h
              · rename_i h1 h2 h3 h4 r2
                split at h
                · rename_i hh
                  cases hs : scanStr r2 with
                  | none => simp [hs] at h
                  | some p =>
                    obtain ⟨k1, r3⟩ := p
                    simp [hs, consL] at h
                    obtain ⟨rfl, rfl⟩ := h
                    obtain ⟨g1, g2⟩ := scanStr_grammar r2 k1 r3 hs
                    exact ⟨StrBody.uni h1 h2 h3 h4 k1 hh g1, by simp [g2]⟩
                · cases h
              · cases h
            · cases h
      · rename_i he
        split at h
        · cases h
        · rename_i h32
          cases hs : scanStr s with
          | none => simp [hs] at h
          | some p =>
            obtain ⟨k1, r2⟩ := p
            simp [hs, consC] at h
            obtain ⟨rfl, rfl⟩ := h
            obtain ⟨g1, g2⟩ := scanStr_grammar s k1 r2 hs
            exact ⟨StrBody.char c k1 (by simpa using hq) (by simpa using he) h32 g1, by simp [g2]⟩

theorem scanStr_of_grammar (k : Bytes) (hk : StrBody k) (r : Bytes) :
    scanStr (k ++ r) = some (k, r) := by
  induction hk with
  | close =>
    show scanStr (cQuote :: r) = _
    unfold scanStr
    simp
  | esc e k he _ ih =>
    have : (cEsc == cQuote) = false := by decide
    show scanStr (cEsc :: e :: (k ++ r)) = _
    unfold scanStr
    simp [this, he, ih, consL]
  | uni h1 h2 h3 h4 k hh _ ih =>
    have h1' : (cEsc == cQuote) = false := by decide
    have h2' : isSimpleEsc 'u' = false := by decide
    simp only [Bool.and_eq_true] at hh
    simp [scanStr, h1', h2', hh, ih, consL]
  | char c k hq he h32 _ ih =>
    show scanStr (c :: (k ++ r)) = _
    unfold scanStr
    simp [hq, he, h32, ih, consC]

/-! ## Facts about the decoder -/

theorem parseNat_head (c : Char) (r : Bytes) (hd : isDigit c = false) :
    parseNat (c :: r) = none := by
  simp [parseNat, hd]

theorem kindOf_of_parseInt64 (lit : Bytes) (n : Int) (h : parseInt64 lit = some n) :
    kindOf lit = .number := by
  cases lit with
  | nil => rfl
  | cons c r =>
    by_cases hm : c = '-'
    · subst hm; rfl
    · cases hd : isDigit c with
      | false =>
        simp [parseInt64, hm, parseNat_head c r hd] at h
      | true =>
        unfold kindOf
        simp only [isDigit, Bool.and_eq_true, decide_eq_true_eq] at hd
        have h1 : c ≠ cLBrace := by rintro rfl; revert hd; decide
        have h2 : c ≠ '[' := by rintro rfl; revert hd; decide
        have h3 : c ≠ cQuote := by rintro rfl; revert hd; decide
        have h4 : c ≠ 't' := by rintro rfl; revert hd; decide
        have h5 : c ≠ 'f' := by rintro rfl; revert hd; decide
        have h6 : c ≠ 'n' := by rintro rfl; revert hd; decide
        simp [h1, h2, h3, h4, h5, h6]

theorem unmarshalRaw_of_array (data : Bytes) (es : List Bytes) (h : decodeTop data = .array es) :
    unmarshalRaw data = .ok es := by
  simp [unmarshalRaw, h]

/-- What `Message.UnmarshalJSON` does with a frame of four elements, on any receiver. -/
theorem unmarshal_four_any (msg : Message) (data id payload name pair : Bytes) (n : Int)
    (hframe : decodeTop data = .array [id, payload, name, pair])
    (hid : parseInt64 id = some n)
    (hpayload : kindOf payload ≠ .null)
    (hname : kindOf name = .string)
    (hpair : kindOf pair = .string) :
    Message.UnmarshalJSON msg data =
      .done { msg with ChannelID := n, Data := payload,
                       ChannelName := unquote name, Pair := unquote pair } none := by
  have hk := kindOf_of_parseInt64 id n hid
  simp only [Message.UnmarshalJSON, unmarshalRaw_of_array data _ hframe]
  simp [unmarshalBody, hframe, bodyFor, storeAll, storeTarget, storeInt64, storeRaw, storeString,
    hk, hid, hname, hpair]

/-- What `Message.UnmarshalJSON` does with a frame of three elements whose
third element is an object with the one member `sequence`, on any receiver. -/
theorem unmarshal_three_any (msg : Message) (data payload name seq key val : Bytes) (n : Int)
    (hframe : decodeTop data = .array [payload, name, seq])
    (hpayload : kindOf payload ≠ .null)
    (hname : kindOf name = .string)
    (hseq : kindOf seq = .object)
    (hmem : objectMembers seq = [(key, val)])
    (hkey : keyMatches "sequence" key = true)
    (hval : parseInt64 val = some n) :
    Message.UnmarshalJSON msg data =
      .done { msg with Data := payload, ChannelName := unquote name,
                       Sequence := { Value := n } } none := by
  have hk := kindOf_of_parseInt64 val n hval
  simp only [Message.UnmarshalJSON, unmarshalRaw_of_array data _ hframe]
  simp [unmarshalBody, hframe, bodyFor, storeAll, storeTarget, storeInt64, storeRaw, storeString,
    storeSeq, storeSeqMembers, hk, hval, hname, hseq, hmem, hkey]


/-! ## Number literals -/

theorem isNumChar_of_isDigit (c : Char) (h : isDigit c = true) : isNumChar c = true := by
  simp [isNumChar, h]

theorem spanDigits_stable : ∀ (ds r : Bytes), (∀ c ∈ ds, isDigit c = true) →
    (∀ c t, r = c :: t → isDigit c = false) → spanDigits (ds ++ r) = (ds, r)
  | [], r, _, hr => by
    cases r with
    | nil => rfl
    | cons c r =>
      have hc : isDigit c = false := hr c r rfl
      simp [spanDigits, List.span_eq_take_drop, List.takeWhile, List.dropWhile, hc]
  | d :: ds, r, hds, hr => by
    have hd : isDigit d = true := hds d (by simp)
    have ih := spanDigits_stable ds r (fun c hc => hds c (by simp [hc])) hr
    simp only [spanDigits, List.span_eq_take_drop, Prod.mk.injEq] at ih ⊢
    simp [List.takeWhile, List.dropWhile, hd, ih.1, ih.2]

theorem noDigit_of_noNumHead (r : Bytes) (h : noNumHead r = true) :
    ∀ c t, r = c :: t → isDigit c = false := by
  intro c t hr
  subst hr
  cases hd : isDigit c with
  | false => rfl
  | true => simp [noNumHead, isNumChar, hd] at h

theorem spanDigits_fst_numChar (s : Bytes) : ∀ c ∈ (spanDigits s).1, isNumChar c = true :=
  fun c hc => isNumChar_of_isDigit c (span_fst_all isDigit s c hc)

theorem spanDigits_self (s : Bytes) (r : Bytes) (hr : noNumHead r = true) :
    spanDigits ((spanDigits s).1 ++ r) = ((spanDigits s).1, r) :=
  spanDigits_stable _ r (span_fst_all isDigit s) (noDigit_of_noNumHead r hr)

theorem noNumHead_not_e (c : Char) (r : Bytes) (h : noNumHead (c :: r) = true) :
    (c == 'e' || c == 'E') = false ∧ (c == '.') = false ∧ isDigit c = false ∧
      (c == '-') = false := by
  simp only [noNumHead, isNumChar, Bool.not_eq_true', Bool.or_eq_false_iff] at h
  simp [h]

theorem scanExp_nil_stable (r2 : Bytes) (h : noNumHead r2 = true) : scanExp r2 = some ([], r2) := by
  cases r2 with
  | nil => rfl
  | cons c r => simp [scanExp, (noNumHead_not_e c r h).1]

theorem scanExp_ok (s k r : Bytes) (h : scanExp s = some (k, r)) : NumScan scanExp s k r := by
  cases s with
  | nil =>
    simp [scanExp] at h
    obtain ⟨rfl, rfl⟩ := h
    exact ⟨rfl, by simp, fun r2 h2 => scanExp_nil_stable r2 h2⟩
  | cons e s =>
    by_cases he : (e == 'e' || e == 'E') = true
    · simp only [scanExp, he, if_true] at h
      cases s with
      | nil => simp at h
      | cons g s1 =>
        by_cases hg : (g == '+' || g == '-') = true
        · simp only [hg, if_true] at h
          cases s1 with
          | nil => simp at h
          | cons d s2 =>
            by_cases hd : isDigit d = true
            · simp only [hd, if_true, Option.some.injEq, consL, Prod.mk.injEq] at h
              obtain ⟨rfl, rfl⟩ := h
              refine ⟨by simp [span_append, spanDigits], ?_, ?_⟩
              · intro c hc
                simp only [List.cons_append, List.nil_append, List.mem_cons] at hc
                rcases hc with rfl | rfl | rfl | hc
                · simp only [isNumChar]; simp only [Bool.or_eq_true] at he ⊢; tauto
                · simp only [isNumChar]; simp only [Bool.or_eq_true] at hg ⊢; tauto
                · exact isNumChar_of_isDigit _ hd
                · exact spanDigits_fst_numChar s2 c hc
              · intro r2 h2
                simp [scanExp, he, hg, hd, consL, spanDigits_self s2 r2 h2]
            · simp [hd] at h
        · simp only [hg] at h
          by_cases hd : isDigit g = true
          · simp only [hd, if_true, Option.some.injEq, consL, Prod.mk.injEq] at h
            simp at h
            obtain ⟨rfl, rfl⟩ := h
            refine ⟨by simp [span_append, spanDigits], ?_, ?_⟩
            · intro c hc
              simp only [List.cons_append, List.nil_append, List.mem_cons] at hc
              rcases hc with rfl | rfl | hc
              · simp only [isNumChar]; simp only [Bool.or_eq_true] at he ⊢; tauto
              · exact isNumChar_of_isDigit _ hd
              · exact spanDigits_fst_numChar s1 c hc
            · intro r2 h2
              simp [scanExp, he, hg, hd, consL, spanDigits_self s1 r2 h2]
          · simp [hd] at h
    · simp only [scanExp, he] at h
      simp at h
      obtain ⟨rfl, rfl⟩ := h
      exact ⟨rfl, by simp, fun r2 h2 => scanExp_nil_stable r2 h2⟩

theorem scanExp_head (s k r : Bytes) (h : scanExp s = some (k, r)) (r2 : Bytes)
    (h2 : noNumHead r2 = true) : ∀ c t, k ++ r2 = c :: t → isDigit c = false := by
  cases s with
  | nil =>
    simp [scanExp] at h
    obtain ⟨rfl, rfl⟩ := h
    simpa using noDigit_of_noNumHead r2 h2
  | cons e s =>
    by_cases he : (e == 'e' || e == 'E') = true
    · have hk : ∃ k1, k = e :: k1 := by
        simp only [scanExp, he, if_true] at h
        cases s with
        | nil => simp at h
        | cons g s1 =>
          by_cases hg : (g == '+' || g == '-') = true
          · simp only [hg, if_true] at h
            cases s1 with
            | nil => simp at h
            | cons d s2 =>
              by_cases hd : isDigit d = true
              · simp only [hd, if_true, Option.some.injEq, consL, Prod.mk.injEq] at h
                exact ⟨_, h.1.symm⟩
              · simp [hd] at h
          · simp only [hg] at h
            by_cases hd : isDigit g = true
            · simp only [hd, if_true, Option.some.injEq, consL, Prod.mk.injEq] at h
              simp at h
              exact ⟨_, h.1.symm⟩
            · simp [hd] at h
      obtain ⟨k1, rfl⟩ := hk
      intro c t hc
      simp only [List.cons_append, List.cons.injEq] at hc
      obtain ⟨rfl, -⟩ := hc
      simp only [Bool.or_eq_true, beq_iff_eq] at he
      rcases he with rfl | rfl <;> decide
    · simp only [scanExp, he] at h
      simp at h
      obtain ⟨rfl, rfl⟩ := h
      simpa using noDigit_of_noNumHead r2 h2

theorem scanFrac_nil_stable (r2 : Bytes) (h : noNumHead r2 = true) :
    scanFrac r2 = some ([], r2) := by
  cases r2 with
  | nil => rfl
  | cons c r =>
    simp only [scanFrac, (noNumHead_not_e c r h).2.1]
    simpa using scanExp_nil_stable (c :: r) h

theorem scanFrac_ok (s k r : Bytes) (h : scanFrac s = some (k, r)) :
    NumScan scanFrac s k r ∧ ∀ r2, noNumHead r2 = true → ∀ c t, k ++ r2 = c :: t →
      isDigit c = false := by
  cases s with
  | nil =>
    simp [scanFrac] at h
    obtain ⟨rfl, rfl⟩ := h
    exact ⟨⟨rfl, by simp, fun r2 h2 => scanFrac_nil_stable r2 h2⟩,
      fun r2 h2 => by simpa using noDigit_of_noNumHead r2 h2⟩
  | cons p s =>
    by_cases hp : (p == '.') = true
    · simp only [scanFrac, hp, if_true] at h
      cases s with
      | nil => simp at h
      | cons d s1 =>
        by_cases hd : isDigit d = true
        · simp only [hd, if_true] at h
          cases hx : scanExp (spanDigits s1).2 with
          | none => simp [hx] at h
          | some q =>
            obtain ⟨k1, r1⟩ := q
            simp only [hx, Option.map_some', consL, Option.some.injEq, Prod.mk.injEq] at h
            obtain ⟨rfl, rfl⟩ := h
            obtain ⟨e1, e2, e3⟩ := scanExp_ok _ k1 r1 hx
            have hsp := span_append isDigit s1
            refine ⟨⟨?_, ?_, ?_⟩, ?_⟩
            · have : s1 = (spanDigits s1).1 ++ (k1 ++ r1) := by
                rw [← e1]; exact hsp.symm
              simp only [List.cons_append, List.nil_append, List.append_assoc]
              rw [← this]
            · intro c hc
              simp only [List.cons_append, List.nil_append, List.mem_cons, List.mem_append] at hc
              rcases hc with rfl | rfl | hc | hc
              · simp only [beq_iff_eq] at hp; subst hp; decide
              · exact isNumChar_of_isDigit _ hd
              · exact spanDigits_fst_numChar s1 c hc
              · exact e2 c hc
            · intro r2 h2
              have hst := spanDigits_stable (spanDigits s1).1 (k1 ++ r2)
                (span_fst_all isDigit s1) (scanExp_head _ k1 r1 hx r2 h2)
              simp [scanFrac, hp, hd, hst, e3 r2 h2, consL]
            · intro r2 _ c t hc
              simp only [List.cons_append, List.cons.injEq] at hc
              obtain ⟨rfl, -⟩ := hc
              simp only [beq_iff_eq] at hp; subst hp; decide
        · simp [hd] at h
    · simp only [scanFrac, hp] at h
      simp only [Bool.false_eq_true, if_false] at h
      obtain ⟨e1, e2, e3⟩ := scanExp_ok _ k r h
      refine ⟨⟨e1, e2, ?_⟩, fun r2 h2 => scanExp_head _ k r h r2 h2⟩
      intro r2 h2
      cases hk : k ++ r2 with
      | nil =>
        have : k = [] ∧ r2 = [] := by simpa using hk
        obtain ⟨rfl, rfl⟩ := this
        rfl
      | cons c t =>
        have hc : (c == '.') = false := by
          cases k with
          | nil =>
            simp only [List.nil_append] at hk
            subst hk
            exact (noNumHead_not_e c t h2).2.1
          | cons c1 k1 =>
            simp only [List.cons_append, List.cons.injEq] at hk e1
            obtain ⟨rfl, -⟩ := hk
            obtain ⟨rfl, -⟩ := e1
            simpa using hp
        have := e3 r2 h2
        rw [hk] at this
        simp [scanFrac, hc, this]

theorem scanInt_ok (s k r : Bytes) (h : scanInt s = some (k, r)) :
    NumScan scanInt s k r ∧ ∃ d k1, k = d :: k1 ∧ isDigit d = true := by
  cases s with
  | nil => simp [scanInt] at h
  | cons c s =>
    by_cases hz : (c == '0') = true
    · simp only [scanInt, hz, if_true] at h
      cases hx : scanFrac s with
      | none => simp [hx] at h
      | some q =>
        obtain ⟨k1, r1⟩ := q
        simp only [hx, Option.map_some', consC, Option.some.injEq, Prod.mk.injEq] at h
        obtain ⟨rfl, rfl⟩ := h
        obtain ⟨⟨e1, e2, e3⟩, -⟩ := scanFrac_ok _ k1 r1 hx
        have hcd : isDigit c = true := by simp only [beq_iff_eq] at hz; subst hz; decide
        refine ⟨⟨by simp [e1], ?_, ?_⟩, ⟨c, k1, rfl, hcd⟩⟩
        · intro x hx
          simp only [List.mem_cons] at hx
          rcases hx with rfl | hx
          · exact isNumChar_of_isDigit _ hcd
          · exact e2 x hx
        · intro r2 h2
          simp [scanInt, hz, e3 r2 h2, consC]
    · simp only [scanInt, hz] at h
      by_cases hd : isDigit c = true
      · simp only [Bool.false_eq_true, if_false, hd, if_true] at h
        cases hx : scanFrac (spanDigits s).2 with
        | none => simp [hx] at h
        | some q =>
          obtain ⟨k1, r1⟩ := q
          simp only [hx, Option.map_some', consL, Option.some.injEq, Prod.mk.injEq] at h
          obtain ⟨rfl, rfl⟩ := h
          obtain ⟨⟨e1, e2, e3⟩, e4⟩ := scanFrac_ok _ k1 r1 hx
          have hsp := span_append isDigit s
          refine ⟨⟨?_, ?_, ?_⟩, ⟨c, _, rfl, hd⟩⟩
          · have : s = (spanDigits s).1 ++ (k1 ++ r1) := by
              rw [← e1]; exact hsp.symm
            simp only [List.cons_append, List.append_assoc]
            rw [← this]
          · intro x hx
            simp only [List.cons_append, List.mem_cons, List.mem_append] at hx
            rcases hx with rfl | hx | hx
            · exact isNumChar_of_isDigit _ hd
            · exact spanDigits_fst_numChar s x hx
            · exact e2 x hx
          · intro r2 h2
            have hst := spanDigits_stable (spanDigits s).1 (k1 ++ r2)
              (span_fst_all isDigit s) (e4 r2 h2)
            simp [scanInt, hz, hd, hst, e3 r2 h2, consL]
      · simp [hd] at h

theorem scanNum_ok (s k r : Bytes) (h : scanNum s = some (k, r)) :
    NumScan scanNum s k r ∧ ∃ d k1, k = d :: k1 ∧ (d = '-' ∨ isDigit d = true) := by
  cases s with
  | nil => simp [scanNum] at h
  | cons c s =>
    by_cases hm : (c == '-') = true
    · simp only [scanNum, hm, if_true] at h
      cases hx : scanInt s with
      | none => simp [hx] at h
      | some q =>
        obtain ⟨k1, r1⟩ := q
        simp only [hx, Option.map_some', consC, Option.some.injEq, Prod.mk.injEq] at h
        obtain ⟨rfl, rfl⟩ := h
        obtain ⟨⟨e1, e2, e3⟩, -⟩ := scanInt_ok _ k1 r1 hx
        have hc : c = '-' := by simpa using hm
        refine ⟨⟨by simp [e1], ?_, ?_⟩, ⟨c, k1, rfl, Or.inl hc⟩⟩
        · intro x hx
          simp only [List.mem_cons] at hx
          rcases hx with rfl | hx
          · subst hc; decide
          · exact e2 x hx
        · intro r2 h2
          simp [scanNum, hm, e3 r2 h2, consC]
    · simp only [scanNum, hm] at h
      simp only [Bool.false_eq_true, if_false] at h
      obtain ⟨⟨e1, e2, e3⟩, d, k1, rfl, hd⟩ := scanInt_ok _ k r h
      refine ⟨⟨e1, e2, ?_⟩, ⟨d, k1, rfl, Or.inr hd⟩⟩
      intro r2 h2
      have hdc : d = c := by
        simp only [List.cons_append, List.cons.injEq] at e1
        exact e1.1.symm
      subst hdc
      have := e3 r2 h2
      simp only [List.cons_append] at this ⊢
      simp [scanNum, hm, this]

/-! ## Arrays and objects: from the scanner to the grammar -/

theorem takeWhile_space (s : Bytes) : allSpace (s.takeWhile isSpace) :=
  fun _ hc => List.mem_takeWhile_imp hc

theorem dropWhile_head (p : Char → Bool) (s : Bytes) (c : Char) (r : Bytes)
    (h : s.dropWhile p = c :: r) : p c = false := by
  have h2 : (List.dropWhile p s).head? = some c := by rw [h]; rfl
  have h3 := List.head?_dropWhile_not p s
  rw [h2] at h3
  simpa using h3

theorem scanMore_grammar {α : Type} (item : Bytes → Option (α × Bytes × Bytes))
    (Item : α → Bytes → Prop) (close : Char)
    (hitem : ∀ s a raw r, item s = some (a, raw, r) → Item a raw ∧ s = raw ++ r) :
    ∀ (n : Nat) (s : Bytes) (items : List α) (raw rest : Bytes),
      scanMore item close n s = some (items, raw, rest) →
      More Item close items raw ∧ s = raw ++ rest
  | 0, s, items, raw, rest, h => by simp [scanMore] at h
  | n + 1, s, items, raw, rest, h => by
    have hs := List.takeWhile_append_dropWhile isSpace s
    have hw := takeWhile_space s
    unfold scanMore at h
    simp only [List.span_eq_take_drop] at h
    cases hw2 : s.dropWhile isSpace with
    | nil => simp [hw2] at h
    | cons c r =>
      rw [hw2] at hs
      simp only [hw2] at h
      by_cases hc : (c == close) = true
      · simp only [hc, if_true, Option.some.injEq, Prod.mk.injEq] at h
        obtain ⟨rfl, rfl, rfl⟩ := h
        have : c = close := by simpa using hc
        subst this
        exact ⟨More.close _ hw, by simp [hs]⟩
      · simp only [hc, Bool.false_eq_true, if_false] at h
        by_cases hcomma : (c == ',') = true
        · simp only [hcomma, if_true] at h
          have h2s := List.takeWhile_append_dropWhile isSpace r
          have h2w := takeWhile_space r
          cases hi : item (r.dropWhile isSpace) with
          | none => simp [hi] at h
          | some q =>
            obtain ⟨a, rawi, r3⟩ := q
            simp only [hi] at h
            cases hm : scanMore item close n r3 with
            | none => simp [hm] at h
            | some q2 =>
              obtain ⟨more, raw2, r4⟩ := q2
              simp only [hm, Option.some.injEq, Prod.mk.injEq] at h
              obtain ⟨rfl, rfl, rfl⟩ := h
              obtain ⟨i1, i2⟩ := hitem _ a rawi r3 hi
              obtain ⟨m1, m2⟩ := scanMore_grammar item Item close hitem n r3 more raw2 r4 hm
              have : c = ',' := by simpa using hcomma
              subst this
              refine ⟨More.next _ _ a rawi more raw2 hw h2w i1 m1, ?_⟩
              have er : r = r.takeWhile isSpace ++ (rawi ++ (raw2 ++ r4)) := by
                have e0 := h2s.symm
                rw [i2, m2] at e0
                exact e0
              have e1 := hs.symm.trans (congrArg (fun t => s.takeWhile isSpace ++ ',' :: t) er)
              simpa using e1
        · simp [hcomma] at h

theorem scanItems_grammar {α : Type} (item : Bytes → Option (α × Bytes × Bytes))
    (Item : α → Bytes → Prop) (close : Char)
    (hitem : ∀ s a raw r, item s = some (a, raw, r) → Item a raw ∧ s = raw ++ r)
    (s : Bytes) (items : List α) (raw rest : Bytes)
    (h : scanItems item close s = some (items, raw, rest)) :
    Items Item close items raw ∧ s = raw ++ rest := by
  have hs := List.takeWhile_append_dropWhile isSpace s
  have hw := takeWhile_space s
  unfold scanItems at h
  simp only [List.span_eq_take_drop] at h
  cases hw2 : s.dropWhile isSpace with
  | nil => simp [hw2] at h
  | cons c r =>
    simp only [hw2] at h
    by_cases hc : (c == close) = true
    · simp only [hc, if_true, Option.some.injEq, Prod.mk.injEq] at h
      obtain ⟨rfl, rfl, rfl⟩ := h
      have : c = close := by simpa using hc
      subst this
      rw [hw2] at hs
      exact ⟨Items.empty _ hw, by simp [hs]⟩
    · simp only [hc, Bool.false_eq_true, if_false] at h
      cases hi : item (c :: r) with
      | none => simp [hi] at h
      | some q =>
        obtain ⟨a, rawi, r3⟩ := q
        simp only [hi] at h
        cases hm : scanMore item close r3.length r3 with
        | none => simp [hm] at h
        | some q2 =>
          obtain ⟨more, raw2, r4⟩ := q2
          simp only [hm, Option.some.injEq, Prod.mk.injEq] at h
          obtain ⟨rfl, rfl, rfl⟩ := h
          obtain ⟨i1, i2⟩ := hitem _ a rawi r3 hi
          obtain ⟨m1, m2⟩ := scanMore_grammar item Item close hitem _ r3 more raw2 r4 hm
          refine ⟨Items.first _ a rawi more raw2 hw i1 m1, ?_⟩
          have e0 := hs.symm
          rw [hw2, i2, m2] at e0
          simpa using e0

theorem asElem_grammar (val : Bytes → Option (Bytes × Bytes)) (V : Bytes → Prop)
    (hval : ∀ s v r, val s = some (v, r) → V v ∧ s = v ++ r)
    (s a raw r : Bytes) (h : asElem val s = some (a, raw, r)) :
    ElemItem V a raw ∧ s = raw ++ r := by
  unfold asElem at h
  cases hv : val s with
  | none => simp [hv] at h
  | some q =>
    obtain ⟨v, r1⟩ := q
    simp only [hv, Option.map_some', Option.some.injEq, Prod.mk.injEq] at h
    obtain ⟨rfl, rfl, rfl⟩ := h
    obtain ⟨g1, g2⟩ := hval s _ _ hv
    exact ⟨⟨rfl, g1⟩, g2⟩

theorem asMember_grammar (val : Bytes → Option (Bytes × Bytes)) (V : Bytes → Prop)
    (hval : ∀ s v r, val s = some (v, r) → V v ∧ s = v ++ r)
    (s : Bytes) (a : Bytes × Bytes) (raw r : Bytes) (h : asMember val s = some (a, raw, r)) :
    MemberItem V a raw ∧ s = raw ++ r := by
  unfold asMember at h
  cases s with
  | nil => simp at h
  | cons q s1 =>
    simp only [List.span_eq_take_drop] at h
    by_cases hq : (q == cQuote) = true
    · simp only [hq, if_true] at h
      have hqe : q = cQuote := by simpa using hq
      subst hqe
      cases hs : scanStr s1 with
      | none => simp [hs] at h
      | some p =>
        obtain ⟨k, r1⟩ := p
        simp only [hs] at h
        obtain ⟨k1, k2⟩ := scanStr_grammar s1 k r1 hs
        have hs1 := List.takeWhile_append_dropWhile isSpace r1
        cases hd : r1.dropWhile isSpace with
        | nil => simp [hd] at h
        | cons c r2 =>
          simp only [hd] at h
          by_cases hc : (c == ':') = true
          · simp only [hc, if_true] at h
            have hce : c = ':' := by simpa using hc
            subst hce
            have hs2 := List.takeWhile_append_dropWhile isSpace r2
            cases hv : val (r2.dropWhile isSpace) with
            | none => simp [hv] at h
            | some p2 =>
              obtain ⟨v, r3⟩ := p2
              simp only [hv, Option.some.injEq, Prod.mk.injEq] at h
              obtain ⟨rfl, rfl, rfl⟩ := h
              obtain ⟨g1, g2⟩ := hval _ v r3 hv
              refine ⟨⟨k, _, _, k1, takeWhile_space r1, takeWhile_space r2, rfl, g1, by simp⟩, ?_⟩
              have e2 : r2 = r2.takeWhile isSpace ++ (v ++ r3) := by
                have e0 := hs2.symm
                rw [g2] at e0
                exact e0
              have e1 : r1 = r1.takeWhile isSpace ++ ':' :: r2 := by
                have e0 := hs1.symm
                rw [hd] at e0
                exact e0
              have e3 := e1.trans (congrArg (fun t => r1.takeWhile isSpace ++ ':' :: t) e2)
              rw [k2]
              have e4 := congrArg (fun t => cQuote :: (k ++ t)) e3
              simpa using e4
          · simp [hc] at h
    · simp [hq] at h

theorem scanWord_grammar (w s k r : Bytes) (h : scanWord w s = some (k, r)) :
    k = w ∧ s = w ++ r := by
  unfold scanWord at h
  by_cases hp : w.isPrefixOf s = true
  · simp only [hp, if_true, Option.some.injEq, Prod.mk.injEq] at h
    obtain ⟨rfl, rfl⟩ := h
    have := List.isPrefixOf_iff_prefix.mp hp
    exact ⟨rfl, (List.prefix_iff_eq_append.mp this).symm⟩
  · simp [hp] at h

theorem scanValue_grammar : ∀ (f : Nat) (s v r : Bytes), scanValue f s = some (v, r) →
    JValue f v ∧ s = v ++ r
  | 0, s, v, r, h => by simp [scanValue] at h
  | f + 1, s, v, r, h => by
    unfold scanValue at h
    cases s with
    | nil => simp at h
    | cons c s1 =>
      simp only [] at h
      by_cases hq : (c == cQuote) = true
      · simp only [hq, if_true] at h
        have : c = cQuote := by simpa using hq
        subst this
        cases hs : scanStr s1 with
        | none => simp [hs] at h
        | some p =>
          obtain ⟨k, r1⟩ := p
          simp only [hs, Option.map_some', consC, Option.some.injEq, Prod.mk.injEq] at h
          obtain ⟨rfl, rfl⟩ := h
          obtain ⟨k1, k2⟩ := scanStr_grammar s1 k _ hs
          exact ⟨Or.inl ⟨k, k1, rfl⟩, by simp [k2]⟩
      · simp only [hq, Bool.false_eq_true, if_false] at h
        by_cases ha : (c == '[') = true
        · simp only [ha, if_true] at h
          have : c = '[' := by simpa using ha
          subst this
          cases f with
          | zero => simp at h
          | succ f1 =>
            simp only [] at h
            cases hi : scanItems (asElem (scanValue (f1 + 1))) ']' s1 with
            | none => simp [hi] at h
            | some p =>
              obtain ⟨items, raw, rest⟩ := p
              simp only [hi, Option.map_some', Option.some.injEq, Prod.mk.injEq] at h
              obtain ⟨rfl, rfl⟩ := h
              obtain ⟨g1, g2⟩ := scanItems_grammar _ (ElemItem (JValue (f1 + 1))) ']'
                (asElem_grammar _ _ (scanValue_grammar (f1 + 1))) s1 items raw rest hi
              exact ⟨Or.inr (Or.inr (Or.inr (Or.inr (Or.inr (Or.inl
                ⟨Nat.succ_pos _, items, raw, g1, rfl⟩))))), by simp [g2]⟩
        · simp only [ha, Bool.false_eq_true, if_false] at h
          by_cases hb : (c == cLBrace) = true
          · simp only [hb, if_true] at h
            have : c = cLBrace := by simpa using hb
            subst this
            cases f with
            | zero => simp at h
            | succ f1 =>
              simp only [] at h
              cases hi : scanItems (asMember (scanValue (f1 + 1))) cRBrace s1 with
              | none => simp [hi] at h
              | some p =>
                obtain ⟨items, raw, rest⟩ := p
                simp only [hi, Option.map_some', Option.some.injEq, Prod.mk.injEq] at h
                obtain ⟨rfl, rfl⟩ := h
                obtain ⟨g1, g2⟩ := scanItems_grammar _ (MemberItem (JValue (f1 + 1))) cRBrace
                  (asMember_grammar _ _ (scanValue_grammar (f1 + 1))) s1 items raw rest hi
                exact ⟨Or.inr (Or.inr (Or.inr (Or.inr (Or.inr (Or.inr
                  ⟨Nat.succ_pos _, items, raw, g1, rfl⟩))))), by simp [g2]⟩
          · simp only [hb, Bool.false_eq_true, if_false] at h
            by_cases ht : (c == 't') = true
            · simp only [ht, if_true] at h
              obtain ⟨rfl, g2⟩ := scanWord_grammar _ _ _ _ h
              exact ⟨Or.inr (Or.inr (Or.inl rfl)), g2⟩
            · simp only [ht, Bool.false_eq_true, if_false] at h
              by_cases hf : (c == 'f') = true
              · simp only [hf, if_true] at h
                obtain ⟨rfl, g2⟩ := scanWord_grammar _ _ _ _ h
                exact ⟨Or.inr (Or.inr (Or.inr (Or.inl rfl))), g2⟩
              · simp only [hf, Bool.false_eq_true, if_false] at h
                by_cases hn : (c == 'n') = true
                · simp only [hn, if_true] at h
                  obtain ⟨rfl, g2⟩ := scanWord_grammar _ _ _ _ h
                  exact ⟨Or.inr (Or.inr (Or.inr (Or.inr (Or.inl rfl)))), g2⟩
                · simp only [hn, Bool.false_eq_true, if_false] at h
                  obtain ⟨⟨e1, _, e3⟩, _⟩ := scanNum_ok _ v r h
                  refine ⟨Or.inr (Or.inl ?_), e1⟩
                  have := e3 [] rfl
                  simpa [IsNumber] using this

/-! ## Arrays and objects: from the grammar to the scanner -/

theorem takeWhile_space_append (w : Bytes) (c : Char) (x : Bytes) (hw : allSpace w)
    (hc : isSpace c = false) :
    (w ++ c :: x).takeWhile isSpace = w ∧ (w ++ c :: x).dropWhile isSpace = c :: x := by
  induction w with
  | nil => simp [List.takeWhile, List.dropWhile, hc]
  | cons d w ih =>
    have hd : isSpace d = true := hw d (by simp)
    have := ih (fun y hy => hw y (by simp [hy]))
    simp [List.takeWhile, List.dropWhile, hd, this.1, this.2]

theorem valueHead_facts (c : Char) (h : valueHead c = true) :
    isSpace c = false ∧ (c == ']') = false ∧ (c == cRBrace) = false ∧ (c == ',') = false := by
  simp only [valueHead, Bool.or_eq_true, beq_iff_eq] at h
  rcases h with ((((((h | h) | h) | h) | h) | h) | h) | h
  · subst h; decide
  · subst h; decide
  · simp only [isDigit, Bool.and_eq_true, decide_eq_true_eq] at h
    refine ⟨?_, ?_, ?_, ?_⟩
    · simp only [isSpace, Bool.or_eq_false_iff, beq_eq_false_iff_ne]
      refine ⟨⟨⟨?_, ?_⟩, ?_⟩, ?_⟩ <;> (rintro rfl; revert h; decide)
    · simp only [beq_eq_false_iff_ne]; rintro rfl; revert h; decide
    · simp only [beq_eq_false_iff_ne]; rintro rfl; revert h; decide
    · simp only [beq_eq_false_iff_ne]; rintro rfl; revert h; decide
  · subst h; decide
  · subst h; decide
  · subst h; decide
  · subst h; decide
  · subst h; decide

theorem More_head {α : Type} {Item : α → Bytes → Prop} {close : Char} {items : List α}
    {t : Bytes} (h : More Item close items t) :
    ∃ c x, t = c :: x ∧ (isSpace c = true ∨ c = ',' ∨ c = close) := by
  cases h with
  | close w hw =>
    cases w with
    | nil => exact ⟨close, [], rfl, Or.inr (Or.inr rfl)⟩
    | cons d w => exact ⟨d, w ++ [close], rfl, Or.inl (hw d (by simp))⟩
  | next w w2 a raw items t hw _ _ _ =>
    cases w with
    | nil => exact ⟨',', _, rfl, Or.inr (Or.inl rfl)⟩
    | cons d w => exact ⟨d, _, rfl, Or.inl (hw d (by simp))⟩

theorem isSpace_not_numChar (c : Char) (h : isSpace c = true) : isNumChar c = false := by
  simp only [isSpace, Bool.or_eq_true, beq_iff_eq] at h
  rcases h with ((h | h) | h) | h <;> (subst h; decide)

theorem More_noNumHead {α : Type} {Item : α → Bytes → Prop} {close : Char} {items : List α}
    {t : Bytes} (h : More Item close items t) (hclose : isNumChar close = false) (rest : Bytes) :
    noNumHead (t ++ rest) = true := by
  obtain ⟨c, x, rfl, hc⟩ := More_head h
  simp only [List.cons_append, noNumHead, Bool.not_eq_true']
  rcases hc with hc | rfl | rfl
  · exact isSpace_not_numChar c hc
  · decide
  · exact hclose

theorem More_length {α : Type} {Item : α → Bytes → Prop} {close : Char} {items : List α}
    {t : Bytes} (h : More Item close items t) : items.length < t.length := by
  induction h with
  | close w _ => simp
  | next w w2 a raw items t _ _ _ _ ih =>
    simp only [List.length_cons, List.length_append]
    omega

theorem scanMore_of_grammar {α : Type} (item : Bytes → Option (α × Bytes × Bytes))
    (Item : α → Bytes → Prop) (close : Char)
    (hsp : isSpace close = false) (hnum : isNumChar close = false)
    (hcomma : (',' == close) = false)
    (hhead : ∀ a raw, Item a raw → ∃ c t, raw = c :: t ∧ isSpace c = false)
    (hitem : ∀ a raw, Item a raw → ∀ r2, noNumHead r2 = true →
      item (raw ++ r2) = some (a, raw, r2))
    {items : List α} {t : Bytes} (h : More Item close items t) :
    ∀ (n : Nat) (rest : Bytes), items.length < n →
      scanMore item close n (t ++ rest) = some (items, t, rest) := by
  induction h with
  | close w hw =>
    intro n rest hn
    cases n with
    | zero => simp at hn
    | succ m =>
      have e : w ++ [close] ++ rest = w ++ close :: rest := by simp
      obtain ⟨e1, e2⟩ := takeWhile_space_append w close rest hw hsp
      rw [e]
      unfold scanMore
      simp only [List.span_eq_take_drop, e1, e2]
      simp
  | next w w2 a raw items t hw hw2 hi hm ih =>
    intro n rest hn
    cases n with
    | zero => simp at hn
    | succ m =>
      have hlen : items.length < m := by simpa using hn
      obtain ⟨c, x, hraw, hc⟩ := hhead a raw hi
      subst hraw
      have e : w ++ ',' :: w2 ++ (c :: x) ++ t ++ rest =
          w ++ ',' :: (w2 ++ c :: (x ++ (t ++ rest))) := by
        simp
      obtain ⟨e1, e2⟩ := takeWhile_space_append w ',' (w2 ++ c :: (x ++ (t ++ rest))) hw
        (by decide)
      obtain ⟨e3, e4⟩ := takeWhile_space_append w2 c (x ++ (t ++ rest)) hw2 hc
      have hi2 := hitem a (c :: x) hi (t ++ rest) (More_noNumHead hm hnum rest)
      simp only [List.cons_append] at hi2
      rw [e]
      unfold scanMore
      simp only [List.span_eq_take_drop, e1, e2, e3, e4, hcomma, hi2, ih m rest hlen]
      simp

theorem scanItems_of_grammar {α : Type} (item : Bytes → Option (α × Bytes × Bytes))
    (Item : α → Bytes → Prop) (close : Char)
    (hsp : isSpace close = false) (hnum : isNumChar close = false)
    (hcomma : (',' == close) = false)
    (hhead : ∀ a raw, Item a raw → ∃ c t, raw = c :: t ∧ isSpace c = false ∧ (c == close) = false)
    (hitem : ∀ a raw, Item a raw → ∀ r2, noNumHead r2 = true →
      item (raw ++ r2) = some (a, raw, r2))
    {items : List α} {t : Bytes} (h : Items Item close items t) (rest : Bytes) :
    scanItems item close (t ++ rest) = some (items, t, rest) := by
  cases h with
  | empty w hw =>
    have e : w ++ [close] ++ rest = w ++ close :: rest := by simp
    obtain ⟨e1, e2⟩ := takeWhile_space_append w close rest hw hsp
    rw [e]
    unfold scanItems
    simp only [List.span_eq_take_drop, e1, e2]
    simp
  | first w a raw items t hw hi hm =>
    obtain ⟨c, x, hraw, hc, hcl⟩ := hhead a raw hi
    subst hraw
    have e : w ++ (c :: x) ++ t ++ rest = w ++ c :: (x ++ (t ++ rest)) := by simp
    obtain ⟨e1, e2⟩ := takeWhile_space_append w c (x ++ (t ++ rest)) hw hc
    have hi2 := hitem a (c :: x) hi (t ++ rest) (More_noNumHead hm hnum rest)
    simp only [List.cons_append] at hi2
    have hlen : items.length < (t ++ rest).length := by
      have := More_length hm
      simp only [List.length_append]
      omega
    have hm2 := scanMore_of_grammar item Item close hsp hnum hcomma
      (fun a raw h => by
        obtain ⟨c, t, h1, h2, _⟩ := hhead a raw h
        exact ⟨c, t, h1, h2⟩) hitem hm _ rest hlen
    rw [e]
    unfold scanItems
    simp only [List.span_eq_take_drop, e1, e2, hcl, hi2, hm2]
    simp

theorem numHead_facts (d : Char) (h : d = '-' ∨ isDigit d = true) :
    valueHead d = true ∧ (d == cQuote) = false ∧ (d == '[') = false ∧ (d == cLBrace) = false ∧
      (d == 't') = false ∧ (d == 'f') = false ∧ (d == 'n') = false := by
  rcases h with rfl | h
  · decide
  · refine ⟨by simp [valueHead, h], ?_⟩
    simp only [isDigit, Bool.and_eq_true, decide_eq_true_eq] at h
    simp only [beq_eq_false_iff_ne]
    refine ⟨?_, ?_, ?_, ?_, ?_, ?_⟩ <;> (rintro rfl; revert h; decide)

theorem JValue_head (f : Nat) (v : Bytes) (h : JValue f v) :
    ∃ c t, v = c :: t ∧ valueHead c = true := by
  cases f with
  | zero => exact absurd h (by simp [JValue])
  | succ f =>
    simp only [JValue] at h
    rcases h with ⟨k, _, rfl⟩ | h | rfl | rfl | rfl | ⟨_, _, t, _, rfl⟩ | ⟨_, _, t, _, rfl⟩
    · exact ⟨_, _, rfl, by decide⟩
    · obtain ⟨-, d, k1, hd, hdd⟩ := scanNum_ok v v [] h
      exact ⟨d, k1, hd, (numHead_facts d hdd).1⟩
    · exact ⟨_, _, rfl, by decide⟩
    · exact ⟨_, _, rfl, by decide⟩
    · exact ⟨_, _, rfl, by decide⟩
    · exact ⟨_, _, rfl, by decide⟩
    · exact ⟨_, _, rfl, by decide⟩

theorem asElem_of_grammar (val : Bytes → Option (Bytes × Bytes)) (V : Bytes → Prop)
    (hval : ∀ v, V v → ∀ r2, noNumHead r2 = true → val (v ++ r2) = some (v, r2))
    (a raw : Bytes) (h : ElemItem V a raw) (r2 : Bytes) (h2 : noNumHead r2 = true) :
    asElem val (raw ++ r2) = some (a, raw, r2) := by
  obtain ⟨rfl, hv⟩ := h
  simp [asElem, hval a hv r2 h2]

theorem asMember_of_grammar (val : Bytes → Option (Bytes × Bytes)) (V : Bytes → Prop)
    (hhead : ∀ v, V v → ∃ c t, v = c :: t ∧ isSpace c = false)
    (hval : ∀ v, V v → ∀ r2, noNumHead r2 = true → val (v ++ r2) = some (v, r2))
    (a : Bytes × Bytes) (raw : Bytes) (h : MemberItem V a raw) (r2 : Bytes)
    (h2 : noNumHead r2 = true) :
    asMember val (raw ++ r2) = some (a, raw, r2) := by
  obtain ⟨k, w, w2, hk, hw, hw2, ha1, hv, rfl⟩ := h
  obtain ⟨a1, a2⟩ := a
  simp only at ha1 hv
  subst ha1
  obtain ⟨c, x, rfl, hc⟩ := hhead a2 hv
  have e : cQuote :: k ++ w ++ ':' :: w2 ++ (c :: x) ++ r2 =
      cQuote :: (k ++ (w ++ ':' :: (w2 ++ c :: (x ++ r2)))) := by simp
  have hs := scanStr_of_grammar k hk (w ++ ':' :: (w2 ++ c :: (x ++ r2)))
  obtain ⟨e1, e2⟩ := takeWhile_space_append w ':' (w2 ++ c :: (x ++ r2)) hw (by decide)
  obtain ⟨e3, e4⟩ := takeWhile_space_append w2 c (x ++ r2) hw2 hc
  have hv2 := hval (c :: x) hv r2 h2
  simp only [List.cons_append] at hv2
  rw [e]
  unfold asMember
  simp only [List.span_eq_take_drop, hs, e1, e2, e3, e4, hv2]
  simp

theorem JValue_item_head (f : Nat) (close : Char)
    (hc : close = ']' ∨ close = cRBrace) (v : Bytes) (h : JValue f v) :
    ∃ c t, v = c :: t ∧ isSpace c = false ∧ (c == close) = false := by
  obtain ⟨c, t, rfl, hh⟩ := JValue_head f v h
  obtain ⟨h1, h2, h3, _⟩ := valueHead_facts c hh
  rcases hc with rfl | rfl
  · exact ⟨c, t, rfl, h1, h2⟩
  · exact ⟨c, t, rfl, h1, h3⟩

theorem scanValue_of_grammar : ∀ (f : Nat) (v : Bytes), JValue f v → ∀ r, noNumHead r = true →
    scanValue f (v ++ r) = some (v, r)
  | 0, v, h, _, _ => absurd h (by simp [JValue])
  | f + 1, v, h, r, hr => by
    simp only [JValue] at h
    rcases h with ⟨k, hk, rfl⟩ | h | rfl | rfl | rfl | ⟨hf, items, t, hi, rfl⟩ |
      ⟨hf, ms, t, hi, rfl⟩
    · have hs := scanStr_of_grammar k hk r
      show scanValue (f + 1) (cQuote :: (k ++ r)) = _
      unfold scanValue
      simp [hs, consC]
    · obtain ⟨⟨_, _, e3⟩, d, k1, rfl, hdd⟩ := scanNum_ok v v [] h
      obtain ⟨_, n1, n2, n3, n4, n5, n6⟩ := numHead_facts d hdd
      have := e3 r hr
      simp only [List.cons_append] at this ⊢
      unfold scanValue
      simp only [n1, n2, n3, n4, n5, n6, Bool.false_eq_true, if_false, this]
    · unfold scanValue
      simp [scanWord, cQuote, cLBrace]
    · unfold scanValue
      simp [scanWord, cQuote, cLBrace]
    · unfold scanValue
      simp [scanWord, cQuote, cLBrace]
    · cases f with
      | zero => simp at hf
      | succ f1 =>
        have := scanItems_of_grammar (asElem (scanValue (f1 + 1))) (ElemItem (JValue (f1 + 1))) ']'
          (by decide) (by decide) (by decide)
          (fun a raw ha => by
            obtain ⟨rfl, hv⟩ := ha
            exact JValue_item_head _ ']' (Or.inl rfl) a hv)
          (fun a raw ha => asElem_of_grammar _ _ (scanValue_of_grammar (f1 + 1)) a raw ha)
          hi r
        show scanValue (f1 + 1 + 1) ('[' :: (t ++ r)) = _
        unfold scanValue
        have hq : ('[' == cQuote) = false := by decide
        simp only [hq, Bool.false_eq_true, if_false, beq_self_eq_true, if_true, this]
        simp
    · cases f with
      | zero => simp at hf
      | succ f1 =>
        have := scanItems_of_grammar (asMember (scanValue (f1 + 1)))
          (MemberItem (JValue (f1 + 1))) cRBrace
          (by decide) (by decide) (by decide)
          (fun a raw ha => by
            obtain ⟨k, w, w2, _, _, _, _, _, rfl⟩ := ha
            exact ⟨cQuote, _, rfl, by decide, by decide⟩)
          (fun a raw ha => asMember_of_grammar _ _
            (fun v hv => by
              obtain ⟨c, t, h1, h2, _⟩ := JValue_item_head _ ']' (Or.inl rfl) v hv
              exact ⟨c, t, h1, h2⟩)
            (scanValue_of_grammar (f1 + 1)) a raw ha)
          hi r
        show scanValue (f1 + 1 + 1) (cLBrace :: (t ++ r)) = _
        unfold scanValue
        have hq : (cLBrace == cQuote) = false := by decide
        have hb : (cLBrace == '[') = false := by decide
        simp only [hq, hb, Bool.false_eq_true, if_false, beq_self_eq_true, if_true, this]
        simp

/-! ## The elements of a frame -/

theorem More_all {α : Type} {Item : α → Bytes → Prop} {close : Char} {items : List α}
    {t : Bytes} (h : More Item close items t) : ∀ a ∈ items, ∃ raw, Item a raw := by
  induction h with
  | close w _ => simp
  | next w w2 a raw items t _ _ hi _ ih =>
    intro b hb
    simp only [List.mem_cons] at hb
    rcases hb with rfl | hb
    · exact ⟨raw, hi⟩
    · exact ih b hb

theorem Items_all {α : Type} {Item : α → Bytes → Prop} {close : Char} {items : List α}
    {t : Bytes} (h : Items Item close items t) : ∀ a ∈ items, ∃ raw, Item a raw := by
  cases h with
  | empty w _ => simp
  | first w a raw items t _ hi hm =>
    intro b hb
    simp only [List.mem_cons] at hb
    rcases hb with rfl | hb
    · exact ⟨raw, hi⟩
    · exact More_all hm b hb

theorem decodeTop_array (data : Bytes) (es : List Bytes) (h : decodeTop data = .array es) :
    ∃ raw, Items (ElemItem (JValue maxNestingDepth)) ']' es raw := by
  unfold decodeTop at h
  split at h
  · split at h
    · cases h
    · rename_i c r _
      split at h
      · cases hi : scanItems (asElem (scanValue maxNestingDepth)) ']' r with
        | none => simp [hi] at h
        | some p =>
          obtain ⟨items, raw, rest⟩ := p
          simp only [hi, Top.array.injEq] at h
          subst h
          exact ⟨raw, (scanItems_grammar _ (ElemItem (JValue maxNestingDepth)) ']'
            (asElem_grammar _ _ (scanValue_grammar maxNestingDepth)) r items raw rest hi).1⟩
      · split at h <;> cases h
  · cases h

theorem decodeTop_elems (data : Bytes) (es : List Bytes) (h : decodeTop data = .array es) :
    ∀ e ∈ es, JValue maxNestingDepth e := by
  obtain ⟨raw, hi⟩ := decodeTop_array data es h
  intro e he
  obtain ⟨raw2, rfl, hv⟩ := Items_all hi e he
  exact hv

theorem JValue_ne_nil (f : Nat) (v : Bytes) (h : JValue f v) : v ≠ [] := by
  obtain ⟨c, t, rfl, _⟩ := JValue_head f v h
  simp

/-! ## The grammar at a greater depth -/

theorem More_mono {α : Type} {Item Item2 : α → Bytes → Prop} {close : Char}
    (hm : ∀ a raw, Item a raw → Item2 a raw) {items : List α} {t : Bytes}
    (h : More Item close items t) : More Item2 close items t := by
  induction h with
  | close w hw => exact More.close w hw
  | next w w2 a raw items t hw hw2 hi _ ih => exact More.next w w2 a raw items t hw hw2 (hm a raw hi) ih

theorem Items_mono {α : Type} {Item Item2 : α → Bytes → Prop} {close : Char}
    (hm : ∀ a raw, Item a raw → Item2 a raw) {items : List α} {t : Bytes}
    (h : Items Item close items t) : Items Item2 close items t := by
  cases h with
  | empty w hw => exact Items.empty w hw
  | first w a raw items t hw hi hmo =>
    exact Items.first w a raw items t hw (hm a raw hi) (More_mono hm hmo)

theorem ElemItem_mono {V V2 : Bytes → Prop} (hm : ∀ v, V v → V2 v) (a raw : Bytes)
    (h : ElemItem V a raw) : ElemItem V2 a raw := ⟨h.1, hm raw h.2⟩

theorem MemberItem_mono {V V2 : Bytes → Prop} (hm : ∀ v, V v → V2 v) (a : Bytes × Bytes)
    (raw : Bytes) (h : MemberItem V a raw) : MemberItem V2 a raw := by
  obtain ⟨k, w, w2, h1, h2, h3, h4, h5, h6⟩ := h
  exact ⟨k, w, w2, h1, h2, h3, h4, hm _ h5, h6⟩

theorem JValue_succ : ∀ (f : Nat) (v : Bytes), JValue f v → JValue (f + 1) v
  | 0, v, h => absurd h (by simp [JValue])
  | f + 1, v, h => by
    simp only [JValue] at h ⊢
    refine h.imp_right (Or.imp_right (Or.imp_right (Or.imp_right (Or.imp_right
      (Or.imp ?_ ?_)))))
    · rintro ⟨_, items, t, hi, rfl⟩
      exact ⟨Nat.succ_pos _, items, t, Items_mono (ElemItem_mono (JValue_succ f)) hi, rfl⟩
    · rintro ⟨_, ms, t, hi, rfl⟩
      exact ⟨Nat.succ_pos _, ms, t, Items_mono (MemberItem_mono (JValue_succ f)) hi, rfl⟩

theorem checkValid_of_JValue (v : Bytes) (h : JValue (maxNestingDepth + 1) v) :
    checkValid v = true := by
  obtain ⟨c, t, rfl, hh⟩ := JValue_head _ _ h
  have hs : skipSpace (c :: t) = c :: t := by
    simp [skipSpace, (valueHead_facts c hh).1]
  have := scanValue_of_grammar _ _ h [] rfl
  simp only [List.append_nil] at this
  unfold checkValid
  rw [hs, this]
  rfl

/-! ## Compaction -/

theorem compact_false_cons (c : Char) (x : Bytes) :
    compactChars false (c :: x) =
      if isSpace c then compactChars false x
      else if c == cQuote then c :: compactChars true x
      else htmlEscape c ++ compactChars false x := rfl

theorem compact_true_cons (c : Char) (x : Bytes) :
    compactChars true (c :: x) =
      if c == cQuote then c :: compactChars false x
      else if c == cEsc then
        match x with
        | [] => [c]
        | e :: r1 => c :: htmlEscape e ++ compactChars true r1
      else htmlEscape c ++ compactChars true x := by
  cases x <;> rfl

theorem compact_space (w x : Bytes) (hw : allSpace w) :
    compactChars false (w ++ x) = compactChars false x := by
  induction w with
  | nil => rfl
  | cons c w ih =>
    have hc : isSpace c = true := hw c (by simp)
    rw [List.cons_append, compact_false_cons]
    simp [hc, ih (fun y hy => hw y (by simp [hy]))]

theorem htmlEscape_of_lt (c : Char) (h : c.toNat < 128) (h1 : c ≠ '<') (h2 : c ≠ '>')
    (h3 : c ≠ '&') : htmlEscape c = [c] := by
  have h4 : c ≠ Char.ofNat 8232 := by rintro rfl; revert h; decide
  have h5 : c ≠ Char.ofNat 8233 := by rintro rfl; revert h; decide
  simp [htmlEscape, h1, h2, h3, h4, h5]

theorem isDigit_toNat (c : Char) (h : isDigit c = true) : 48 ≤ c.toNat ∧ c.toNat ≤ 57 := by
  simp only [isDigit, Bool.and_eq_true, decide_eq_true_eq] at h
  exact ⟨h.1, h.2⟩

theorem plain_of_isDigit (c : Char) (h : isDigit c = true) :
    isSpace c = false ∧ (c == cQuote) = false ∧ (c == cEsc) = false ∧ htmlEscape c = [c] ∧
      ¬ c.toNat < 32 := by
  obtain ⟨h1, h2⟩ := isDigit_toNat c h
  refine ⟨?_, ?_, ?_, ?_, by omega⟩
  · simp only [isSpace, Bool.or_eq_false_iff, beq_eq_false_iff_ne]
    refine ⟨⟨⟨?_, ?_⟩, ?_⟩, ?_⟩ <;> (rintro rfl; revert h1; decide)
  · simp only [beq_eq_false_iff_ne]; rintro rfl; revert h1; decide
  · simp only [beq_eq_false_iff_ne]; rintro rfl; revert h2; decide
  · apply htmlEscape_of_lt c (by omega) <;> (rintro rfl; revert h1 h2; decide)

theorem plain_of_isNumChar (c : Char) (h : isNumChar c = true) :
    isSpace c = false ∧ (c == cQuote) = false ∧ htmlEscape c = [c] := by
  simp only [isNumChar, Bool.or_eq_true, beq_iff_eq] at h
  rcases h with ((((h | h) | h) | h) | h) | h
  · have := plain_of_isDigit c h
    exact ⟨this.1, this.2.1, this.2.2.2.1⟩
  all_goals (subst h; decide)

theorem compact_numChars (v x : Bytes) (hv : ∀ c ∈ v, isNumChar c = true) :
    compactChars false (v ++ x) = v ++ compactChars false x := by
  induction v with
  | nil => rfl
  | cons c v ih =>
    obtain ⟨h1, h2, h3⟩ := plain_of_isNumChar c (hv c (by simp))
    rw [List.cons_append, compact_false_cons]
    simp [h1, h2, h3, ih (fun y hy => hv y (by simp [hy]))]

theorem plain_of_isHex (c : Char) (h : isHex c = true) :
    (c == cQuote) = false ∧ (c == cEsc) = false ∧ htmlEscape c = [c] := by
  simp only [isHex, Bool.or_eq_true, Bool.and_eq_true, decide_eq_true_eq] at h
  rcases h with (h | h) | h
  · have := plain_of_isDigit c h
    exact ⟨this.2.1, this.2.2.1, this.2.2.2.1⟩
  · have h1 : 97 ≤ c.toNat := h.1
    have h2 : c.toNat ≤ 102 := h.2
    refine ⟨?_, ?_, ?_⟩
    · simp only [beq_eq_false_iff_ne]; rintro rfl; revert h1; decide
    · simp only [beq_eq_false_iff_ne]; rintro rfl; revert h1; decide
    · apply htmlEscape_of_lt c (by omega) <;> (rintro rfl; revert h1; decide)
  · have h1 : 65 ≤ c.toNat := h.1
    have h2 : c.toNat ≤ 70 := h.2
    refine ⟨?_, ?_, ?_⟩
    · simp only [beq_eq_false_iff_ne]; rintro rfl; revert h1; decide
    · simp only [beq_eq_false_iff_ne]; rintro rfl; revert h2; decide
    · apply htmlEscape_of_lt c (by omega) <;> (rintro rfl; revert h1; decide)

theorem plain_of_isSimpleEsc (e : Char) (h : isSimpleEsc e = true) : htmlEscape e = [e] := by
  simp only [isSimpleEsc, Bool.or_eq_true, beq_iff_eq] at h
  rcases h with ((((((h | h) | h) | h) | h) | h) | h) | h <;> (subst h; decide)

theorem StrBody_escape (c : Char) (k : Bytes) (hq : (c == cQuote) = false)
    (he : (c == cEsc) = false) (h32 : ¬ c.toNat < 32) (hk : StrBody k) :
    StrBody (htmlEscape c ++ k) := by
  unfold htmlEscape
  split
  · exact StrBody.uni '0' '0' '3' 'c' k (by decide) hk
  · split
    · exact StrBody.uni '0' '0' '3' 'e' k (by decide) hk
    · split
      · exact StrBody.uni '0' '0' '2' '6' k (by decide) hk
      · split
        · exact StrBody.uni '2' '0' '2' '8' k (by decide) hk
        · split
          · exact StrBody.uni '2' '0' '2' '9' k (by decide) hk
          · exact StrBody.char c k hq he h32 hk

theorem compact_str (k : Bytes) (hk : StrBody k) :
    (∀ x, compactChars true (k ++ x) = compactChars true k ++ compactChars false x) ∧
      StrBody (compactChars true k) := by
  induction hk with
  | close =>
    refine ⟨fun x => ?_, ?_⟩
    · simp [compact_true_cons, compactChars]
    · simp only [compact_true_cons, compactChars]
      simpa using StrBody.close
  | esc e k he _ ih =>
    have hce : (cEsc == cQuote) = false := by decide
    have hee := plain_of_isSimpleEsc e he
    refine ⟨fun x => ?_, ?_⟩
    · simp [compact_true_cons, hce, hee, ih.1 x]
    · simp only [compact_true_cons, hce, hee, beq_self_eq_true, if_true, Bool.false_eq_true,
        if_false]
      exact StrBody.esc e _ he ih.2
  | uni h1 h2 h3 h4 k hh _ ih =>
    have hce : (cEsc == cQuote) = false := by decide
    have hu : htmlEscape 'u' = ['u'] := by decide
    simp only [Bool.and_eq_true] at hh
    obtain ⟨⟨⟨x1, x2⟩, x3⟩, x4⟩ := hh
    obtain ⟨a1, b1, c1⟩ := plain_of_isHex h1 x1
    obtain ⟨a2, b2, c2⟩ := plain_of_isHex h2 x2
    obtain ⟨a3, b3, c3⟩ := plain_of_isHex h3 x3
    obtain ⟨a4, b4, c4⟩ := plain_of_isHex h4 x4
    have key : ∀ y, compactChars true (cEsc :: 'u' :: h1 :: h2 :: h3 :: h4 :: y) =
        cEsc :: 'u' :: h1 :: h2 :: h3 :: h4 :: compactChars true y := by
      intro y
      simp [compact_true_cons, hce, hu, a1, b1, c1, a2, b2, c2, a3, b3, c3, a4, b4, c4]
    refine ⟨fun x => ?_, ?_⟩
    · simp only [List.cons_append]
      rw [key, key, ih.1 x]
      simp
    · rw [key]
      exact StrBody.uni h1 h2 h3 h4 _ (by simp [x1, x2, x3, x4]) ih.2
  | char c k hq he h32 _ ih =>
    refine ⟨fun x => ?_, ?_⟩
    · simp [compact_true_cons, hq, he, ih.1 x]
    · simp only [compact_true_cons, hq, he, Bool.false_eq_true, if_false]
      exact StrBody_escape c _ hq he h32 ih.2

theorem compact_plain (v x : Bytes)
    (hv : ∀ c ∈ v, isSpace c = false ∧ (c == cQuote) = false ∧ htmlEscape c = [c]) :
    compactChars false (v ++ x) = v ++ compactChars false x := by
  induction v with
  | nil => rfl
  | cons c v ih =>
    obtain ⟨h1, h2, h3⟩ := hv c (by simp)
    rw [List.cons_append, compact_false_cons]
    simp [h1, h2, h3, ih (fun y hy => hv y (by simp [hy]))]

theorem compact_nil (b : Bool) : compactChars b [] = [] := by
  cases b <;> rfl

theorem More_compact {α : Type} {Item : α → Bytes → Prop} {close : Char} (ca : α → α)
    (hcl : isSpace close = false ∧ (close == cQuote) = false ∧ htmlEscape close = [close])
    (hitem : ∀ a raw, Item a raw → Item (ca a) (compactChars false raw) ∧
      ∀ x, compactChars false (raw ++ x) = compactChars false raw ++ compactChars false x)
    {items : List α} {t : Bytes} (h : More Item close items t) :
    More Item close (items.map ca) (compactChars false t) ∧
      ∀ x, compactChars false (t ++ x) = compactChars false t ++ compactChars false x := by
  induction h with
  | close w hw =>
    have key : ∀ x, compactChars false (w ++ [close] ++ x) = [close] ++ compactChars false x := by
      intro x
      rw [List.append_assoc, compact_space _ _ hw]
      exact compact_plain [close] x (fun c hc => by
        simp only [List.mem_singleton] at hc; subst hc; exact hcl)
    have k0 := key []
    simp only [List.append_nil, compact_nil] at k0
    refine ⟨?_, fun x => by rw [key x, k0]⟩
    rw [k0]
    exact More.close [] (fun _ hc => by simp at hc)
  | next w w2 a raw items t hw hw2 hi _ ih =>
    obtain ⟨i1, i2⟩ := hitem a raw hi
    have key : ∀ x, compactChars false (w ++ ',' :: w2 ++ raw ++ t ++ x) =
        ',' :: compactChars false raw ++ compactChars false t ++ compactChars false x := by
      intro x
      have e : w ++ ',' :: w2 ++ raw ++ t ++ x = w ++ ([','] ++ (w2 ++ (raw ++ (t ++ x)))) := by
        simp
      rw [e, compact_space _ _ hw, compact_plain [','] _ (fun c hc => by
        simp only [List.mem_singleton] at hc; subst hc; decide),
        compact_space _ _ hw2, i2, ih.2 x]
      simp
    have k0 := key []
    simp only [List.append_nil, compact_nil] at k0
    refine ⟨?_, fun x => by rw [key x, k0]⟩
    rw [k0]
    have := More.next [] [] (ca a) (compactChars false raw) (items.map ca) (compactChars false t)
      (fun _ hc => by simp at hc) (fun _ hc => by simp at hc) i1 ih.1
    simpa using this

theorem Items_compact {α : Type} {Item : α → Bytes → Prop} {close : Char} (ca : α → α)
    (hcl : isSpace close = false ∧ (close == cQuote) = false ∧ htmlEscape close = [close])
    (hitem : ∀ a raw, Item a raw → Item (ca a) (compactChars false raw) ∧
      ∀ x, compactChars false (raw ++ x) = compactChars false raw ++ compactChars false x)
    {items : List α} {t : Bytes} (h : Items Item close items t) :
    Items Item close (items.map ca) (compactChars false t) ∧
      ∀ x, compactChars false (t ++ x) = compactChars false t ++ compactChars false x := by
  cases h with
  | empty w hw =>
    have key : ∀ x, compactChars false (w ++ [close] ++ x) = [close] ++ compactChars false x := by
      intro x
      rw [List.append_assoc, compact_space _ _ hw]
      exact compact_plain [close] x (fun c hc => by
        simp only [List.mem_singleton] at hc; subst hc; exact hcl)
    have k0 := key []
    simp only [List.append_nil, compact_nil] at k0
    refine ⟨?_, fun x => by rw [key x, k0]⟩
    rw [k0]
    exact Items.empty [] (fun _ hc => by simp at hc)
  | first w a raw items t hw hi hm =>
    obtain ⟨i1, i2⟩ := hitem a raw hi
    obtain ⟨m1, m2⟩ := More_compact ca hcl hitem hm
    have key : ∀ x, compactChars false (w ++ raw ++ t ++ x) =
        compactChars false raw ++ compactChars false t ++ compactChars false x := by
      intro x
      have e : w ++ raw ++ t ++ x = w ++ (raw ++ (t ++ x)) := by simp
      rw [e, compact_space _ _ hw, i2, m2 x]
      simp
    have k0 := key []
    simp only [List.append_nil, compact_nil] at k0
    refine ⟨?_, fun x => by rw [key x, k0]⟩
    rw [k0]
    have := Items.first [] (ca a) (compactChars false raw) (items.map ca) (compactChars false t)
      (fun _ hc => by simp at hc) i1 m1
    simpa using this

theorem compact_quoted (k : Bytes) (hk : StrBody k) (x : Bytes) :
    compactChars false (cQuote :: k ++ x) =
      cQuote :: compactChars true k ++ compactChars false x := by
  have hs : isSpace cQuote = false := by decide
  rw [List.cons_append, compact_false_cons]
  simp [hs, (compact_str k hk).1 x]

/-- A member of an object with its key and value compacted. -/
theorem MemberItem_compact (V : Bytes → Prop)
    (hV : ∀ v, V v → V (compactChars false v) ∧
      ∀ x, compactChars false (v ++ x) = compactChars false v ++ compactChars false x)
    (a : Bytes × Bytes) (raw : Bytes) (h : MemberItem V a raw) :
    MemberItem V (compactChars false a.1, compactChars false a.2) (compactChars false raw) ∧
      ∀ x, compactChars false (raw ++ x) = compactChars false raw ++ compactChars false x := by
  obtain ⟨k, w, w2, hk, hw, hw2, ha1, hv, rfl⟩ := h
  obtain ⟨v1, v2⟩ := hV a.2 hv
  have key : ∀ x, compactChars false (cQuote :: k ++ w ++ ':' :: w2 ++ a.2 ++ x) =
      cQuote :: compactChars true k ++ ':' :: compactChars false a.2 ++ compactChars false x := by
    intro x
    have e : cQuote :: k ++ w ++ ':' :: w2 ++ a.2 ++ x =
        cQuote :: k ++ (w ++ ([':'] ++ (w2 ++ (a.2 ++ x)))) := by simp
    rw [e, compact_quoted k hk, compact_space _ _ hw, compact_plain [':'] _ (fun c hc => by
      simp only [List.mem_singleton] at hc; subst hc; decide), compact_space _ _ hw2, v2 x]
    simp
  have k0 := key []
  simp only [List.append_nil, compact_nil] at k0
  have ka : compactChars false a.1 = cQuote :: compactChars true k := by
    rw [ha1]
    have := compact_quoted k hk []
    simpa [compact_nil] using this
  refine ⟨?_, fun x => by rw [key x, k0]⟩
  rw [k0]
  exact ⟨compactChars true k, [], [], (compact_str k hk).2, (fun _ hc => by simp at hc),
    (fun _ hc => by simp at hc), ka, v1, by simp⟩

theorem JValue_compact : ∀ (f : Nat) (v : Bytes), JValue f v →
    JValue f (compactChars false v) ∧
      ∀ x, compactChars false (v ++ x) = compactChars false v ++ compactChars false x
  | 0, v, h => absurd h (by simp [JValue])
  | f + 1, v, h => by
    have plainKey : ∀ (u : Bytes), (∀ x, compactChars false (u ++ x) = u ++ compactChars false x) →
        JValue (f + 1) u →
        JValue (f + 1) (compactChars false u) ∧
          ∀ x, compactChars false (u ++ x) = compactChars false u ++ compactChars false x := by
      intro u hu hj
      have k0 := hu []
      simp only [List.append_nil, compact_nil] at k0
      exact ⟨by rw [k0]; exact hj, fun x => by rw [hu x, k0]⟩
    have h0 := h
    simp only [JValue] at h
    rcases h with ⟨k, hk, rfl⟩ | h | rfl | rfl | rfl | ⟨hf, items, t, hi, rfl⟩ |
      ⟨hf, ms, t, hi, rfl⟩
    · have key := compact_quoted k hk
      have k0 := key []
      simp only [List.append_nil, compact_nil] at k0
      refine ⟨?_, fun x => by rw [key x, k0]⟩
      rw [k0]
      simp only [JValue]
      exact Or.inl ⟨_, (compact_str k hk).2, rfl⟩
    · obtain ⟨⟨_, e2, _⟩, _⟩ := scanNum_ok v v [] h
      exact plainKey v (fun x => compact_numChars v x e2) h0
    · exact plainKey _ (fun x => compact_plain _ x (by decide)) h0
    · exact plainKey _ (fun x => compact_plain _ x (by decide)) h0
    · exact plainKey _ (fun x => compact_plain _ x (by decide)) h0
    · obtain ⟨i1, i2⟩ := @Items_compact Bytes (ElemItem (JValue f)) ']' (compactChars false)
        (by decide)
        (fun a raw ha => by
          obtain ⟨rfl, hv⟩ := ha
          obtain ⟨v1, v2⟩ := JValue_compact f a hv
          exact ⟨⟨rfl, v1⟩, v2⟩) items t hi
      have key : ∀ x, compactChars false ('[' :: t ++ x) =
          '[' :: compactChars false t ++ compactChars false x := by
        intro x
        have := compact_plain ['['] (t ++ x) (by decide)
        simp only [List.singleton_append] at this
        rw [List.cons_append, this, i2 x]
        simp
      have k0 := key []
      simp only [List.append_nil, compact_nil] at k0
      refine ⟨?_, fun x => by rw [key x, k0]⟩
      rw [k0]
      simp only [JValue]
      exact Or.inr (Or.inr (Or.inr (Or.inr (Or.inr (Or.inl ⟨hf, _, _, i1, rfl⟩)))))
    · obtain ⟨i1, i2⟩ := @Items_compact (Bytes × Bytes) (MemberItem (JValue f)) cRBrace
        (fun a => (compactChars false a.1, compactChars false a.2))
        (by decide)
        (fun a raw ha => MemberItem_compact (JValue f) (JValue_compact f) a raw ha) ms t hi
      have key : ∀ x, compactChars false (cLBrace :: t ++ x) =
          cLBrace :: compactChars false t ++ compactChars false x := by
        intro x
        have := compact_plain [cLBrace] (t ++ x) (by decide)
        simp only [List.singleton_append] at this
        rw [List.cons_append, this, i2 x]
        simp
      have k0 := key []
      simp only [List.append_nil, compact_nil] at k0
      refine ⟨?_, fun x => by rw [key x, k0]⟩
      rw [k0]
      simp only [JValue]
      exact Or.inr (Or.inr (Or.inr (Or.inr (Or.inr (Or.inr ⟨hf, _, _, i1, rfl⟩)))))

/-! ## Splicing two objects -/

theorem More_ne_nil {α : Type} {Item : α → Bytes → Prop} {close : Char} {items : List α}
    {t : Bytes} (h : More Item close items t) : t ≠ [] := by
  obtain ⟨c, x, rfl, _⟩ := More_head h
  simp

theorem dropLast_append_ne (a b : Bytes) (hb : b ≠ []) : (a ++ b).dropLast = a ++ b.dropLast := by
  induction a with
  | nil => rfl
  | cons c a ih =>
    cases hab : a ++ b with
    | nil => simp at hab; exact absurd hab.2 hb
    | cons d x =>
      rw [List.cons_append, hab, List.dropLast_cons₂, ← hab, ih]
      rfl

theorem More_splice {α : Type} {Item : α → Bytes → Prop} {close : Char} {items : List α}
    {t : Bytes} (h : More Item close items t) (w2 : Bytes) (a : α) (raw : Bytes)
    (items2 : List α) (t2 : Bytes) (hw2 : allSpace w2) (hi : Item a raw)
    (h2 : More Item close items2 t2) :
    More Item close (items ++ a :: items2) (t.dropLast ++ ',' :: w2 ++ raw ++ t2) := by
  induction h with
  | close w hw =>
    rw [List.dropLast_concat]
    exact More.next w w2 a raw items2 t2 hw hw2 hi h2
  | next w w3 b rawb items3 t3 hw hw3 hib hm ih =>
    have e : (w ++ ',' :: w3 ++ rawb ++ t3).dropLast = w ++ ',' :: w3 ++ rawb ++ t3.dropLast :=
      dropLast_append_ne _ _ (More_ne_nil hm)
    rw [e]
    have := More.next w w3 b rawb _ _ hw hw3 hib ih
    simpa using this

theorem Items_splice {α : Type} {Item : α → Bytes → Prop} {close : Char} (a b : α)
    (as bs : List α) (tA tB : Bytes) (hA : Items Item close (a :: as) tA)
    (hB : Items Item close (b :: bs) tB) :
    Items Item close (a :: as ++ b :: bs) (tA.dropLast ++ ',' :: tB) := by
  cases hA with
  | first w _ rawa _ tmA hw hia hmA =>
    cases hB with
    | first wB _ rawb _ tmB hwB hib hmB =>
      have e : (w ++ rawa ++ tmA).dropLast = w ++ rawa ++ tmA.dropLast :=
        dropLast_append_ne _ _ (More_ne_nil hmA)
      rw [e]
      have hm := More_splice hmA wB b rawb bs tmB hwB hib hmB
      have := Items.first w a rawa _ _ hw hia hm
      simpa using this

theorem Items_ne_nil {α : Type} {Item : α → Bytes → Prop} {close : Char} {items : List α}
    {t : Bytes} (h : Items Item close items t) : t ≠ [] := by
  cases h with
  | empty w _ => simp
  | first w a raw items t _ _ hm =>
    have := More_ne_nil hm
    simp [this]

theorem mergeAskBid_objects (tA tB : Bytes) (hA : tA ≠ []) :
    mergeAskBid (cLBrace :: tA) (cLBrace :: tB) = cLBrace :: (tA.dropLast ++ ',' :: tB) := by
  unfold mergeAskBid
  have : (cLBrace :: tA).dropLast = cLBrace :: tA.dropLast := by
    cases tA with
    | nil => exact absurd rfl hA
    | cons c x => rfl
  rw [this]
  rfl

theorem getLast?_append_ne (a b : Bytes) (hb : b ≠ []) : (a ++ b).getLast? = b.getLast? := by
  cases hl : b.getLast? with
  | none => simp [List.getLast?_eq_none_iff] at hl; exact absurd hl hb
  | some c => simp [List.getLast?_append, hl]

theorem More_last {α : Type} {Item : α → Bytes → Prop} {close : Char} {items : List α}
    {t : Bytes} (h : More Item close items t) : t.getLast? = some close := by
  induction h with
  | close w _ => exact List.getLast?_concat w
  | next w w2 a raw items t _ _ _ hm ih =>
    rw [getLast?_append_ne _ _ (More_ne_nil hm), ih]

theorem Items_last {α : Type} {Item : α → Bytes → Prop} {close : Char} {items : List α}
    {t : Bytes} (h : Items Item close items t) : t.getLast? = some close := by
  cases h with
  | empty w _ => exact List.getLast?_concat w
  | first w a raw items t _ _ hm =>
    rw [getLast?_append_ne _ _ (More_ne_nil hm), More_last hm]

theorem StrBody_last (k : Bytes) (h : StrBody k) : k.getLast? = some cQuote ∧ k ≠ [] := by
  induction h with
  | close => exact ⟨rfl, by simp⟩
  | esc e k _ _ ih =>
    obtain ⟨c, x, rfl⟩ := List.exists_cons_of_ne_nil ih.2
    exact ⟨by simpa using ih.1, by simp⟩
  | uni h1 h2 h3 h4 k _ _ ih =>
    obtain ⟨c, x, rfl⟩ := List.exists_cons_of_ne_nil ih.2
    exact ⟨by simpa using ih.1, by simp⟩
  | char c k _ _ _ _ ih =>
    obtain ⟨d, x, rfl⟩ := List.exists_cons_of_ne_nil ih.2
    exact ⟨by simpa using ih.1, by simp⟩

theorem getLast?_cons_ne (c : Char) (t : Bytes) (ht : t ≠ []) :
    (c :: t).getLast? = t.getLast? := by
  obtain ⟨d, x, rfl⟩ := List.exists_cons_of_ne_nil ht
  simp

/-- A value that starts with `{` is an object. -/
theorem JValue_object_of_head (f : Nat) (v : Bytes) (h : JValue f v)
    (hh : v.head? = some cLBrace) :
    ∃ g ms t, f = g + 1 ∧ 0 < g ∧ v = cLBrace :: t ∧
      Items (MemberItem (JValue g)) cRBrace ms t := by
  cases f with
  | zero => exact absurd h (by simp [JValue])
  | succ f =>
    simp only [JValue] at h
    rcases h with ⟨k, _, rfl⟩ | h | rfl | rfl | rfl | ⟨_, _, t, _, rfl⟩ | ⟨hf, ms, t, hi, rfl⟩
    · simp only [List.head?_cons, Option.some.injEq] at hh
      exact absurd hh (by decide)
    · obtain ⟨-, d, k1, rfl, hdd⟩ := scanNum_ok v v [] h
      simp only [List.head?_cons, Option.some.injEq] at hh
      subst hh
      exact absurd (numHead_facts _ hdd).2.2.2.1 (by decide)
    · exact absurd hh (by decide)
    · exact absurd hh (by decide)
    · exact absurd hh (by decide)
    · simp only [List.head?_cons, Option.some.injEq] at hh
      exact absurd hh (by decide)
    · exact ⟨f, ms, t, rfl, hf, rfl, hi⟩

/-- A value that ends with `}` is an object. -/
theorem JValue_object_of_last (f : Nat) (v : Bytes) (h : JValue f v)
    (hl : v.getLast? = some cRBrace) :
    ∃ g ms t, f = g + 1 ∧ 0 < g ∧ v = cLBrace :: t ∧
      Items (MemberItem (JValue g)) cRBrace ms t := by
  cases f with
  | zero => exact absurd h (by simp [JValue])
  | succ f =>
    simp only [JValue] at h
    rcases h with ⟨k, hk, rfl⟩ | h | rfl | rfl | rfl | ⟨_, _, t, hi, rfl⟩ | ⟨hf, ms, t, hi, rfl⟩
    · obtain ⟨k1, k2⟩ := StrBody_last k hk
      rw [getLast?_cons_ne _ _ k2, k1] at hl
      exact absurd hl (by decide)
    · obtain ⟨⟨_, e2, _⟩, _⟩ := scanNum_ok v v [] h
      have := e2 _ (List.mem_of_getLast?_eq_some hl)
      exact absurd this (by decide)
    · exact absurd hl (by decide)
    · exact absurd hl (by decide)
    · exact absurd hl (by decide)
    · rw [getLast?_cons_ne _ _ (Items_ne_nil hi), Items_last hi] at hl
      exact absurd hl (by decide)
    · exact ⟨f, ms, t, rfl, hf, rfl, hi⟩

/-! ## Splicing with an empty object -/

theorem More_dropLast_noNumHead {α : Type} {Item : α → Bytes → Prop} {close : Char}
    {items : List α} {t : Bytes} (h : More Item close items t) (X : Bytes) :
    noNumHead (t.dropLast ++ ',' :: X) = true := by
  have key : ∀ (w y : Bytes), allSpace w → noNumHead (w ++ ',' :: y) = true := by
    intro w y hw
    cases w with
    | nil => rfl
    | cons d w =>
      simp only [List.cons_append, noNumHead, Bool.not_eq_true']
      exact isSpace_not_numChar d (hw d (by simp))
  cases h with
  | close w hw =>
    rw [List.dropLast_concat]
    exact key w X hw
  | next w w2 a raw items t hw _ _ hm =>
    rw [dropLast_append_ne _ _ (More_ne_nil hm)]
    have := key w (w2 ++ raw ++ t.dropLast ++ ',' :: X) hw
    simpa using this

theorem More_fail {α : Type} (item : Bytes → Option (α × Bytes × Bytes))
    (Item : α → Bytes → Prop) (close : Char)
    (hcomma : (',' == close) = false)
    (hhead : ∀ a raw, Item a raw → ∃ c t, raw = c :: t ∧ isSpace c = false)
    (hitem : ∀ a raw, Item a raw → ∀ r2, noNumHead r2 = true →
      item (raw ++ r2) = some (a, raw, r2))
    {items : List α} {t : Bytes} (h : More Item close items t) (X : Bytes)
    (hX : item (X.dropWhile isSpace) = none) :
    ∀ n, scanMore item close n (t.dropLast ++ ',' :: X) = none := by
  induction h with
  | close w hw =>
    intro n
    cases n with
    | zero => rfl
    | succ m =>
      rw [List.dropLast_concat]
      obtain ⟨e1, e2⟩ := takeWhile_space_append w ',' X hw (by decide)
      unfold scanMore
      simp only [List.span_eq_take_drop, e1, e2, hcomma, hX]
      simp
  | next w w2 a raw items t hw hw2 hi hm ih =>
    intro n
    cases n with
    | zero => rfl
    | succ m =>
      obtain ⟨c, x, hraw, hc⟩ := hhead a raw hi
      subst hraw
      have e : (w ++ ',' :: w2 ++ (c :: x) ++ t).dropLast ++ ',' :: X =
          w ++ ',' :: (w2 ++ c :: (x ++ (t.dropLast ++ ',' :: X))) := by
        rw [dropLast_append_ne _ _ (More_ne_nil hm)]
        simp
      obtain ⟨e1, e2⟩ := takeWhile_space_append w ','
        (w2 ++ c :: (x ++ (t.dropLast ++ ',' :: X))) hw (by decide)
      obtain ⟨e3, e4⟩ := takeWhile_space_append w2 c (x ++ (t.dropLast ++ ',' :: X)) hw2 hc
      have hi2 := hitem a (c :: x) hi (t.dropLast ++ ',' :: X) (More_dropLast_noNumHead hm X)
      simp only [List.cons_append] at hi2
      rw [e]
      unfold scanMore
      simp only [List.span_eq_take_drop, e1, e2, e3, e4, hcomma, hi2, ih m]
      simp

theorem Items_fail {α : Type} (item : Bytes → Option (α × Bytes × Bytes))
    (Item : α → Bytes → Prop) (close : Char)
    (hcomma : (',' == close) = false)
    (hhead : ∀ a raw, Item a raw → ∃ c t, raw = c :: t ∧ isSpace c = false ∧ (c == close) = false)
    (hitem : ∀ a raw, Item a raw → ∀ r2, noNumHead r2 = true →
      item (raw ++ r2) = some (a, raw, r2))
    {a : α} {items : List α} {t : Bytes} (h : Items Item close (a :: items) t) (X : Bytes)
    (hX : item (X.dropWhile isSpace) = none) :
    scanItems item close (t.dropLast ++ ',' :: X) = none := by
  cases h with
  | first w _ raw _ tm hw hi hm =>
    obtain ⟨c, x, hraw, hc, hcl⟩ := hhead a raw hi
    subst hraw
    have e : (w ++ (c :: x) ++ tm).dropLast ++ ',' :: X =
        w ++ c :: (x ++ (tm.dropLast ++ ',' :: X)) := by
      rw [dropLast_append_ne _ _ (More_ne_nil hm)]
      simp
    obtain ⟨e1, e2⟩ := takeWhile_space_append w c (x ++ (tm.dropLast ++ ',' :: X)) hw hc
    have hi2 := hitem a (c :: x) hi (tm.dropLast ++ ',' :: X) (More_dropLast_noNumHead hm X)
    simp only [List.cons_append] at hi2
    have hf := More_fail item Item close hcomma
      (fun a raw h => by
        obtain ⟨c, t, h1, h2, _⟩ := hhead a raw h
        exact ⟨c, t, h1, h2⟩) hitem hm X hX
    rw [e]
    unfold scanItems
    simp only [List.span_eq_take_drop, e1, e2, hcl, hi2, hf]
    simp

theorem MemberItem_head (V : Bytes → Prop) (a : Bytes × Bytes) (raw : Bytes)
    (h : MemberItem V a raw) :
    ∃ c t, raw = c :: t ∧ isSpace c = false ∧ (c == cRBrace) = false := by
  obtain ⟨k, w, w2, _, _, _, _, _, rfl⟩ := h
  exact ⟨cQuote, _, rfl, by decide, by decide⟩

theorem asMember_stable (g : Nat) (a : Bytes × Bytes) (raw : Bytes)
    (h : MemberItem (JValue g) a raw) (r2 : Bytes) (h2 : noNumHead r2 = true) :
    asMember (scanValue g) (raw ++ r2) = some (a, raw, r2) :=
  asMember_of_grammar _ _
    (fun v hv => by
      obtain ⟨c, t, h1, h2, _⟩ := JValue_item_head _ ']' (Or.inl rfl) v hv
      exact ⟨c, t, h1, h2⟩)
    (scanValue_of_grammar g) a raw h r2 h2

theorem asMember_not_quote (val : Bytes → Option (Bytes × Bytes)) (c : Char) (x : Bytes)
    (hc : (c == cQuote) = false) : asMember val (c :: x) = none := by
  simp [asMember, hc]

/-- The splice of two objects that both have members is an object of the same depth. -/
theorem merged_grammar (g : Nat) (hg : 0 < g) (msA msB : List (Bytes × Bytes)) (tA tB : Bytes)
    (hA : Items (MemberItem (JValue g)) cRBrace msA tA)
    (hB : Items (MemberItem (JValue g)) cRBrace msB tB)
    (hne : msA ≠ [] ∧ msB ≠ []) :
    JValue (g + 1) (cLBrace :: (tA.dropLast ++ ',' :: tB)) := by
  obtain ⟨a, as, rfl⟩ := List.exists_cons_of_ne_nil hne.1
  obtain ⟨b, bs, rfl⟩ := List.exists_cons_of_ne_nil hne.2
  simp only [JValue]
  exact Or.inr (Or.inr (Or.inr (Or.inr (Or.inr (Or.inr
    ⟨hg, _, _, Items_splice a b as bs tA tB hA hB, rfl⟩)))))

/-- The splice of two objects one of which has no member is not valid JSON. -/
theorem merged_invalid (g : Nat) (msA msB : List (Bytes × Bytes)) (tA tB : Bytes)
    (hA : Items (MemberItem (JValue g)) cRBrace msA tA)
    (hB : Items (MemberItem (JValue g)) cRBrace msB tB)
    (hemp : msA = [] ∨ msB = []) :
    scanValue (g + 2) (cLBrace :: (tA.dropLast ++ ',' :: tB)) = none := by
  have key : scanItems (asMember (scanValue (g + 1))) cRBrace (tA.dropLast ++ ',' :: tB) =
      none := by
    cases hA with
    | empty w hw =>
      rw [List.dropLast_concat]
      obtain ⟨e1, e2⟩ := takeWhile_space_append w ',' tB hw (by decide)
      have hc : (',' == cRBrace) = false := by decide
      unfold scanItems
      simp only [List.span_eq_take_drop, e1, e2, hc, asMember_not_quote _ ',' tB (by decide)]
      simp
    | first w a raw as tm hw hi hm =>
      have hAll := Items.first w a raw as tm hw hi hm
      rcases hemp with h | h
      · cases h
      · subst h
        cases hB with
        | empty wB hwB =>
          have hX : asMember (scanValue (g + 1)) ((wB ++ [cRBrace]).dropWhile isSpace) = none := by
            rw [(takeWhile_space_append wB cRBrace [] hwB (by decide)).2]
            exact asMember_not_quote _ _ _ (by decide)
          exact Items_fail (asMember (scanValue (g + 1))) (MemberItem (JValue (g + 1))) cRBrace
            (by decide) (MemberItem_head _) (asMember_stable (g + 1))
            (Items_mono (MemberItem_mono (JValue_succ g)) hAll) _ hX
  show scanValue (g + 1 + 1) _ = none
  unfold scanValue
  have hq : (cLBrace == cQuote) = false := by decide
  have hb : (cLBrace == '[') = false := by decide
  simp only [hq, hb, Bool.false_eq_true, if_false, beq_self_eq_true, if_true, key]
  rfl

/-- When the splice of the ask and bid objects of a frame is valid JSON, it is
a value no deeper than they are. -/
theorem merged_checkValid (A B : Bytes) (hA : JValue maxNestingDepth A)
    (hB : JValue maxNestingDepth B) (hl : A.getLast? = some cRBrace)
    (hh : B.head? = some cLBrace) (hv : checkValid (mergeAskBid A B) = true) :
    JValue maxNestingDepth (mergeAskBid A B) := by
  obtain ⟨g, msA, tA, hg1, hg, rfl, hiA⟩ := JValue_object_of_last _ A hA hl
  obtain ⟨g2, msB, tB, hg2, _, rfl, hiB⟩ := JValue_object_of_head _ B hB hh
  have hgg : g = g2 := by omega
  subst hgg
  rw [mergeAskBid_objects tA tB (Items_ne_nil hiA)] at hv ⊢
  rw [hg1]
  by_cases hne : msA ≠ [] ∧ msB ≠ []
  · exact merged_grammar g hg msA msB tA tB hiA hiB hne
  · have hemp : msA = [] ∨ msB = [] := by
      by_cases h1 : msA = []
      · exact Or.inl h1
      · exact Or.inr (by
          by_contra h2
          exact hne ⟨h1, h2⟩)
    have hinv := merged_invalid g msA msB tA tB hiA hiB hemp
    have hs : skipSpace (cLBrace :: (tA.dropLast ++ ',' :: tB)) =
        cLBrace :: (tA.dropLast ++ ',' :: tB) := by
      have : isSpace cLBrace = false := by decide
      simp [skipSpace, this]
    unfold checkValid at hv
    rw [hs, hg1, hinv] at hv
    simp at hv

/-! ## The re-encoded frame -/

theorem JValue_array (f : Nat) (hf : 0 < f) (es : List Bytes) (T : Bytes)
    (h : Items (ElemItem (JValue f)) ']' es T) : JValue (f + 1) ('[' :: T) := by
  simp only [JValue]
  exact Or.inr (Or.inr (Or.inr (Or.inr (Or.inr (Or.inl ⟨hf, es, T, h, rfl⟩)))))

theorem decodeTop_of_items (es : List Bytes) (T : Bytes)
    (h : Items (ElemItem (JValue maxNestingDepth)) ']' es T) :
    decodeTop ('[' :: T) = .array es := by
  have hj : JValue (maxNestingDepth + 1) ('[' :: T) :=
    JValue_array maxNestingDepth (by decide) es T h
  have hv := checkValid_of_JValue _ hj
  have hs : skipSpace ('[' :: T) = '[' :: T := by
    have : isSpace '[' = false := by decide
    simp [skipSpace, this]
  have hi := scanItems_of_grammar (asElem (scanValue maxNestingDepth))
    (ElemItem (JValue maxNestingDepth)) ']' (by decide) (by decide) (by decide)
    (fun a raw ha => by
      obtain ⟨rfl, hv⟩ := ha
      exact JValue_item_head _ ']' (Or.inl rfl) a hv)
    (fun a raw ha => asElem_of_grammar _ _ (scanValue_of_grammar maxNestingDepth) a raw ha)
    h []
  simp only [List.append_nil] at hi
  unfold decodeTop
  rw [hv, hs]
  simp [hi]

theorem items_four (e0 e1 e2 e3 : Bytes) (h0 : JValue maxNestingDepth e0)
    (h1 : JValue maxNestingDepth e1) (h2 : JValue maxNestingDepth e2)
    (h3 : JValue maxNestingDepth e3) :
    Items (ElemItem (JValue maxNestingDepth)) ']' [e0, e1, e2, e3]
      (e0 ++ (',' :: e1 ++ (',' :: e2 ++ (',' :: e3 ++ []))) ++ [']']) := by
  have hn : allSpace [] := fun _ hc => by simp at hc
  have m3 := @More.next Bytes (ElemItem (JValue maxNestingDepth)) ']'
    [] [] e3 e3 [] _ hn hn ⟨rfl, h3⟩ (More.close [] hn)
  have m2 := More.next [] [] e2 e2 _ _ hn hn ⟨rfl, h2⟩ m3
  have m1 := More.next [] [] e1 e1 _ _ hn hn ⟨rfl, h1⟩ m2
  have := Items.first [] e0 e0 _ _ hn ⟨rfl, h0⟩ m1
  simpa using this

theorem marshalRaw_elem (m : Bytes) (h : JValue maxNestingDepth m) :
    marshalRaw m = some (compactChars false m) ∧
      JValue maxNestingDepth (compactChars false m) := by
  have hne : m.isEmpty = false := by
    obtain ⟨c, t, rfl, _⟩ := JValue_head _ _ h
    rfl
  have hv := checkValid_of_JValue m (JValue_succ _ _ h)
  exact ⟨by simp [marshalRaw, hne, hv], (JValue_compact _ _ h).1⟩

/-- The frame `json.Marshal` writes for four elements of a frame decodes
to the four compacted elements. -/
theorem reencode_four (r0 m r3 r4 : Bytes) (h0 : JValue maxNestingDepth r0)
    (hm : JValue maxNestingDepth m) (h3 : JValue maxNestingDepth r3)
    (h4 : JValue maxNestingDepth r4) :
    marshalRaws [r0, m, r3, r4] = some (frame4 (compactChars false r0) (compactChars false m)
        (compactChars false r3) (compactChars false r4)) ∧
      decodeTop (frame4 (compactChars false r0) (compactChars false m)
        (compactChars false r3) (compactChars false r4)) =
        .array [compactChars false r0, compactChars false m,
          compactChars false r3, compactChars false r4] := by
  obtain ⟨a0, b0⟩ := marshalRaw_elem r0 h0
  obtain ⟨a1, b1⟩ := marshalRaw_elem m hm
  obtain ⟨a3, b3⟩ := marshalRaw_elem r3 h3
  obtain ⟨a4, b4⟩ := marshalRaw_elem r4 h4
  refine ⟨?_, ?_⟩
  · simp only [marshalRaws, marshalTail, a0, a1, a3, a4]
    rfl
  · exact decodeTop_of_items _ _ (items_four _ _ _ _ b0 b1 b3 b4)

theorem marshal_invalid (r0 m r3 r4 : Bytes) (hne : m ≠ []) (hv : checkValid m = false) :
    marshalRaws [r0, m, r3, r4] = none := by
  have h1 : marshalRaw m = none := by
    cases m with
    | nil => exact absurd rfl hne
    | cons c t => simp [marshalRaw, hv]
  simp only [marshalRaws, marshalTail, h1]
  cases marshalRaw r0 <;> rfl

/-- A frame written as four values between brackets, separated by commas, is
an array of these four elements. -/
theorem decodeTop_frame4 (e0 e1 e2 e3 : Bytes) (h0 : JValue maxNestingDepth e0)
    (h1 : JValue maxNestingDepth e1) (h2 : JValue maxNestingDepth e2)
    (h3 : JValue maxNestingDepth e3) :
    decodeTop (frame4 e0 e1 e2 e3) = .array [e0, e1, e2, e3] :=
  decodeTop_of_items _ _ (items_four e0 e1 e2 e3 h0 h1 h2 h3)

/-! ## `Message.UnmarshalJSON`: the depth frame -/

theorem unmarshal_five_eq (msg : Message) (data r0 A B r3 r4 : Bytes)
    (hframe : decodeTop data = .array [r0, A, B, r3, r4])
    (hl : A.getLast? = some cRBrace) (hh : B.head? = some cLBrace) :
    Message.UnmarshalJSON msg data =
      unmarshalBody [.channelID, .data, .channelName, .pair]
        ((marshalRaws [r0, mergeAskBid A B, r3, r4]).getD []) msg := by
  simp only [Message.UnmarshalJSON, unmarshalRaw_of_array data _ hframe]
  simp [hl, hh, bodyFor]

theorem unmarshal_frame4 (msg : Message) (d : Bytes) (e0 e1 e2 e3 : Bytes)
    (h : decodeTop d = .array [e0, e1, e2, e3]) :
    Message.UnmarshalJSON msg d =
      unmarshalBody [.channelID, .data, .channelName, .pair] d msg := by
  simp only [Message.UnmarshalJSON, unmarshalRaw_of_array d _ h]
  simp [bodyFor]

theorem objectMembers_of_items (g : Nat) (ms : List (Bytes × Bytes)) (t : Bytes)
    (hg : g + 1 = maxNestingDepth) (h : Items (MemberItem (JValue g)) cRBrace ms t) :
    objectMembers (cLBrace :: t) = ms := by
  have h2 : Items (MemberItem (JValue (maxNestingDepth + 1))) cRBrace ms t := by
    rw [← hg]
    exact Items_mono (MemberItem_mono (fun v hv => JValue_succ _ _ (JValue_succ _ _ hv))) h
  have hi := scanItems_of_grammar (asMember (scanValue (maxNestingDepth + 1)))
    (MemberItem (JValue (maxNestingDepth + 1))) cRBrace (by decide) (by decide) (by decide)
    (MemberItem_head _) (asMember_stable _) h2 []
  simp only [List.append_nil] at hi
  simp [objectMembers, hi]

/-- The splice of the ask and bid objects of a frame, when both have members,
is a value of the frame's depth. -/
theorem merged_of_members (A B : Bytes) (hA : JValue maxNestingDepth A)
    (hB : JValue maxNestingDepth B) (hl : A.getLast? = some cRBrace)
    (hh : B.head? = some cLBrace) (hmA : objectMembers A ≠ []) (hmB : objectMembers B ≠ []) :
    JValue maxNestingDepth (mergeAskBid A B) := by
  obtain ⟨g, msA, tA, hg1, hg, rfl, hiA⟩ := JValue_object_of_last _ A hA hl
  obtain ⟨g2, msB, tB, hg2, _, rfl, hiB⟩ := JValue_object_of_head _ B hB hh
  have hgg : g = g2 := by omega
  subst hgg
  rw [objectMembers_of_items g msA tA hg1.symm hiA] at hmA
  rw [objectMembers_of_items g msB tB hg1.symm hiB] at hmB
  rw [mergeAskBid_objects tA tB (Items_ne_nil hiA), hg1]
  exact merged_grammar g hg msA msB tA tB hiA hiB ⟨hmA, hmB⟩

theorem isCompact_iff (m : Bytes) :
    isCompact m = true ↔ ∀ c ∈ m, isSpace c = false ∧ htmlEscape c = [c] := by
  simp [isCompact, List.all_eq_true]

theorem compact_clean : ∀ (m : Bytes) (b : Bool),
    (∀ c ∈ m, isSpace c = false ∧ htmlEscape c = [c]) → compactChars b m = m
  | [], b, _ => compact_nil b
  | [c], b, h => by
    obtain ⟨h1, h2⟩ := h c (by simp)
    cases b with
    | false =>
      rw [compact_false_cons]
      by_cases hq : (c == cQuote) = true
      · simp [h1, hq, compact_nil]
      · simp [h1, hq, h2, compact_nil]
    | true =>
      rw [compact_true_cons]
      by_cases hq : (c == cQuote) = true
      · simp [hq, compact_nil]
      · by_cases he : (c == cEsc) = true
        · simp [hq, he]
        · simp [hq, he, h2, compact_nil]
  | c :: e :: r, b, h => by
    obtain ⟨h1, h2⟩ := h c (by simp)
    obtain ⟨_, h4⟩ := h e (by simp)
    have ih1 := fun b => compact_clean (e :: r) b (fun x hx => h x (by simp [hx]))
    have ih2 := fun b => compact_clean r b (fun x hx => h x (by
      simp only [List.mem_cons]; exact Or.inr (Or.inr hx)))
    cases b with
    | false =>
      rw [compact_false_cons]
      by_cases hq : (c == cQuote) = true
      · simp [h1, hq, ih1]
      · simp [h1, hq, h2, ih1]
    | true =>
      rw [compact_true_cons]
      by_cases hq : (c == cQuote) = true
      · simp [hq, ih1]
      · by_cases he : (c == cEsc) = true
        · simp [hq, he, h4, ih2]
        · simp [hq, he, h2, ih1]

theorem compact_of_isCompact (m : Bytes) (h : isCompact m = true) : compactChars false m = m :=
  compact_clean m false ((isCompact_iff m).mp h)

theorem isCompact_merge (A B : Bytes) (hA : isCompact A = true) (hB : isCompact B = true) :
    isCompact (mergeAskBid A B) = true := by
  rw [isCompact_iff] at hA hB ⊢
  intro c hc
  simp only [mergeAskBid, List.mem_append, List.mem_cons] at hc
  rcases hc with hc | rfl | hc
  · exact hA c (List.mem_of_mem_dropLast hc)
  · decide
  · exact hB c (List.mem_of_mem_tail hc)

/-- The depth frame decodes as the re-encoded frame of four elements. -/
theorem unmarshal_five_reencoded (msg : Message) (data r0 A B r3 r4 : Bytes)
    (hframe : decodeTop data = .array [r0, A, B, r3, r4])
    (hl : A.getLast? = some cRBrace) (hh : B.head? = some cLBrace)
    (hmA : objectMembers A ≠ []) (hmB : objectMembers B ≠ []) :
    Message.UnmarshalJSON msg data =
        unmarshalBody [.channelID, .data, .channelName, .pair]
          (frame4 (compactChars false r0) (compactChars false (mergeAskBid A B))
            (compactChars false r3) (compactChars false r4)) msg ∧
      decodeTop (frame4 (compactChars false r0) (compactChars false (mergeAskBid A B))
          (compactChars false r3) (compactChars false r4)) =
        .array [compactChars false r0, compactChars false (mergeAskBid A B),
          compactChars false r3, compactChars false r4] := by
  have hel := decodeTop_elems data _ hframe
  have hm := merged_of_members A B (hel A (by simp)) (hel B (by simp)) hl hh hmA hmB
  obtain ⟨e1, e2⟩ := reencode_four r0 (mergeAskBid A B) r3 r4 (hel r0 (by simp)) hm
    (hel r3 (by simp)) (hel r4 (by simp))
  refine ⟨?_, e2⟩
  rw [unmarshal_five_eq msg data r0 A B r3 r4 hframe hl hh, e1]
  rfl


/-! ## What `Message.UnmarshalJSON` does to its receiver -/

theorem Patch.apply_none (m : Message) : Patch.none.apply m = m := rfl

theorem Patch.apply_andThen (p q : Patch) (m : Message) :
    q.apply (p.apply m) = (p.andThen q).apply m := by
  cases p; cases q
  simp only [Patch.apply, Patch.andThen]
  rename_i a1 a2 a3 a4 a5 b1 b2 b3 b4 b5
  cases b1 <;> cases b2 <;> cases b3 <;> cases b4 <;> cases b5 <;> rfl

theorem Patch.apply_apply (p : Patch) (m : Message) : p.apply (p.apply m) = p.apply m := by
  cases p
  simp only [Patch.apply]
  rename_i a1 a2 a3 a4 a5
  cases a1 <;> cases a2 <;> cases a3 <;> cases a4 <;> cases a5 <;> rfl

theorem IsPatch.id : IsPatch (fun st => st) :=
  ⟨Patch.none, fun e => e, fun _ _ => rfl⟩

theorem IsPatch.saveError : IsPatch (fun st => saveError st) :=
  ⟨Patch.none, fun e => e.orElse (fun _ => some GoError.typeMismatch), fun _ _ => rfl⟩

theorem IsPatch.comp {f g : Dec Message → Dec Message} (hf : IsPatch f) (hg : IsPatch g) :
    IsPatch (fun st => g (f st)) := by
  obtain ⟨p, a, hp⟩ := hf
  obtain ⟨q, b, hq⟩ := hg
  refine ⟨p.andThen q, fun e => b (a e), fun m e => ?_⟩
  show g (f (m, e)) = _
  rw [hp, hq, Patch.apply_andThen]

theorem storeSeqMembers_patch (ms : List (Bytes × Bytes)) :
    ∃ (v : Option Int) (g : Option GoError → Option GoError),
      ∀ (q : Seq) e, storeSeqMembers ms (q, e) = ({ Value := v.getD q.Value }, g e) := by
  induction ms with
  | nil => exact ⟨none, fun e => e, fun _ _ => rfl⟩
  | cons kv ms ih =>
    obtain ⟨k, x⟩ := kv
    obtain ⟨w, g, h⟩ := ih
    by_cases hk : keyMatches "sequence" k = true
    · have step : ∃ (u : Option Int) (a : Option GoError → Option GoError),
          ∀ (q : Seq) e, storeInt64 (fun (_ : Seq) n => { Value := n }) x (q, e) =
            ({ Value := u.getD q.Value }, a e) := by
        unfold storeInt64
        cases kindOf x
        case number =>
          cases parseInt64 x with
          | none =>
            exact ⟨none, fun e => e.orElse (fun _ => some GoError.typeMismatch), fun _ _ => rfl⟩
          | some n => exact ⟨some n, fun e => e, fun _ _ => rfl⟩
        case null => exact ⟨none, fun e => e, fun _ _ => rfl⟩
        all_goals
          exact ⟨none, fun e => e.orElse (fun _ => some GoError.typeMismatch), fun _ _ => rfl⟩
      obtain ⟨u, a, hu⟩ := step
      refine ⟨w.orElse (fun _ => u), fun e => g (a e), fun q e => ?_⟩
      simp only [storeSeqMembers, hk, if_true]
      rw [hu, h]
      cases w <;> cases u <;> rfl
    · refine ⟨w, g, fun q e => ?_⟩
      simp only [storeSeqMembers, hk]
      exact h q e

theorem storeTarget_patch (t : Target) (raw : Bytes) : IsPatch (storeTarget t raw) := by
  have bad : IsPatch (fun st => saveError st) := IsPatch.saveError
  cases t
  case channelID =>
    unfold storeTarget storeInt64
    cases kindOf raw
    case number =>
      cases parseInt64 raw with
      | none => exact bad
      | some n =>
        exact ⟨{ Patch.none with ChannelID := some n }, fun e => e, fun _ _ => rfl⟩
    case null => exact IsPatch.id
    all_goals exact bad
  case data =>
    unfold storeTarget storeRaw
    cases kindOf raw
    case null => exact IsPatch.id
    all_goals exact ⟨{ Patch.none with Data := some raw }, fun e => e, fun _ _ => rfl⟩
  case channelName =>
    unfold storeTarget storeString
    cases kindOf raw
    case null => exact IsPatch.id
    case string =>
      exact ⟨{ Patch.none with ChannelName := some (unquote raw) }, fun e => e, fun _ _ => rfl⟩
    all_goals exact bad
  case pair =>
    unfold storeTarget storeString
    cases kindOf raw
    case null => exact IsPatch.id
    case string =>
      exact ⟨{ Patch.none with Pair := some (unquote raw) }, fun e => e, fun _ _ => rfl⟩
    all_goals exact bad
  case sequence =>
    unfold storeTarget storeSeq
    cases kindOf raw
    case null => exact IsPatch.id
    case object =>
      obtain ⟨v, g, h⟩ := storeSeqMembers_patch (objectMembers raw)
      refine ⟨{ Patch.none with Sequence := v }, g, fun m e => ?_⟩
      simp only [h]
      rfl
    all_goals exact bad

theorem storeAll_patch (ts : List Target) (es : List Bytes) : IsPatch (storeAll ts es) := by
  induction es generalizing ts with
  | nil =>
    cases ts <;> exact ⟨Patch.none, fun e => e, fun _ _ => by simp [storeAll, Patch.apply_none]⟩
  | cons x es ih =>
    cases ts with
    | nil =>
      have h1 : IsPatch (fun st => if interfaceFails x then saveError st else st) := by
        cases interfaceFails x
        · exact IsPatch.id
        · exact IsPatch.saveError
      exact @IsPatch.comp (fun st => if interfaceFails x then saveError st else st)
        (storeAll [] es) h1 (ih [])
    | cons t ts => exact @IsPatch.comp (storeTarget t x) (storeAll ts es) (storeTarget_patch t x) (ih ts)

/-- The `json.Unmarshal` into `body` patches the receiver; the patch and the
error depend on the bytes only. -/
theorem unmarshalBody_patch (body : List Target) (d : Bytes) :
    ∃ (p : Patch) (err : Option GoError), ∀ msg, unmarshalBody body d msg = .done (p.apply msg) err := by
  unfold unmarshalBody
  cases decodeTop d with
  | invalid => exact ⟨Patch.none, _, fun _ => rfl⟩
  | null => exact ⟨Patch.none, _, fun _ => rfl⟩
  | other => exact ⟨Patch.none, _, fun _ => rfl⟩
  | array es =>
    obtain ⟨p, g, h⟩ := storeAll_patch body es
    exact ⟨p, g none, fun msg => by simp only [h]⟩

/-- The three ways `Message.UnmarshalJSON` ends: before it decodes into
`body`, with an error and the receiver as it was; by decoding the frame into
the `body` of its length; or, for a frame of five elements that passes the
test of the ask and bid elements, by decoding the re-encoded frame. -/
theorem UnmarshalJSON_shape (data : Bytes) :
    (∃ e, ∀ msg, Message.UnmarshalJSON msg data = .done msg (some e)) ∨
    (∀ msg, Message.UnmarshalJSON msg data = .panic) ∨
    (∃ es, decodeTop data = .array es ∧ 3 ≤ es.length ∧ es.length ≠ 5 ∧
      ∀ msg, Message.UnmarshalJSON msg data = unmarshalBody (bodyFor es.length) data msg) ∨
    (∃ r0 A B r3 r4, decodeTop data = .array [r0, A, B, r3, r4] ∧
      A.getLast? = some cRBrace ∧ B.head? = some cLBrace ∧
      ∀ msg, Message.UnmarshalJSON msg data =
        unmarshalBody [.channelID, .data, .channelName, .pair]
          ((marshalRaws [r0, mergeAskBid A B, r3, r4]).getD []) msg) := by
  cases hd : decodeTop data with
  | invalid => exact Or.inl ⟨.invalidJSON, fun msg => by simp [Message.UnmarshalJSON, unmarshalRaw, hd]⟩
  | null => exact Or.inl ⟨.invalidLength, fun msg => by simp [Message.UnmarshalJSON, unmarshalRaw, hd]⟩
  | other => exact Or.inl ⟨.typeMismatch, fun msg => by simp [Message.UnmarshalJSON, unmarshalRaw, hd]⟩
  | array es =>
    by_cases h3 : es.length < 3
    · exact Or.inl ⟨.invalidLength, fun msg => by
        simp [Message.UnmarshalJSON, unmarshalRaw, hd, h3]⟩
    by_cases h5 : es.length = 5
    · match es, h5 with
      | [r0, A, B, r3, r4], _ =>
        cases hl : A.getLast? with
        | none =>
          exact Or.inr (Or.inl fun msg => by simp [Message.UnmarshalJSON, unmarshalRaw, hd, hl])
        | some a =>
          by_cases ha : a = cRBrace
          · subst ha
            cases hh : B.head? with
            | none =>
              exact Or.inr (Or.inl fun msg => by
                simp [Message.UnmarshalJSON, unmarshalRaw, hd, hl, hh])
            | some b =>
              by_cases hb : b = cLBrace
              · subst hb
                exact Or.inr (Or.inr (Or.inr ⟨r0, A, B, r3, r4, rfl, hl, hh, fun msg =>
                  unmarshal_five_eq msg data r0 A B r3 r4 hd hl hh⟩))
              · exact Or.inl ⟨.invalidPayload, fun msg => by
                  simp [Message.UnmarshalJSON, unmarshalRaw, hd, hl, hh, hb]⟩
          · exact Or.inl ⟨.invalidPayload, fun msg => by
              simp [Message.UnmarshalJSON, unmarshalRaw, hd, hl, ha]⟩
    · refine Or.inr (Or.inr (Or.inl ⟨es, rfl, by omega, h5, fun msg => ?_⟩))
      simp [Message.UnmarshalJSON, unmarshalRaw, hd, h3, h5]

/-- `Message.UnmarshalJSON` panics, or it patches the receiver; which of the
two, the patch and the error depend on the bytes only. -/
theorem UnmarshalJSON_patch (data : Bytes) :
    (∀ msg, Message.UnmarshalJSON msg data = .panic) ∨
    ∃ (p : Patch) (err : Option GoError),
      ∀ msg, Message.UnmarshalJSON msg data = .done (p.apply msg) err := by
  rcases UnmarshalJSON_shape data with ⟨e, h⟩ | h | ⟨es, _, _, _, h⟩ | ⟨r0, A, B, r3, r4, _, _, _, h⟩
  · exact Or.inr ⟨Patch.none, some e, h⟩
  · exact Or.inl h
  · obtain ⟨p, err, hp⟩ := unmarshalBody_patch (bodyFor es.length) data
    exact Or.inr ⟨p, err, fun msg => by rw [h, hp]⟩
  · obtain ⟨p, err, hp⟩ := unmarshalBody_patch [.channelID, .data, .channelName, .pair]
      ((marshalRaws [r0, mergeAskBid A B, r3, r4]).getD [])
    exact Or.inr ⟨p, err, fun msg => by rw [h, hp]⟩

/-- A frame of five elements that fails the test of its ask and bid elements
gets the payload error; an element of a frame is never empty, so neither
index is out of range. -/
theorem unmarshal_five_guard (msg : Message) (data r0 ask bid r3 r4 : Bytes)
    (hframe : decodeTop data = .array [r0, ask, bid, r3, r4])
    (h : ¬ (ask.getLast? = some cRBrace ∧ bid.head? = some cLBrace)) :
    Message.UnmarshalJSON msg data = .done msg (some .invalidPayload) := by
  have hel := decodeTop_elems data _ hframe
  have ha : ask ≠ [] := JValue_ne_nil _ ask (hel ask (by simp))
  have hb : bid ≠ [] := JValue_ne_nil _ bid (hel bid (by simp))
  rcases UnmarshalJSON_shape data with ⟨e, he⟩ | hp | ⟨es, hd, _, h5, _⟩ | ⟨_, A, B, _, _, hd, hl, hh, _⟩
  · have := he msg
    rw [this]
    simp only [Message.UnmarshalJSON, unmarshalRaw_of_array data _ hframe] at this
    simp only [List.length_cons, List.length_nil] at this
    cases hla : ask.getLast? with
    | none => exact absurd (List.getLast?_eq_none_iff.mp hla) ha
    | some a =>
      cases hhb : bid.head? with
      | none => exact absurd (List.head?_eq_none_iff.mp hhb) hb
      | some b =>
        rw [hla, hhb] at this
        by_cases h1 : a = cRBrace
        · by_cases h2 : b = cLBrace
          · subst h1 h2
            exact absurd ⟨hla, hhb⟩ h
          · simp [h1, h2] at this
            rw [← this]
        · simp [h1] at this
          rw [← this]
  · have := hp msg
    simp only [Message.UnmarshalJSON, unmarshalRaw_of_array data _ hframe] at this
    simp only [List.length_cons, List.length_nil] at this
    cases hla : ask.getLast? with
    | none => exact absurd (List.getLast?_eq_none_iff.mp hla) ha
    | some a =>
      cases hhb : bid.head? with
      | none => exact absurd (List.head?_eq_none_iff.mp hhb) hb
      | some b =>
        rw [hla, hhb] at this
        by_cases h1 : a = cRBrace
        · by_cases h2 : b = cLBrace
          · subst h1 h2
            exact absurd ⟨hla, hhb⟩ h
          · simp [h1, h2] at this
        · simp [h1] at this
  · rw [hframe] at hd
    injection hd with hd
    subst hd
    exact absurd rfl h5
  · rw [hframe] at hd
    injection hd with hd
    injection hd with _ hd
    injection hd with h1 hd
    injection hd with h2 _
    subst h1 h2
    exact absurd ⟨hl, hh⟩ h

/-! ### Fields a decode leaves alone -/

theorem storeTarget_keeps_ChannelID (t : Target) (h : t ≠ .channelID) (raw : Bytes)
    (st : Dec Message) : (storeTarget t raw st).1.ChannelID = st.1.ChannelID := by
  cases t
  case channelID => exact absurd rfl h
  all_goals
    simp only [storeTarget, storeRaw, storeString, storeSeq]
    cases kindOf raw <;> rfl

theorem storeTarget_keeps_Pair (t : Target) (h : t ≠ .pair) (raw : Bytes)
    (st : Dec Message) : (storeTarget t raw st).1.Pair = st.1.Pair := by
  cases t
  case pair => exact absurd rfl h
  case channelID =>
    simp only [storeTarget, storeInt64]
    cases kindOf raw <;> try rfl
    cases parseInt64 raw <;> rfl
  all_goals
    simp only [storeTarget, storeRaw, storeString, storeSeq]
    cases kindOf raw <;> rfl

theorem storeTarget_keeps_Sequence (t : Target) (h : t ≠ .sequence) (raw : Bytes)
    (st : Dec Message) : (storeTarget t raw st).1.Sequence = st.1.Sequence := by
  cases t
  case sequence => exact absurd rfl h
  case channelID =>
    simp only [storeTarget, storeInt64]
    cases kindOf raw <;> try rfl
    cases parseInt64 raw <;> rfl
  all_goals
    simp only [storeTarget, storeRaw, storeString]
    cases kindOf raw <;> rfl

theorem storeAll_keeps {α : Type} (f : Message → α) (ts : List Target)
    (h : ∀ t ∈ ts, ∀ raw st, f (storeTarget t raw st).1 = f st.1) (es : List Bytes)
    (st : Dec Message) : f (storeAll ts es st).1 = f st.1 := by
  induction es generalizing ts st with
  | nil => cases ts <;> rfl
  | cons x es ih =>
    cases ts with
    | nil =>
      simp only [storeAll]
      rw [ih [] (by simp)]
      cases interfaceFails x <;> rfl
    | cons t ts =>
      simp only [storeAll]
      rw [ih ts (fun u hu => h u (List.mem_cons_of_mem _ hu))]
      exact h t (List.mem_cons_self _ _) x st

theorem unmarshalBody_keeps {α : Type} (f : Message → α) (body : List Target)
    (h : ∀ t ∈ body, ∀ raw st, f (storeTarget t raw st).1 = f st.1) (d : Bytes)
    (msg m2 : Message) (e : Option GoError) (hd : unmarshalBody body d msg = .done m2 e) :
    f m2 = f msg := by
  unfold unmarshalBody at hd
  cases hk : decodeTop d with
  | array es =>
    rw [hk] at hd
    simp only at hd
    injection hd with h1 _
    rw [← h1]
    exact storeAll_keeps f body h es (msg, none)
  | _ =>
    rw [hk] at hd
    simp only at hd
    injection hd with h1 _
    rw [← h1]

/-! ## The positional payloads: which arrays are accepted -/

theorem storeNumber_spec {σ : Type} (set : σ → String → σ) :
    SlotSpec (storeNumber set) numberAccepts := by
  intro raw st
  obtain ⟨s, e⟩ := st
  unfold storeNumber numberAccepts isNumeric
  cases hk : kindOf raw
  case string =>
    by_cases hv : isValidNumber (unquote raw).toList = true
    · simp only [hv, if_true]
      cases e <;> simp
    · simp only [hv]
      simp
  all_goals cases e <;> simp [saveError]

theorem storeInt_spec {σ : Type} (bits : Nat) (set : σ → Int → σ) :
    SlotSpec (storeInt bits set) (intAccepts bits) := by
  intro raw st
  obtain ⟨s, e⟩ := st
  unfold storeInt intAccepts
  cases hk : kindOf raw
  case number =>
    cases hp : parseIntBits bits raw <;> cases e <;> simp [saveError]
  all_goals cases e <;> simp [saveError]

theorem storeFields_extra {σ : Type} (es : List Bytes) (st : Dec σ) :
    (storeFields [] es st).err = none ↔ (st.2 = none ∧ acceptedBy [] es = true) := by
  induction es generalizing st with
  | nil => simp [storeFields, Step.err, acceptedBy]
  | cons x es ih =>
    obtain ⟨s, e⟩ := st
    simp only [storeFields, acceptedBy]
    rw [ih]
    cases interfaceFails x <;> cases e <;> simp [saveError]

/-- The decode of an array into destinations returns no error exactly when
every element is accepted. -/
theorem storeFields_spec {σ : Type} (slots : List (Slot σ)) (accs : List (Bytes → Bool))
    (h : List.Forall₂ SlotSpec slots accs) (es : List Bytes) (st : Dec σ) :
    (storeFields slots es st).err = none ↔ (st.2 = none ∧ acceptedBy accs es = true) := by
  induction h generalizing es st with
  | nil => exact storeFields_extra es st
  | @cons f a fs as hfa _ ih =>
    cases es with
    | nil => simp [storeFields, Step.err, acceptedBy]
    | cons x es =>
      have hx := hfa x st
      simp only [storeFields, acceptedBy]
      cases hf : f x st with
      | next st2 =>
        rw [hf] at hx
        simp only at hx ⊢
        rw [ih, hx]
        simp [and_assoc]
      | abort s2 e =>
        rw [hf] at hx
        simp only at hx ⊢
        simp [Step.err, hx]

theorem unmarshalFields_spec {σ : Type} (slots : List (Slot σ)) (accs : List (Bytes → Bool))
    (h : List.Forall₂ SlotSpec slots accs) (data : Bytes) (es : List Bytes)
    (hd : decodeTop data = .array es) (s : σ) :
    (unmarshalFields slots data s).err = none ↔ acceptedBy accs es = true := by
  have key := storeFields_spec slots accs h es (s, none)
  unfold unmarshalFields
  rw [hd]
  simp only
  cases hs : storeFields slots es (s, none) with
  | next st =>
    rw [hs] at key
    simpa [Outcome.err, Step.err] using key
  | abort s2 e =>
    rw [hs] at key
    simpa [Outcome.err, Step.err] using key

theorem storeNumber_numeric {σ : Type} (set : σ → String → σ) (raw : Bytes) (st : Dec σ)
    (h : isNumeric raw = true) :
    storeNumber set raw st = .next (set st.1 (numberText raw), st.2) := by
  unfold isNumeric at h
  unfold storeNumber numberText
  cases hk : kindOf raw <;> simp [hk] at h ⊢
  exact h

theorem parseIntBits_parseInt64 (bits : Nat) (raw : Bytes) (n : Int)
    (h : parseIntBits bits raw = some n) : parseInt64 raw = some n := by
  unfold parseIntBits at h
  cases hp : parseInt64 raw with
  | none => simp [hp] at h
  | some m =>
    simp only [hp] at h
    split at h
    · injection h with h
      rw [h]
    · cases h

theorem storeInt_parsed {σ : Type} (bits : Nat) (set : σ → Int → σ) (raw : Bytes) (st : Dec σ)
    (n : Int) (h : parseIntBits bits raw = some n) :
    storeInt bits set raw st = .next (set st.1 n, st.2) := by
  have hk := kindOf_of_parseInt64 raw n (parseIntBits_parseInt64 bits raw n h)
  simp [storeInt, hk, h]

theorem parseIntBits_64 (raw : Bytes) (n : Int) (h : parseInt64 raw = some n) :
    parseIntBits 64 raw = some n := by
  have hr : -(2 ^ 63 : Int) ≤ n ∧ n < 2 ^ 63 := by
    unfold parseInt64 at h
    cases raw with
    | nil => cases h
    | cons c r =>
      simp only at h
      split at h
      · cases hp : parseNat r with
        | none => simp [hp] at h
        | some k =>
          simp only [hp] at h
          split at h
          · injection h with h
            omega
          · cases h
      · cases hp : parseNat (c :: r) with
        | none => simp [hp] at h
        | some k =>
          simp only [hp] at h
          split at h
          · injection h with h
            omega
          · cases h
  unfold parseIntBits
  rw [h]
  simp only [show (64 : Nat) - 1 = 63 from rfl]
  rw [if_pos hr]

theorem unmarshalFields_succeeded {σ : Type} (slots : List (Slot σ))
    (accs : List (Bytes → Bool)) (h : List.Forall₂ SlotSpec slots accs) (data : Bytes)
    (es : List Bytes) (hd : decodeTop data = .array es) (s : σ) :
    (unmarshalFields slots data s).succeeded = true ↔ acceptedBy accs es = true := by
  rw [← unmarshalFields_spec slots accs h data es hd s]
  unfold unmarshalFields
  rw [hd]
  simp only
  cases storeFields slots es (s, none) with
  | next st =>
    obtain ⟨v, e⟩ := st
    cases e <;> simp [Outcome.succeeded, Outcome.err]
  | abort s2 e => simp [Outcome.succeeded, Outcome.err]

theorem candleSlots_spec : List.Forall₂ SlotSpec candleSlots candleAccepts := by
  unfold candleSlots candleAccepts
  repeat first
    | exact List.Forall₂.nil
    | refine List.Forall₂.cons (storeNumber_spec _) ?_
    | refine List.Forall₂.cons (storeInt_spec _ _) ?_

/-! ### Fields a positional decode leaves alone -/

theorem storeNumber_keeps {σ α : Type} (f : σ → α) (set : σ → String → σ)
    (h : ∀ s x, f (set s x) = f s) : SlotKeeps f (storeNumber set) := by
  intro raw st
  unfold storeNumber
  cases kindOf raw
  case string =>
    by_cases hv : isValidNumber (unquote raw).toList = true
    · simp only [hv, if_true, Step.val, h]
    · simp only [hv, Step.val]
      rfl
  case number => simp only [Step.val, h]
  all_goals rfl

theorem storeInt_keeps {σ α : Type} (f : σ → α) (bits : Nat) (set : σ → Int → σ)
    (h : ∀ s x, f (set s x) = f s) : SlotKeeps f (storeInt bits set) := by
  intro raw st
  unfold storeInt
  cases kindOf raw
  case number =>
    cases parseIntBits bits raw with
    | none => rfl
    | some n => simp only [Step.val, h]
  all_goals rfl

theorem storeFields_nil_val {σ : Type} (es : List Bytes) (st : Dec σ) :
    (storeFields [] es st).val = st.1 := by
  induction es generalizing st with
  | nil => rfl
  | cons x es ih =>
    simp only [storeFields]
    rw [ih]
    cases interfaceFails x <;> rfl

/-- The decode of an array of at most `k` elements leaves the parts of the
value alone that the first `k` destinations leave alone. -/
theorem storeFields_keeps {σ α : Type} (f : σ → α) (es : List Bytes) (k : Nat)
    (slots : List (Slot σ)) (st : Dec σ) (hk : es.length ≤ k)
    (h : ∀ slot ∈ slots.take k, SlotKeeps f slot) :
    f (storeFields slots es st).val = f st.1 := by
  induction es generalizing k slots st with
  | nil => cases slots <;> rfl
  | cons x es ih =>
    cases slots with
    | nil => rw [storeFields_nil_val]
    | cons sl sls =>
      cases k with
      | zero => simp at hk
      | succ k =>
        have hsl : SlotKeeps f sl := h sl (by simp [List.take])
        have hrest : ∀ slot ∈ sls.take k, SlotKeeps f slot :=
          fun slot hs => h slot (by simp [List.take, hs])
        have hx := hsl x st
        simp only [storeFields]
        cases hf : sl x st with
        | next st2 =>
          rw [hf] at hx
          simp only
          rw [ih k sls st2 (by simpa using hk) hrest]
          exact hx
        | abort s e =>
          rw [hf] at hx
          exact hx

/-- The value a decode leaves depends on as many elements as there are
destinations: the elements past the last destination are dropped. -/
theorem storeFields_surplus {σ : Type} (slots : List (Slot σ)) (es : List Bytes) (st : Dec σ) :
    (storeFields slots es st).val = (storeFields slots (es.take slots.length) st).val := by
  induction slots generalizing es st with
  | nil => rw [storeFields_nil_val, storeFields_nil_val]
  | cons sl sls ih =>
    cases es with
    | nil => rfl
    | cons x es =>
      simp only [List.length_cons, List.take_succ_cons, storeFields]
      cases sl x st with
      | next st2 => exact ih es st2
      | abort s e => rfl

theorem unmarshalFields_val {σ : Type} (slots : List (Slot σ)) (data : Bytes) (es : List Bytes)
    (hd : decodeTop data = .array es) (s : σ) :
    ∃ err, unmarshalFields slots data s = .done (storeFields slots es (s, none)).val err := by
  unfold unmarshalFields
  rw [hd]
  simp only
  cases storeFields slots es (s, none) with
  | next st => exact ⟨st.2, rfl⟩
  | abort s2 e => exact ⟨some e, rfl⟩

/-- The elements past the last destination do not change the value decoded. -/
theorem unmarshalFields_surplus {σ : Type} (slots : List (Slot σ)) (data data2 : Bytes)
    (es : List Bytes) (k : Nat) (hd : decodeTop data = .array es)
    (hd2 : decodeTop data2 = .array (es.take k)) (s : σ) (hk : slots.length = k) :
    ∃ s2 err err2, unmarshalFields slots data s = .done s2 err ∧
      unmarshalFields slots data2 s = .done s2 err2 := by
  subst hk
  obtain ⟨err, h⟩ := unmarshalFields_val slots data es hd s
  obtain ⟨err2, h2⟩ := unmarshalFields_val slots data2 _ hd2 s
  rw [← storeFields_surplus] at h2
  exact ⟨_, err, err2, h, h2⟩

/-! ## The order-book replica: a side under one event -/

theorem comesBefore_trans {P : Type} [LinearOrder P] (side : BookSide) {a b c : P}
    (h1 : comesBefore side a b) (h2 : comesBefore side b c) : comesBefore side a c := by
  cases side
  · exact lt_trans h2 h1
  · exact lt_trans h1 h2

theorem comesBefore_of_not {P : Type} [LinearOrder P] (side : BookSide) {a b : P}
    (hne : a ≠ b) (h : ¬ comesBefore side a b) : comesBefore side b a := by
  cases side
  · exact lt_of_le_of_ne (not_lt.mp h) hne
  · exact lt_of_le_of_ne (not_lt.mp h) (Ne.symm hne)

theorem mem_upsertLevel {P V : Type} [LinearOrder P] (side : BookSide) (p : P) (v : V)
    (levels : List (PriceLevel P V)) (x : PriceLevel P V)
    (hx : x ∈ upsertLevel side p v levels) : x = { price := p, volume := v } ∨ x ∈ levels := by
  induction levels with
  | nil => simpa [upsertLevel] using hx
  | cons l rest ih =>
    unfold upsertLevel at hx
    split at hx
    · rcases List.mem_cons.mp hx with h | h
      · exact Or.inl h
      · exact Or.inr (List.mem_cons_of_mem _ h)
    · split at hx
      · rcases List.mem_cons.mp hx with h | h
        · exact Or.inl h
        · exact Or.inr h
      · rcases List.mem_cons.mp hx with h | h
        · exact Or.inr (h ▸ List.mem_cons_self _ _)
        · exact (ih h).imp_right (List.mem_cons_of_mem _)

theorem upsertLevel_sorted {P V : Type} [LinearOrder P] (side : BookSide) (p : P) (v : V)
    (levels : List (PriceLevel P V)) (hs : SideSorted side levels) :
    SideSorted side (upsertLevel side p v levels) := by
  unfold SideSorted at hs ⊢
  induction levels with
  | nil => simp [upsertLevel]
  | cons l rest ih =>
    obtain ⟨hl, hrest⟩ := List.pairwise_cons.mp hs
    unfold upsertLevel
    split
    · rename_i hp
      refine List.pairwise_cons.mpr ⟨fun b hb => ?_, hrest⟩
      rw [hp]
      exact hl b hb
    · rename_i hp
      split
      · rename_i hc
        refine List.pairwise_cons.mpr ⟨fun b hb => ?_, hs⟩
        rcases List.mem_cons.mp hb with h | h
        · rw [h]
          exact hc
        · exact comesBefore_trans side hc (hl b h)
      · rename_i hc
        refine List.pairwise_cons.mpr ⟨fun b hb => ?_, ih hrest⟩
        rcases mem_upsertLevel side p v rest b hb with h | h
        · rw [h]
          exact comesBefore_of_not side hp hc
        · exact hl b h

theorem volumeAt_upsert_self {P V : Type} [LinearOrder P] (side : BookSide) (p : P) (v : V)
    (levels : List (PriceLevel P V)) : volumeAt p (upsertLevel side p v levels) = some v := by
  induction levels with
  | nil => simp [upsertLevel, volumeAt]
  | cons l rest ih =>
    unfold upsertLevel
    split
    · simp [volumeAt]
    · rename_i hp
      split
      · simp [volumeAt]
      · simp [volumeAt, Ne.symm hp, ih]

theorem volumeAt_upsert_other {P V : Type} [LinearOrder P] (side : BookSide) (p q : P) (v : V)
    (levels : List (PriceLevel P V)) (hq : q ≠ p) :
    volumeAt q (upsertLevel side p v levels) = volumeAt q levels := by
  induction levels with
  | nil => simp [upsertLevel, volumeAt, Ne.symm hq]
  | cons l rest ih =>
    unfold upsertLevel
    split
    · rename_i hp
      have : l.price ≠ q := by rw [← hp]; exact Ne.symm hq
      simp [volumeAt, Ne.symm hq, this]
    · split
      · simp [volumeAt, Ne.symm hq]
      · simp [volumeAt, ih]

theorem comesBefore_irrefl {P : Type} [LinearOrder P] (side : BookSide) (a : P) :
    ¬ comesBefore side a a := by
  cases side <;> exact lt_irrefl a

theorem volumeAt_none_of_before {P V : Type} [LinearOrder P] (side : BookSide) (p : P)
    (levels : List (PriceLevel P V)) (h : ∀ b ∈ levels, comesBefore side p b.price) :
    volumeAt p levels = none := by
  induction levels with
  | nil => rfl
  | cons l rest ih =>
    have hl : l.price ≠ p := fun e =>
      comesBefore_irrefl side p (e ▸ h l (List.mem_cons_self _ _))
    simp only [volumeAt, hl, if_false]
    exact ih (fun b hb => h b (List.mem_cons_of_mem _ hb))

theorem length_upsertLevel {P V : Type} [LinearOrder P] (side : BookSide) (p : P) (v : V)
    (levels : List (PriceLevel P V)) (hs : SideSorted side levels) :
    (upsertLevel side p v levels).length ≤ levels.length + 1 ∧
      (volumeAt p levels ≠ none → (upsertLevel side p v levels).length = levels.length) := by
  unfold SideSorted at hs
  induction levels with
  | nil => simp [upsertLevel, volumeAt]
  | cons l rest ih =>
    obtain ⟨hl, hrest⟩ := List.pairwise_cons.mp hs
    unfold upsertLevel
    split
    · simp
    · rename_i hp
      split
      · rename_i hc
        have hn : volumeAt p rest = none :=
          volumeAt_none_of_before side p rest (fun b hb => comesBefore_trans side hc (hl b hb))
        simp [volumeAt, Ne.symm hp, hn]
      · simp [volumeAt, Ne.symm hp]
        exact ⟨(ih hrest).1, (ih hrest).2⟩

theorem volumeAt_delete_self {P V : Type} [LinearOrder P] (p : P)
    (levels : List (PriceLevel P V)) : volumeAt p (deleteLevel p levels) = none := by
  induction levels with
  | nil => rfl
  | cons l rest ih =>
    unfold deleteLevel at ih ⊢
    by_cases h : l.price = p
    · simpa [List.filter_cons, h] using ih
    · simpa [List.filter_cons, h, volumeAt] using ih

theorem volumeAt_delete_other {P V : Type} [LinearOrder P] (p q : P)
    (levels : List (PriceLevel P V)) (hq : q ≠ p) :
    volumeAt q (deleteLevel p levels) = volumeAt q levels := by
  induction levels with
  | nil => rfl
  | cons l rest ih =>
    unfold deleteLevel at ih ⊢
    by_cases h : l.price = p
    · have hpq : ¬ (p = q) := Ne.symm hq
      simpa [List.filter_cons, h, volumeAt, hpq] using ih
    · have ih2 : volumeAt q (List.filter (fun l => !decide (l.price = p)) rest) =
          volumeAt q rest := by simpa using ih
      simp [List.filter_cons, h, volumeAt, ih2]

theorem volumeAt_take {P V : Type} [LinearOrder P] (q : P) (d : Nat)
    (levels : List (PriceLevel P V)) :
    volumeAt q (levels.take d) = volumeAt q levels ∨ volumeAt q (levels.take d) = none := by
  induction levels generalizing d with
  | nil => simp [volumeAt]
  | cons l rest ih =>
    cases d with
    | zero => simp [volumeAt]
    | succ d =>
      by_cases h : l.price = q
      · simp [volumeAt, h]
      · simpa [volumeAt, h] using ih d

/-- The insert of a level into a side that respects its depth: the order and
the depth are kept; a level at another price keeps its volume unless the new
price came into a full side and the level was evicted; the new level is in
the side unless it was itself the one evicted. -/
theorem upsert_take {P V : Type} [LinearOrder P] (side : BookSide) (depth : Nat)
    (levels : List (PriceLevel P V)) (p : P) (v : V) (hs : SideSorted side levels)
    (hd : levels.length ≤ depth) :
    SideSorted side ((upsertLevel side p v levels).take depth) ∧
    ((upsertLevel side p v levels).take depth).length ≤ depth ∧
    (∀ q, volumeAt q ((upsertLevel side p v levels).take depth) =
          volumeAt q (upsertLevel side p v levels) ∨
        (volumeAt q ((upsertLevel side p v levels).take depth) = none ∧
          levels.length = depth ∧ volumeAt p levels = none)) := by
  have hlen := length_upsertLevel side p v levels hs
  refine ⟨List.Pairwise.sublist (List.take_sublist _ _) (upsertLevel_sorted side p v levels hs),
    by simp [List.length_take], fun q => ?_⟩
  by_cases hfit : (upsertLevel side p v levels).length ≤ depth
  · rw [List.take_of_length_le hfit]
    exact Or.inl rfl
  · have hnone : volumeAt p levels = none := by
      by_contra hne
      exact hfit (by rw [hlen.2 hne]; exact hd)
    exact (volumeAt_take q depth (upsertLevel side p v levels)).imp_right
      (fun h => ⟨h, by omega, hnone⟩)

/-- A side under one event: the order is kept, the depth is kept, and a level
at another price keeps its volume unless the insert of a new price into a full
side evicts it. -/
theorem applyEvent_side {P V : Type} [LinearOrder P] (side : BookSide) (depth : Nat)
    (levels : List (PriceLevel P V)) (ev : BookEvent P V) (hs : SideSorted side levels)
    (hd : levels.length ≤ depth) :
    SideSorted side (applyEvent side depth levels ev) ∧
    (applyEvent side depth levels ev).length ≤ depth ∧
    (∀ q, q ≠ ev.price →
      volumeAt q (applyEvent side depth levels ev) = volumeAt q levels ∨
      (volumeAt q (applyEvent side depth levels ev) = none ∧ ev.kind ≠ .delete ∧
        levels.length = depth ∧ volumeAt ev.price levels = none)) ∧
    (ev.kind = .delete → volumeAt ev.price (applyEvent side depth levels ev) = none) ∧
    (ev.kind ≠ .delete →
      volumeAt ev.price (applyEvent side depth levels ev) = some ev.volume ∨
      (volumeAt ev.price (applyEvent side depth levels ev) = none ∧
        levels.length = depth ∧ volumeAt ev.price levels = none)) := by
  obtain ⟨i1, i2, i3⟩ := upsert_take side depth levels ev.price ev.volume hs hd
  have other : ∀ q, q ≠ ev.price →
      volumeAt q (upsertLevel side ev.price ev.volume levels) = volumeAt q levels :=
    fun q hq => volumeAt_upsert_other side ev.price q ev.volume levels hq
  have self := volumeAt_upsert_self side ev.price ev.volume levels
  unfold applyEvent
  cases hk : ev.kind
  case delete =>
    exact ⟨List.Pairwise.sublist (List.filter_sublist _) hs,
      le_trans (List.length_filter_le _ _) hd,
      fun q hq => Or.inl (volumeAt_delete_other ev.price q levels hq),
      fun _ => volumeAt_delete_self ev.price levels, fun h => absurd rfl h⟩
  all_goals
    refine ⟨i1, i2, ?_, ?_, ?_⟩
    · intro q hq
      rw [← other q hq]
      exact (i3 q).imp_right (fun h => ⟨h.1, by simp, h.2⟩)
    · intro h
      cases h
    · intro _
      rw [← self]
      exact i3 ev.price

/-! ## The order-book replica: which level an insert evicts -/

theorem volumeAt_eq_none {P V : Type} [LinearOrder P] (q : P) (levels : List (PriceLevel P V))
    (h : ∀ b ∈ levels, b.price ≠ q) : volumeAt q levels = none := by
  induction levels with
  | nil => rfl
  | cons l rest ih =>
    simp only [volumeAt, h l (List.mem_cons_self _ _), if_false]
    exact ih (fun b hb => h b (List.mem_cons_of_mem _ hb))

theorem volumeAt_mem {P V : Type} [LinearOrder P] (q : P) (levels : List (PriceLevel P V))
    (h : volumeAt q levels ≠ none) : ∃ y ∈ levels, y.price = q := by
  by_contra hn
  exact h (volumeAt_eq_none q levels (fun b hb e => hn ⟨b, hb, e⟩))

theorem volumeAt_of_mem {P V : Type} [LinearOrder P] (levels : List (PriceLevel P V))
    (y : PriceLevel P V) (hy : y ∈ levels) : volumeAt y.price levels ≠ none := by
  induction levels with
  | nil => cases hy
  | cons l rest ih =>
    by_cases hl : l.price = y.price
    · simp [volumeAt, hl]
    · rcases List.mem_cons.mp hy with h | h
      · exact absurd (h ▸ rfl) hl
      · simpa [volumeAt, hl] using ih h

theorem volumeAt_append_single {P V : Type} [LinearOrder P] (q : P)
    (levels : List (PriceLevel P V)) (x : PriceLevel P V) (hx : x.price ≠ q) :
    volumeAt q (levels ++ [x]) = volumeAt q levels := by
  induction levels with
  | nil => simp [volumeAt, hx]
  | cons l rest ih =>
    by_cases hl : l.price = q
    · simp [volumeAt, hl]
    · simpa [volumeAt, hl] using ih

theorem volumeAt_upsert {P V : Type} [LinearOrder P] (side : BookSide) (p q : P) (v : V)
    (levels : List (PriceLevel P V)) :
    volumeAt q (upsertLevel side p v levels) =
      if q = p then some v else volumeAt q levels := by
  by_cases hq : q = p
  · rw [if_pos hq, hq]
    exact volumeAt_upsert_self side p v levels
  · rw [if_neg hq]
    exact volumeAt_upsert_other side p q v levels hq

theorem length_upsert_new {P V : Type} [LinearOrder P] (side : BookSide) (p : P) (v : V)
    (levels : List (PriceLevel P V)) (habs : volumeAt p levels = none) :
    (upsertLevel side p v levels).length = levels.length + 1 := by
  induction levels with
  | nil => rfl
  | cons l rest ih =>
    have hl : ¬ (l.price = p) := by
      intro e
      simp [volumeAt, e] at habs
    have hrest : volumeAt p rest = none := by simpa [volumeAt, hl] using habs
    have hp : ¬ (p = l.price) := fun e => hl e.symm
    unfold upsertLevel
    rw [if_neg hp]
    split
    · rfl
    · simp [ih hrest]

/-- The insert of a new price into a full side evicts one price, the worst of
the prices of the side and the new one; every other level is in the side
after the insert, with its volume. -/
theorem upsert_take_full {P V : Type} [LinearOrder P] (side : BookSide) (depth : Nat)
    (levels : List (PriceLevel P V)) (p : P) (v : V) (hs : SideSorted side levels)
    (hfull : levels.length = depth) (habs : volumeAt p levels = none) :
    ∃ w, (w = p ∨ volumeAt w levels ≠ none) ∧
      (∀ r, r ≠ w → (r = p ∨ volumeAt r levels ≠ none) → comesBefore side r w) ∧
      (∀ q, volumeAt q ((upsertLevel side p v levels).take depth) =
        if q = w then none else if q = p then some v else volumeAt q levels) := by
  have hU := upsertLevel_sorted side p v levels hs
  have hlen := length_upsert_new side p v levels habs
  have hdrop : ((upsertLevel side p v levels).drop depth).length = 1 := by
    rw [List.length_drop, hlen, hfull]
    omega
  obtain ⟨x, hx⟩ := List.length_eq_one.mp hdrop
  have hsplit : upsertLevel side p v levels =
      (upsertLevel side p v levels).take depth ++ [x] := by
    rw [← hx, List.take_append_drop]
  unfold SideSorted at hU
  rw [hsplit] at hU
  obtain ⟨_, _, hcross⟩ := List.pairwise_append.mp hU
  have hbefore : ∀ y ∈ (upsertLevel side p v levels).take depth,
      comesBefore side y.price x.price := fun y hy => hcross y hy x (List.mem_singleton.mpr rfl)
  have hxU : x ∈ upsertLevel side p v levels := by
    rw [hsplit]
    simp
  refine ⟨x.price, ?_, ?_, ?_⟩
  · rcases mem_upsertLevel side p v levels x hxU with h | h
    · exact Or.inl (by rw [h])
    · exact Or.inr (volumeAt_of_mem levels x h)
  · intro r hr hin
    have hrU : volumeAt r (upsertLevel side p v levels) ≠ none := by
      rw [volumeAt_upsert]
      rcases hin with h | h
      · simp [h]
      · by_cases hrp : r = p
        · simp [hrp]
        · simpa [hrp] using h
    obtain ⟨y, hy, hyr⟩ := volumeAt_mem r _ hrU
    rw [hsplit] at hy
    rcases List.mem_append.mp hy with h | h
    · rw [← hyr]
      exact hbefore y h
    · rw [List.mem_singleton.mp h] at hyr
      exact absurd hyr.symm hr
  · intro q
    by_cases hq : q = x.price
    · rw [if_pos hq, hq]
      exact volumeAt_eq_none _ _ (fun y hy e =>
        comesBefore_irrefl side x.price (e ▸ hbefore y hy))
    · rw [if_neg hq, ← volumeAt_upsert side p q v levels]
      conv_rhs => rw [hsplit]
      exact (volumeAt_append_single q _ x (fun e => hq e.symm)).symm

/-- A side under one event, case by case: `Delete` removes the level at its
price and nothing else; an `Add` or `Modify` of a price of the side, or into
a side with room, sets the volume at its price and nothing else; an `Add` or
`Modify` of a new price into a full side also evicts the worst price. -/
theorem applyEvent_cases {P V : Type} [LinearOrder P] (side : BookSide) (depth : Nat)
    (levels : List (PriceLevel P V)) (ev : BookEvent P V) (hs : SideSorted side levels)
    (hd : levels.length ≤ depth) :
    (ev.kind = .delete → ∀ q, volumeAt q (applyEvent side depth levels ev) =
        if q = ev.price then none else volumeAt q levels) ∧
    (ev.kind ≠ .delete → (volumeAt ev.price levels ≠ none ∨ levels.length < depth) →
      ∀ q, volumeAt q (applyEvent side depth levels ev) =
        if q = ev.price then some ev.volume else volumeAt q levels) ∧
    (ev.kind ≠ .delete → volumeAt ev.price levels = none → levels.length = depth →
      ∃ w, (w = ev.price ∨ volumeAt w levels ≠ none) ∧
        (∀ r, r ≠ w → (r = ev.price ∨ volumeAt r levels ≠ none) → comesBefore side r w) ∧
        (∀ q, volumeAt q (applyEvent side depth levels ev) =
          if q = w then none else if q = ev.price then some ev.volume
          else volumeAt q levels)) := by
  have room : (volumeAt ev.price levels ≠ none ∨ levels.length < depth) →
      ∀ q, volumeAt q ((upsertLevel side ev.price ev.volume levels).take depth) =
        if q = ev.price then some ev.volume else volumeAt q levels := by
    intro h q
    have hfit : (upsertLevel side ev.price ev.volume levels).length ≤ depth := by
      have hlen := length_upsertLevel side ev.price ev.volume levels hs
      rcases h with h | h
      · rw [hlen.2 h]
        exact hd
      · exact le_trans hlen.1 h
    rw [List.take_of_length_le hfit]
    exact volumeAt_upsert side ev.price q ev.volume levels
  have full := upsert_take_full side depth levels ev.price ev.volume hs
  unfold applyEvent
  cases hk : ev.kind
  case delete =>
    refine ⟨fun _ q => ?_, fun h => absurd rfl h, fun h => absurd rfl h⟩
    by_cases hq : q = ev.price
    · rw [if_pos hq, hq]
      exact volumeAt_delete_self ev.price levels
    · rw [if_neg hq]
      exact volumeAt_delete_other ev.price q levels hq
  all_goals
    refine ⟨?_, ?_, ?_⟩
    · intro h
      cases h
    · intro _ h
      exact room h
    · intro _ habs hfull
      exact full hfull habs

/-! ## `Message.UnmarshalJSON`: frames of four and of three elements -/

/-- C1 (amended): for every frame that is a JSON array of exactly four
elements `[id, payload, name, pair]`, with `id` an integer literal in the range
of `int64`, `payload` any JSON value other than `null`, and `name` and `pair`
strings, `Message.UnmarshalJSON` succeeds and sets `ChannelID` to the integer,
`Data` to the bytes of the payload, `ChannelName` and `Pair` to the two strings. -/
theorem unmarshal_four (data id payload name pair : Bytes) (n : Int)
    (hframe : decodeTop data = .array [id, payload, name, pair])
    (hid : parseInt64 id = some n)
    (hpayload : kindOf payload ≠ .null)
    (hname : kindOf name = .string)
    (hpair : kindOf pair = .string) :
    Message.UnmarshalJSON Message.fresh data =
      .done { ChannelID := n, Data := payload, ChannelName := unquote name,
              Pair := unquote pair, Sequence := { Value := 0 } } none :=
  unmarshal_four_any Message.fresh data id payload name pair n hframe hid hpayload hname hpair

/-- C1 (witness): the four-element frame of the wire-format examples,
`[340, {"a":["5525.4",0,"57.1"]}, "ticker", "XBT/USD"]`. -/
theorem unmarshal_four_witness :
    Message.UnmarshalJSON Message.fresh
        (bytes "[340, \x7b\"a\":[\"5525.4\",0,\"57.1\"]\x7d, \"ticker\", \"XBT/USD\"]") =
      .done { ChannelID := 340, Data := bytes "\x7b\"a\":[\"5525.4\",0,\"57.1\"]\x7d",
              ChannelName := unquote (bytes "\"ticker\""),
              Pair := unquote (bytes "\"XBT/USD\""), Sequence := { Value := 0 } } none :=
  unmarshal_four
    (bytes "[340, \x7b\"a\":[\"5525.4\",0,\"57.1\"]\x7d, \"ticker\", \"XBT/USD\"]")
    (bytes "340") (bytes "\x7b\"a\":[\"5525.4\",0,\"57.1\"]\x7d")
    (bytes "\"ticker\"") (bytes "\"XBT/USD\"") 340
    (by decide) (by decide) (by decide) (by decide) (by decide)

/-- C1 (counterexample): in the four-element frame `[1,null,"a","b"]` the
payload is the JSON value `null`; the call succeeds and `Data` stays empty, it
is not the payload's bytes `null`. In `[9223372036854775808,1,"a","b"]` the
first element is an integer, and the call returns an error. -/
theorem unmarshal_four_null_payload :
    decodeTop (bytes "[1,null,\"a\",\"b\"]") =
        .array [bytes "1", bytes "null", bytes "\"a\"", bytes "\"b\""] ∧
      Message.UnmarshalJSON Message.fresh (bytes "[1,null,\"a\",\"b\"]") =
        .done { ChannelID := 1, Data := [], ChannelName := "a", Pair := "b",
                Sequence := { Value := 0 } } none ∧
      ([] : Bytes) ≠ bytes "null" ∧
      (Message.UnmarshalJSON Message.fresh
        (bytes "[9223372036854775808,1,\"a\",\"b\"]")).failed = true := by
  decide

/-- C2 (amended): for every three-element frame `[payload, channelName,
sequence]` whose payload is not `null`, whose second element is a string and
whose third element is an object with the one member `sequence` holding an
integer `n` in the range of `int64`, `Message.UnmarshalJSON` succeeds on a fresh
`Message` and yields `Data` = payload, `ChannelName` = the string, `Sequence`
value = `n`, channel ID 0 and an empty pair. -/
theorem unmarshal_three (data payload name seq key val : Bytes) (n : Int)
    (hframe : decodeTop data = .array [payload, name, seq])
    (hpayload : kindOf payload ≠ .null)
    (hname : kindOf name = .string)
    (hseq : kindOf seq = .object)
    (hmem : objectMembers seq = [(key, val)])
    (hkey : keyMatches "sequence" key = true)
    (hval : parseInt64 val = some n) :
    Message.UnmarshalJSON Message.fresh data =
      .done { ChannelID := 0, Data := payload, ChannelName := unquote name, Pair := "",
              Sequence := { Value := n } } none :=
  unmarshal_three_any Message.fresh data payload name seq key val n
    hframe hpayload hname hseq hmem hkey hval

/-- C2 (witness): the frame `[{"a":["5525.4",0,"57.1"]}, "ticker", {"sequence":101}]`. -/
theorem unmarshal_three_witness :
    Message.UnmarshalJSON Message.fresh
        (bytes "[\x7b\"a\":[\"5525.4\",0,\"57.1\"]\x7d, \"ticker\", \x7b\"sequence\":101\x7d]") =
      .done { ChannelID := 0, Data := bytes "\x7b\"a\":[\"5525.4\",0,\"57.1\"]\x7d",
              ChannelName := unquote (bytes "\"ticker\""), Pair := "",
              Sequence := { Value := 101 } } none :=
  unmarshal_three
    (bytes "[\x7b\"a\":[\"5525.4\",0,\"57.1\"]\x7d, \"ticker\", \x7b\"sequence\":101\x7d]")
    (bytes "\x7b\"a\":[\"5525.4\",0,\"57.1\"]\x7d") (bytes "\"ticker\"")
    (bytes "\x7b\"sequence\":101\x7d") (bytes "\"sequence\"") (bytes "101") 101
    (by decide) (by decide) (by decide) (by decide) (by decide) (by decide) (by decide)

/-- C2 (counterexample): on the spec's literal three-element frame
`[{"a":["5525.4",0,"57.1"]}, "ticker", 101]`, whose third element is the
integer 101, `Message.UnmarshalJSON` returns an error and the sequence value
stays 0. -/
theorem unmarshal_three_integer_sequence :
    Message.UnmarshalJSON Message.fresh
        (bytes "[\x7b\"a\":[\"5525.4\",0,\"57.1\"]\x7d, \"ticker\", 101]") =
      .done { ChannelID := 0, Data := bytes "\x7b\"a\":[\"5525.4\",0,\"57.1\"]\x7d",
              ChannelName := "ticker", Pair := "", Sequence := { Value := 0 } }
        (some .typeMismatch) := by
  decide

/-- C3: for every input that is a JSON array with fewer than three elements,
the empty array included, `Message.UnmarshalJSON` returns an error (and leaves
the receiver as it was). -/
theorem unmarshal_short (msg : Message) (data : Bytes) (elems : List Bytes)
    (hframe : decodeTop data = .array elems) (hlen : elems.length < 3) :
    Message.UnmarshalJSON msg data = .done msg (some .invalidLength) ∧
      (Message.UnmarshalJSON msg data).failed = true := by
  simp [Message.UnmarshalJSON, unmarshalRaw_of_array data _ hframe, hlen, Outcome.failed,
    Outcome.err]

/-- C3 (witness): the empty array and a two-element array. -/
theorem unmarshal_short_witness :
    (Message.UnmarshalJSON Message.fresh (bytes "[]") =
        .done Message.fresh (some .invalidLength) ∧
      (Message.UnmarshalJSON Message.fresh (bytes "[]")).failed = true) ∧
    (Message.UnmarshalJSON Message.fresh (bytes "[1, \"ticker\"]") =
        .done Message.fresh (some .invalidLength) ∧
      (Message.UnmarshalJSON Message.fresh (bytes "[1, \"ticker\"]")).failed = true) :=
  ⟨unmarshal_short Message.fresh (bytes "[]") [] (by decide) (by decide),
   unmarshal_short Message.fresh (bytes "[1, \"ticker\"]") [bytes "1", bytes "\"ticker\""]
     (by decide) (by decide)⟩

theorem storeString_data (set : Message → String → Message)
    (hset : ∀ m x, (set m x).Data = m.Data) (raw : Bytes) (st : Dec Message) :
    (storeString set raw st).1.Data = st.1.Data := by
  unfold storeString
  cases kindOf raw <;> simp [saveError, hset]

theorem storeInt64_data (set : Message → Int → Message)
    (hset : ∀ m x, (set m x).Data = m.Data) (raw : Bytes) (st : Dec Message) :
    (storeInt64 set raw st).1.Data = st.1.Data := by
  unfold storeInt64
  cases kindOf raw <;> simp [saveError]
  cases parseInt64 raw <;> simp [saveError, hset]

theorem storeTarget_data (raw : Bytes) (st : Dec Message) (h : kindOf raw = .object) :
    (storeTarget .data raw st).1.Data = raw := by
  simp [storeTarget, storeRaw, h]

theorem storeTarget_name_data (raw : Bytes) (st : Dec Message) :
    (storeTarget .channelName raw st).1.Data = st.1.Data :=
  storeString_data (fun m x => { m with ChannelName := x }) (fun _ _ => rfl) raw st

theorem storeTarget_pair_data (raw : Bytes) (st : Dec Message) :
    (storeTarget .pair raw st).1.Data = st.1.Data :=
  storeString_data (fun m x => { m with Pair := x }) (fun _ _ => rfl) raw st

theorem kindOf_merged (A B : Bytes) (hA : JValue maxNestingDepth A)
    (hl : A.getLast? = some cRBrace) (hh : B.head? = some cLBrace) :
    kindOf (mergeAskBid A B) = .object := by
  obtain ⟨g, msA, tA, _, _, rfl, hiA⟩ := JValue_object_of_last _ A hA hl
  cases B with
  | nil => simp at hh
  | cons b tB =>
    simp only [List.head?_cons, Option.some.injEq] at hh
    subst hh
    rw [mergeAskBid_objects tA tB (Items_ne_nil hiA)]
    rfl

/-- C4 (amended): for every five-element frame whose ask object `A` and bid
object `B` are non-empty JSON objects free of white space and of the characters
`<`, `>`, `&`, U+2028 and U+2029, the payload `Message.UnmarshalJSON` stores in
`Data` is `A` without its closing brace, then a comma, then `B` without its
opening brace; so for the ask object `{"a":[["100.1","2","t"]]}` and the bid
object `{"b":[["99.9","3","t"]]}` it is
`{"a":[["100.1","2","t"]],"b":[["99.9","3","t"]]}` exactly. -/
theorem depth_merge (msg : Message) (data r0 A B r3 r4 : Bytes)
    (hframe : decodeTop data = .array [r0, A, B, r3, r4])
    (hl : A.getLast? = some cRBrace) (hh : B.head? = some cLBrace)
    (hmA : objectMembers A ≠ []) (hmB : objectMembers B ≠ [])
    (hcA : isCompact A = true) (hcB : isCompact B = true) :
    ∃ m e, Message.UnmarshalJSON msg data = .done m e ∧ m.Data = mergeAskBid A B := by
  obtain ⟨e1, e2⟩ := unmarshal_five_reencoded msg data r0 A B r3 r4 hframe hl hh hmA hmB
  have hel := decodeTop_elems data _ hframe
  have hk := kindOf_merged A B (hel A (by simp)) hl hh
  rw [compact_of_isCompact _ (isCompact_merge A B hcA hcB)] at e1 e2
  have e3 : Message.UnmarshalJSON msg data =
      .done (storeAll [.channelID, .data, .channelName, .pair]
          [compactChars false r0, mergeAskBid A B, compactChars false r3, compactChars false r4]
          (msg, none)).1
        (storeAll [.channelID, .data, .channelName, .pair]
          [compactChars false r0, mergeAskBid A B, compactChars false r3, compactChars false r4]
          (msg, none)).2 := by
    rw [e1]
    simp only [unmarshalBody, e2]
  refine ⟨_, _, e3, ?_⟩
  simp only [storeAll]
  rw [storeTarget_pair_data, storeTarget_name_data, storeTarget_data _ _ hk]

/-- C4 (witness): the depth frame with the ask and bid objects of the spec. -/
theorem depth_merge_witness :
    (∃ m e, Message.UnmarshalJSON Message.fresh
        (bytes "[336,\x7b\"a\":[[\"100.1\",\"2\",\"t\"]]\x7d,\x7b\"b\":[[\"99.9\",\"3\",\"t\"]]\x7d,\"book-10\",\"XBT/USD\"]") =
          .done m e ∧
        m.Data = mergeAskBid (bytes "\x7b\"a\":[[\"100.1\",\"2\",\"t\"]]\x7d")
          (bytes "\x7b\"b\":[[\"99.9\",\"3\",\"t\"]]\x7d")) ∧
      mergeAskBid (bytes "\x7b\"a\":[[\"100.1\",\"2\",\"t\"]]\x7d")
          (bytes "\x7b\"b\":[[\"99.9\",\"3\",\"t\"]]\x7d") =
        bytes "\x7b\"a\":[[\"100.1\",\"2\",\"t\"]],\"b\":[[\"99.9\",\"3\",\"t\"]]\x7d" :=
  ⟨depth_merge Message.fresh
      (bytes "[336,\x7b\"a\":[[\"100.1\",\"2\",\"t\"]]\x7d,\x7b\"b\":[[\"99.9\",\"3\",\"t\"]]\x7d,\"book-10\",\"XBT/USD\"]")
      (bytes "336") (bytes "\x7b\"a\":[[\"100.1\",\"2\",\"t\"]]\x7d")
      (bytes "\x7b\"b\":[[\"99.9\",\"3\",\"t\"]]\x7d") (bytes "\"book-10\"") (bytes "\"XBT/USD\"")
      (by decide) (by decide) (by decide) (by decide) (by decide) (by decide) (by decide),
   by decide⟩

/-- C4 (counterexample): `A = {"a":"<"}` and `B = {"b":1}` are non-empty JSON
objects without white space; `A` without its closing brace, a comma and `B`
without its opening brace is `{"a":"<","b":1}`, but the payload stored in
`Data` for the frame `[1,{"a":"<"},{"b":1},"n","p"]` is `{"a":"\u003c","b":1}`. -/
theorem depth_merge_escapes :
    mergeAskBid (bytes "\x7b\"a\":\"<\"\x7d") (bytes "\x7b\"b\":1\x7d") =
        bytes "\x7b\"a\":\"<\",\"b\":1\x7d" ∧
      Message.UnmarshalJSON Message.fresh
          (bytes "[1,\x7b\"a\":\"<\"\x7d,\x7b\"b\":1\x7d,\"n\",\"p\"]") =
        .done { ChannelID := 1, Data := bytes "\x7b\"a\":\"\\u003c\",\"b\":1\x7d",
                ChannelName := "n", Pair := "p", Sequence := { Value := 0 } } none ∧
      bytes "\x7b\"a\":\"\\u003c\",\"b\":1\x7d" ≠ bytes "\x7b\"a\":\"<\",\"b\":1\x7d" := by
  decide

/-- C5 (amended): for every five-element frame `[id, A, B, name, pair]` with
`A` and `B` non-empty JSON objects, decoding it gives exactly the same result
(same `Message`, same error) as decoding the four-element frame that
`json.Marshal` writes for `[id, merge(A,B), name, pair]`, in which every
element is compacted: white space outside strings removed and `<`, `>`, `&`,
U+2028, U+2029 escaped. When the five elements need no compaction, that frame
is `[id,merge(A,B),name,pair]` itself. -/
theorem unmarshal_five_as_four (msg : Message) (data r0 A B r3 r4 : Bytes)
    (hframe : decodeTop data = .array [r0, A, B, r3, r4])
    (hl : A.getLast? = some cRBrace) (hh : B.head? = some cLBrace)
    (hmA : objectMembers A ≠ []) (hmB : objectMembers B ≠ []) :
    Message.UnmarshalJSON msg data =
        Message.UnmarshalJSON msg
          (frame4 (compactChars false r0) (compactChars false (mergeAskBid A B))
            (compactChars false r3) (compactChars false r4)) ∧
      (isCompact r0 = true → isCompact A = true → isCompact B = true → isCompact r3 = true →
        isCompact r4 = true →
        Message.UnmarshalJSON msg data =
          Message.UnmarshalJSON msg (frame4 r0 (mergeAskBid A B) r3 r4)) := by
  obtain ⟨e1, e2⟩ := unmarshal_five_reencoded msg data r0 A B r3 r4 hframe hl hh hmA hmB
  have key : Message.UnmarshalJSON msg data =
      Message.UnmarshalJSON msg
        (frame4 (compactChars false r0) (compactChars false (mergeAskBid A B))
          (compactChars false r3) (compactChars false r4)) := by
    rw [e1, unmarshal_frame4 msg _ _ _ _ _ e2]
  refine ⟨key, ?_⟩
  intro c0 cA cB c3 c4
  rw [key, compact_of_isCompact r0 c0, compact_of_isCompact r3 c3, compact_of_isCompact r4 c4,
    compact_of_isCompact _ (isCompact_merge A B cA cB)]

/-- C5 (witness): the depth frame of the wire-format examples, written
without white space. -/
theorem unmarshal_five_as_four_witness :
    Message.UnmarshalJSON Message.fresh
        (bytes "[336,\x7b\"a\":[[\"5541.3\",\"0.12345\",\"1\"]]\x7d,\x7b\"b\":[[\"5541.2\",\"0.5\",\"2\"]]\x7d,\"book-10\",\"XBT/USD\"]") =
        Message.UnmarshalJSON Message.fresh
          (frame4 (compactChars false (bytes "336"))
            (compactChars false (mergeAskBid
              (bytes "\x7b\"a\":[[\"5541.3\",\"0.12345\",\"1\"]]\x7d")
              (bytes "\x7b\"b\":[[\"5541.2\",\"0.5\",\"2\"]]\x7d")))
            (compactChars false (bytes "\"book-10\""))
            (compactChars false (bytes "\"XBT/USD\""))) ∧
      (isCompact (bytes "336") = true →
        isCompact (bytes "\x7b\"a\":[[\"5541.3\",\"0.12345\",\"1\"]]\x7d") = true →
        isCompact (bytes "\x7b\"b\":[[\"5541.2\",\"0.5\",\"2\"]]\x7d") = true →
        isCompact (bytes "\"book-10\"") = true →
        isCompact (bytes "\"XBT/USD\"") = true →
        Message.UnmarshalJSON Message.fresh
            (bytes "[336,\x7b\"a\":[[\"5541.3\",\"0.12345\",\"1\"]]\x7d,\x7b\"b\":[[\"5541.2\",\"0.5\",\"2\"]]\x7d,\"book-10\",\"XBT/USD\"]") =
          Message.UnmarshalJSON Message.fresh
            (frame4 (bytes "336")
              (mergeAskBid (bytes "\x7b\"a\":[[\"5541.3\",\"0.12345\",\"1\"]]\x7d")
                (bytes "\x7b\"b\":[[\"5541.2\",\"0.5\",\"2\"]]\x7d"))
              (bytes "\"book-10\"") (bytes "\"XBT/USD\""))) :=
  unmarshal_five_as_four Message.fresh
    (bytes "[336,\x7b\"a\":[[\"5541.3\",\"0.12345\",\"1\"]]\x7d,\x7b\"b\":[[\"5541.2\",\"0.5\",\"2\"]]\x7d,\"book-10\",\"XBT/USD\"]")
    (bytes "336") (bytes "\x7b\"a\":[[\"5541.3\",\"0.12345\",\"1\"]]\x7d")
    (bytes "\x7b\"b\":[[\"5541.2\",\"0.5\",\"2\"]]\x7d") (bytes "\"book-10\"")
    (bytes "\"XBT/USD\"") (by decide) (by decide) (by decide) (by decide) (by decide)

/-- C5 (counterexample): `A = {"a": 1}` and `B = {"b":2}` are non-empty JSON
objects. Decoding the five-element frame `[1,{"a": 1},{"b":2},"n","p"]` gives
`Data = {"a":1,"b":2}`; decoding the four-element frame
`[1,{"a": 1,"b":2},"n","p"]`, whose second element is the spliced object,
gives `Data = {"a": 1,"b":2}`. The two results differ. -/
theorem unmarshal_five_differs :
    mergeAskBid (bytes "\x7b\"a\": 1\x7d") (bytes "\x7b\"b\":2\x7d") =
        bytes "\x7b\"a\": 1,\"b\":2\x7d" ∧
      frame4 (bytes "1") (bytes "\x7b\"a\": 1,\"b\":2\x7d") (bytes "\"n\"") (bytes "\"p\"") =
        bytes "[1,\x7b\"a\": 1,\"b\":2\x7d,\"n\",\"p\"]" ∧
      Message.UnmarshalJSON Message.fresh
          (bytes "[1,\x7b\"a\": 1\x7d,\x7b\"b\":2\x7d,\"n\",\"p\"]") =
        .done { ChannelID := 1, Data := bytes "\x7b\"a\":1,\"b\":2\x7d", ChannelName := "n",
                Pair := "p", Sequence := { Value := 0 } } none ∧
      Message.UnmarshalJSON Message.fresh (bytes "[1,\x7b\"a\": 1,\"b\":2\x7d,\"n\",\"p\"]") =
        .done { ChannelID := 1, Data := bytes "\x7b\"a\": 1,\"b\":2\x7d", ChannelName := "n",
                Pair := "p", Sequence := { Value := 0 } } none ∧
      Message.UnmarshalJSON Message.fresh
          (bytes "[1,\x7b\"a\": 1\x7d,\x7b\"b\":2\x7d,\"n\",\"p\"]") ≠
        Message.UnmarshalJSON Message.fresh (bytes "[1,\x7b\"a\": 1,\"b\":2\x7d,\"n\",\"p\"]") := by
  decide

/-! ## `Message.UnmarshalJSON`: frames of five elements -/

/-- C6: for every five-element frame whose second element does not end with
`}` or whose third element does not start with `{`, `Message.UnmarshalJSON`
returns an error (the invalid data length/payload error, the receiver left as
it was); it does not panic, since an element of a frame is never empty. -/
theorem unmarshal_five_not_objects (msg : Message) (data r0 ask bid r3 r4 : Bytes)
    (hframe : decodeTop data = .array [r0, ask, bid, r3, r4])
    (h : ask.getLast? ≠ some cRBrace ∨ bid.head? ≠ some cLBrace) :
    Message.UnmarshalJSON msg data = .done msg (some .invalidPayload) ∧
      (Message.UnmarshalJSON msg data).failed = true := by
  have hel := decodeTop_elems data _ hframe
  have ha : ask ≠ [] := JValue_ne_nil _ ask (hel ask (by simp))
  have hb : bid ≠ [] := JValue_ne_nil _ bid (hel bid (by simp))
  have key : Message.UnmarshalJSON msg data = .done msg (some .invalidPayload) := by
    simp only [Message.UnmarshalJSON, unmarshalRaw_of_array data _ hframe]
    simp only [List.length_cons, List.length_nil]
    cases hla : ask.getLast? with
    | none => simp [List.getLast?_eq_none_iff] at hla; exact absurd hla ha
    | some a =>
      cases hhb : bid.head? with
      | none => simp [List.head?_eq_none_iff] at hhb; exact absurd hhb hb
      | some b =>
        by_cases h1 : a = cRBrace
        · subst h1
          have h2 : b ≠ cLBrace := by
            rcases h with h | h
            · exact absurd hla h
            · intro hb2; subst hb2; exact h hhb
          simp [h2]
        · simp [h1]
  exact ⟨key, by rw [key]; rfl⟩

/-- C6 (witness): a five-element frame whose second and third elements are
arrays, and one whose third element is a string. -/
theorem unmarshal_five_not_objects_witness :
    (Message.UnmarshalJSON Message.fresh (bytes "[336,[1],[2],\"book-10\",\"XBT/USD\"]") =
        .done Message.fresh (some .invalidPayload) ∧
      (Message.UnmarshalJSON Message.fresh
        (bytes "[336,[1],[2],\"book-10\",\"XBT/USD\"]")).failed = true) ∧
    (Message.UnmarshalJSON Message.fresh
        (bytes "[336,\x7b\"a\":1\x7d,\"b\",\"book-10\",\"XBT/USD\"]") =
        .done Message.fresh (some .invalidPayload) ∧
      (Message.UnmarshalJSON Message.fresh
        (bytes "[336,\x7b\"a\":1\x7d,\"b\",\"book-10\",\"XBT/USD\"]")).failed = true) :=
  ⟨unmarshal_five_not_objects Message.fresh (bytes "[336,[1],[2],\"book-10\",\"XBT/USD\"]")
      (bytes "336") (bytes "[1]") (bytes "[2]") (bytes "\"book-10\"") (bytes "\"XBT/USD\"")
      (by decide) (by decide),
   unmarshal_five_not_objects Message.fresh
      (bytes "[336,\x7b\"a\":1\x7d,\"b\",\"book-10\",\"XBT/USD\"]")
      (bytes "336") (bytes "\x7b\"a\":1\x7d") (bytes "\"b\"") (bytes "\"book-10\"")
      (bytes "\"XBT/USD\"") (by decide) (by decide)⟩

/-! ## `Message.UnmarshalJSON`: frames of six and more elements -/

/-- C7 (the code at the failing input): the frame `[1,{},"a","b",5,6]` has six
elements; `Message.UnmarshalJSON` returns no error and decodes the first four
elements as a four-element frame. -/
theorem unmarshal_six_accepted :
    decodeTop (bytes "[1,\x7b\x7d,\"a\",\"b\",5,6]") =
        .array [bytes "1", bytes "\x7b\x7d", bytes "\"a\"", bytes "\"b\"", bytes "5", bytes "6"] ∧
      Message.UnmarshalJSON Message.fresh (bytes "[1,\x7b\x7d,\"a\",\"b\",5,6]") =
        .done { ChannelID := 1, Data := bytes "\x7b\x7d", ChannelName := "a", Pair := "b",
                Sequence := { Value := 0 } } none := by
  decide

/-! ## The orders channel -/

/-- C8 (the code at the failing input): on a snapshot event and on an update
event whose `data` array is empty, and on a snapshot event without `data`,
`handleEvent` panics on `Data[0]`; it does not return an error. -/
theorem handleEvent_empty_data_panics :
    (handleEvent textCodec "level3"
        (bytes "\x7b\"channel\":\"level3\",\"type\":\"snapshot\",\"data\":[]\x7d")).panicked = true ∧
      (handleEvent textCodec "level3"
        (bytes "\x7b\"channel\":\"level3\",\"type\":\"update\",\"data\":[]\x7d")).panicked = true ∧
      (handleEvent textCodec "level3"
        (bytes "\x7b\"channel\":\"level3\",\"type\":\"snapshot\"\x7d")).panicked = true := by
  decide

/-- The updates `handleOrdersSnapshotEvent` sends all have `IsSnapshot` set. -/
theorem snapshot_handler_marks (C : EventsCodec) (chanOrders : String) (msg : Bytes)
    (out : List (Update C)) (err : Option GoError)
    (h : handleOrdersSnapshotEvent C chanOrders msg = .done out err) :
    ∀ u ∈ out, u.Data.IsSnapshot = true := by
  unfold handleOrdersSnapshotEvent at h
  split at h
  · cases h; simp
  · split at h
    · cases h
    · split at h
      · cases h
      · cases h; simp

/-- C9 (counterexample): two snapshot events of the orders channel whose
`data` array is not empty and starts with an element that is not `null`:
with the number `5` as the only element, and with an object followed by the
number `5`, the decode saves a type error, `handleEvent` returns it and no
`Update` is sent. -/
theorem handleEvent_snapshot_undecodable :
    (handleEvent textCodec "level3"
        (bytes "\x7b\"channel\":\"level3\",\"type\":\"snapshot\",\"data\":[5]\x7d")).err =
        some .typeMismatch ∧
      sentFlags (handleEvent textCodec "level3"
        (bytes "\x7b\"channel\":\"level3\",\"type\":\"snapshot\",\"data\":[5]\x7d")) = [] ∧
      (handleEvent textCodec "level3"
        (bytes "\x7b\"channel\":\"level3\",\"type\":\"snapshot\",\"data\":[\x7b\"symbol\":\"BTC/USD\"\x7d,5]\x7d")).err =
        some .typeMismatch ∧
      sentFlags (handleEvent textCodec "level3"
        (bytes "\x7b\"channel\":\"level3\",\"type\":\"snapshot\",\"data\":[\x7b\"symbol\":\"BTC/USD\"\x7d,5]\x7d")) = [] := by
  decide

/-- C9 (amended): for every orders-channel event with type `snapshot` whose `data`
array is not empty and has an object as its first element, that is, a
message `{"channel": c, "type": "snapshot", "data": [e, ...]}` with `c` the
orders channel, `handleEvent` sends exactly one `Update`, named with the
suffix `:snapshot`, that carries the decoded `e` with `IsSnapshot` set to
`true`, whatever the `snapshot` field of `e` was; it returns the error
instead, and sends nothing, only when the decode of an element saved one.
Moreover, for every message that decodes into a snapshot event of the orders
channel, every `Update` that `handleEvent` sends has `IsSnapshot = true`, and
when the message decodes with a non-empty `data` array whose first element is
not `null`, exactly that element is sent, with `IsSnapshot` set. -/
theorem handleEvent_snapshot (C : EventsCodec) (chanOrders : String)
    (msg vc vt vd e : Bytes) (es : List Bytes)
    (hvalid : checkValid msg = true) (hobj : kindOf (skipSpace msg) = .object)
    (hmem : objectMembers (skipSpace msg) =
      [(bytes "\"channel\"", vc), (bytes "\"type\"", vt), (bytes "\"data\"", vd)])
    (hc : kindOf vc = .string) (hcn : unquote vc = chanOrders)
    (ht : kindOf vt = .string) (htn : unquote vt = "snapshot")
    (hd : kindOf vd = .array) (hel : arrayElems vd = e :: es) (he : kindOf e = .object) :
    handleEvent C chanOrders msg =
        (match storeOrdersRest C es
            (storeOrdersMembers C (objectMembers e) (OrdersUpdate.zero C, none)).2 with
          | none =>
            .done [{ ChannelID := 0,
                     Data := { (storeOrdersMembers C (objectMembers e)
                                 (OrdersUpdate.zero C, none)).1 with IsSnapshot := true },
                     ChannelName := chanOrders ++ ":snapshot", Pair := "",
                     Sequence := { Value := 0 } }] none
          | some err => .done [] (some err)) ∧
    (∀ msg2 event,
        unmarshalStruct storeEventMembers { Channel := "", Typ := "" } msg2 = .ok event →
        event.Channel = chanOrders → event.Typ = "snapshot" →
        (∀ out err, handleEvent C chanOrders msg2 = .done out err →
          ∀ u ∈ out, u.Data.IsSnapshot = true) ∧
        (∀ full d,
          unmarshalStruct (storeFullMembers C) (OrdersUpdateFullMessage.zero C) msg2 =
            .ok full →
          full.DataLen ≠ 0 → full.Data0 = some d →
          handleEvent C chanOrders msg2 =
            .done [{ ChannelID := 0, Data := { d with IsSnapshot := true },
                     ChannelName := chanOrders ++ ":snapshot", Pair := "",
                     Sequence := { Value := 0 } }] none)) := by
  refine ⟨?_, ?_⟩
  · have k1 : keyMatches "channel" (bytes "\"channel\"") = true := by decide
    have k2 : keyMatches "channel" (bytes "\"type\"") = false := by decide
    have k3 : keyMatches "channel" (bytes "\"data\"") = false := by decide
    have k4 : keyMatches "type" (bytes "\"type\"") = true := by decide
    have k5 : keyMatches "type" (bytes "\"data\"") = false := by decide
    have k6 : keyMatches "data" (bytes "\"data\"") = true := by decide
    have hne : ¬ ("snapshot" = "update") := by decide
    have hevent : unmarshalStruct storeEventMembers { Channel := "", Typ := "" } msg =
        .ok { Channel := chanOrders, Typ := "snapshot" } := by
      simp [unmarshalStruct, hvalid, hobj, hmem, storeEventMembers, k1, k2, k3, k4, k5,
        storeString, hc, ht, hcn, htn]
    have hev : handleEvent C chanOrders msg = handleOrdersSnapshotEvent C chanOrders msg := by
      simp [handleEvent, hevent, handleOrdersEvent, hne]
    rw [hev]
    cases hrest : storeOrdersRest C es
        (storeOrdersMembers C (objectMembers e) (OrdersUpdate.zero C, none)).2 with
    | none =>
      simp [handleOrdersSnapshotEvent, unmarshalStruct, hvalid, hobj, hmem, storeFullMembers,
        k1, k2, k3, k4, k5, k6, storeString, hc, ht, storeData, hd, hel, storeOrdersPtr, he,
        OrdersUpdateFullMessage.zero, hrest]
    | some err =>
      simp [handleOrdersSnapshotEvent, unmarshalStruct, hvalid, hobj, hmem, storeFullMembers,
        k1, k2, k3, k4, k5, k6, storeString, hc, ht, storeData, hd, hel, storeOrdersPtr, he,
        OrdersUpdateFullMessage.zero, hrest]
  · intro msg2 event hevent hchan htype
    have hne : ¬ (event.Typ = "update") := by rw [htype]; decide
    have hev : handleEvent C chanOrders msg2 = handleOrdersSnapshotEvent C chanOrders msg2 := by
      simp [handleEvent, hevent, hchan, handleOrdersEvent, hne, htype]
    refine ⟨?_, ?_⟩
    · intro out err h
      rw [hev] at h
      exact snapshot_handler_marks C chanOrders msg2 out err h
    · intro full d hfull hlen hd
      rw [hev]
      simp [handleOrdersSnapshotEvent, hfull, hlen, hd]

/-- C9 (witness): a snapshot event whose element says `"snapshot": false`:
one `Update` is sent, with `IsSnapshot = true`. -/
theorem handleEvent_snapshot_witness :
    handleEvent textCodec "level3"
        (bytes "\x7b\"channel\":\"level3\",\"type\":\"snapshot\",\"data\":[\x7b\"symbol\":\"BTC/USD\",\"checksum\":123456,\"snapshot\":false\x7d]\x7d") =
      .done [{ ChannelID := 0,
               Data := { Symbol := "BTC/USD", Bids := [], Asks := [], Checksum := 123456,
                         IsSnapshot := true },
               ChannelName := "level3:snapshot", Pair := "",
               Sequence := { Value := 0 } }] none :=
  (handleEvent_snapshot textCodec "level3"
    (bytes "\x7b\"channel\":\"level3\",\"type\":\"snapshot\",\"data\":[\x7b\"symbol\":\"BTC/USD\",\"checksum\":123456,\"snapshot\":false\x7d]\x7d")
    (bytes "\"level3\"") (bytes "\"snapshot\"")
    (bytes "[\x7b\"symbol\":\"BTC/USD\",\"checksum\":123456,\"snapshot\":false\x7d]")
    (bytes "\x7b\"symbol\":\"BTC/USD\",\"checksum\":123456,\"snapshot\":false\x7d") []
    (by decide) (by decide) (by decide) (by decide) (by decide) (by decide) (by decide)
    (by decide) (by decide) (by decide)).1

/-- C10 (the code at the failing input): on an update event whose element
carries `"snapshot": true`, `handleEvent` returns no error and sends one
`Update`, named `level3:update`, whose `OrdersUpdate` has `IsSnapshot = true`. -/
theorem handleEvent_update_keeps_wire_flag :
    (handleEvent textCodec "level3"
        (bytes "\x7b\"channel\":\"level3\",\"type\":\"update\",\"data\":[\x7b\"symbol\":\"BTC/USD\",\"snapshot\":true\x7d]\x7d")).succeeded = true ∧
      sentFlags (handleEvent textCodec "level3"
        (bytes "\x7b\"channel\":\"level3\",\"type\":\"update\",\"data\":[\x7b\"symbol\":\"BTC/USD\",\"snapshot\":true\x7d]\x7d")) =
        [("level3:update", true)] := by
  decide

/-! ## The orders channel: what is sent -/

/-- C11 (counterexample): an update event whose `data` array has two elements,
the second of which is the number `5`, sends no `Update`: decoding the second
element saves a type error and the handler returns it. With the first element
alone, one `Update` is sent. -/
theorem handleEvent_later_element_blocks :
    (handleEvent textCodec "level3"
        (bytes "\x7b\"channel\":\"level3\",\"type\":\"update\",\"data\":[\x7b\"symbol\":\"BTC/USD\"\x7d,5]\x7d")).err =
        some .typeMismatch ∧
      sentFlags (handleEvent textCodec "level3"
        (bytes "\x7b\"channel\":\"level3\",\"type\":\"update\",\"data\":[\x7b\"symbol\":\"BTC/USD\"\x7d,5]\x7d")) =
        [] ∧
      sentFlags (handleEvent textCodec "level3"
        (bytes "\x7b\"channel\":\"level3\",\"type\":\"update\",\"data\":[\x7b\"symbol\":\"BTC/USD\"\x7d]\x7d")) =
        [("level3:update", false)] := by
  decide

/-- C11 (amended): for every orders-channel snapshot or update event whose
message decodes without error into a `data` array that is not empty and whose
first element is not `null`, `handleEvent` returns no error and sends exactly
one `Update`: its `Data` is the decoded first element (with `IsSnapshot` set
for a snapshot) and its `ChannelName` is the orders channel name followed by
`:snapshot` or `:update` according to the event type. The decoded first
element is the decode of `data[0]` into what the slice held at index 0,
whatever the later elements are; they count for the length and for the error
only. -/
theorem handleEvent_orders_first (C : EventsCodec) (chanOrders : String) (msg : Bytes)
    (event : EventType) (full : OrdersUpdateFullMessage C) (d : OrdersUpdate C)
    (hevent : unmarshalStruct storeEventMembers { Channel := "", Typ := "" } msg = .ok event)
    (hchan : event.Channel = chanOrders)
    (htype : event.Typ = "snapshot" ∨ event.Typ = "update")
    (hfull : unmarshalStruct (storeFullMembers C) (OrdersUpdateFullMessage.zero C) msg = .ok full)
    (hlen : full.DataLen ≠ 0) (hd : full.Data0 = some d) :
    handleEvent C chanOrders msg =
        .done [{ ChannelID := 0,
                 Data := if event.Typ = "snapshot" then { d with IsSnapshot := true } else d,
                 ChannelName := if event.Typ = "snapshot" then chanOrders ++ ":snapshot"
                   else chanOrders ++ ":update",
                 Pair := "",
                 Sequence := { Value := 0 } }] none ∧
      ∀ (raw e : Bytes) (es : List Bytes) (st : Dec (OrdersUpdateFullMessage C)),
        kindOf raw = .array → arrayElems raw = e :: es →
        (storeData C raw st).1.Data0 =
            (storeOrdersPtr C e (if st.1.DataLen = 0 then none else st.1.Data0, st.2)).1 ∧
          (storeData C raw st).1.DataLen = es.length + 1 := by
  refine ⟨?_, ?_⟩
  · rcases htype with ht | ht
    · have hne : ¬ (event.Typ = "update") := by rw [ht]; decide
      simp [handleEvent, hevent, hchan, handleOrdersEvent, hne, ht, handleOrdersSnapshotEvent,
        hfull, hlen, hd]
    · have hne : ¬ ("update" = "snapshot") := by decide
      simp [handleEvent, hevent, hchan, handleOrdersEvent, hne, ht, handleOrdersUpdateEvent,
        hfull, hlen, hd]
  · intro raw e es st hk he
    simp [storeData, hk, he]

/-- C11 (witness): a snapshot event whose `data` array has two elements. -/
theorem handleEvent_orders_first_witness :
    handleEvent textCodec "level3"
        (bytes "\x7b\"channel\":\"level3\",\"type\":\"snapshot\",\"data\":[\x7b\"symbol\":\"BTC/USD\",\"checksum\":7\x7d,\x7b\"symbol\":\"ETH/USD\"\x7d]\x7d") =
        .done [{ ChannelID := 0,
                 Data := if "snapshot" = "snapshot" then
                     { Symbol := "BTC/USD", Bids := [], Asks := [], Checksum := 7,
                       IsSnapshot := true }
                   else { Symbol := "BTC/USD", Bids := [], Asks := [], Checksum := 7,
                          IsSnapshot := false },
                 ChannelName := if "snapshot" = "snapshot" then "level3" ++ ":snapshot"
                   else "level3" ++ ":update",
                 Pair := "",
                 Sequence := { Value := 0 } }] none ∧
      ∀ (raw e : Bytes) (es : List Bytes) (st : Dec (OrdersUpdateFullMessage textCodec)),
        kindOf raw = .array → arrayElems raw = e :: es →
        (storeData textCodec raw st).1.Data0 =
            (storeOrdersPtr textCodec e
              (if st.1.DataLen = 0 then none else st.1.Data0, st.2)).1 ∧
          (storeData textCodec raw st).1.DataLen = es.length + 1 :=
  handleEvent_orders_first textCodec "level3"
    (bytes "\x7b\"channel\":\"level3\",\"type\":\"snapshot\",\"data\":[\x7b\"symbol\":\"BTC/USD\",\"checksum\":7\x7d,\x7b\"symbol\":\"ETH/USD\"\x7d]\x7d")
    { Channel := "level3", Typ := "snapshot" }
    { Channel := "level3", Typ := "snapshot", DataLen := 2,
      Data0 := some { Symbol := "BTC/USD", Bids := [], Asks := [], Checksum := 7,
                      IsSnapshot := false } }
    { Symbol := "BTC/USD", Bids := [], Asks := [], Checksum := 7, IsSnapshot := false }
    (by decide) (by decide) (by decide) rfl (by decide) rfl

/-! ## Events that are dropped -/

/-- C12: for every message that decodes into an event whose channel is not the
orders channel, and for every orders event whose type is neither `update` nor
`snapshot`, `handleEvent` returns no error and sends no `Update`. -/
theorem handleEvent_dropped (C : EventsCodec) (chanOrders : String) (msg : Bytes)
    (event : EventType)
    (hevent : unmarshalStruct storeEventMembers { Channel := "", Typ := "" } msg = .ok event)
    (h : event.Channel ≠ chanOrders ∨ (event.Typ ≠ "update" ∧ event.Typ ≠ "snapshot")) :
    handleEvent C chanOrders msg = .done [] none := by
  by_cases hc : event.Channel = chanOrders
  · rcases h with h | ⟨h1, h2⟩
    · exact absurd hc h
    · simp [handleEvent, hevent, hc, handleOrdersEvent, h1, h2]
  · simp [handleEvent, hevent, hc]

/-- C12 (witness): an event of the `ticker` channel, and an orders event of
type `heartbeat`. -/
theorem handleEvent_dropped_witness :
    handleEvent textCodec "level3"
        (bytes "\x7b\"channel\":\"ticker\",\"type\":\"update\",\"data\":[\x7b\x7d]\x7d") =
        .done [] none ∧
      handleEvent textCodec "level3"
        (bytes "\x7b\"channel\":\"level3\",\"type\":\"heartbeat\",\"data\":[\x7b\x7d]\x7d") =
        .done [] none :=
  ⟨handleEvent_dropped textCodec "level3"
      (bytes "\x7b\"channel\":\"ticker\",\"type\":\"update\",\"data\":[\x7b\x7d]\x7d")
      { Channel := "ticker", Typ := "update" } (by decide) (Or.inl (by decide)),
   handleEvent_dropped textCodec "level3"
      (bytes "\x7b\"channel\":\"level3\",\"type\":\"heartbeat\",\"data\":[\x7b\x7d]\x7d")
      { Channel := "level3", Typ := "heartbeat" } (by decide)
      (Or.inr ⟨by decide, by decide⟩)⟩

/-! ## The positional payloads -/

/-- C13 (counterexample): `Candle.UnmarshalJSON` returns no error on an array
of two elements, on the empty array and on an array of ten elements;
`Level.UnmarshalJSON`, `DecimalValues.UnmarshalJSON` and
`IntValues.UnmarshalJSON` return no error on arrays of another length than
their number of fields. -/
theorem positional_length_unchecked :
    Candle.UnmarshalJSON
        { Time := "", EndTime := "", Open := "", High := "", Low := "", Close := "",
          VolumeWAP := "", Volume := "", Count := 0 } (bytes "[1,2.5]") =
      .done { Time := "1", EndTime := "2.5", Open := "", High := "", Low := "", Close := "",
              VolumeWAP := "", Volume := "", Count := 0 } none ∧
    (Candle.UnmarshalJSON
        { Time := "", EndTime := "", Open := "", High := "", Low := "", Close := "",
          VolumeWAP := "", Volume := "", Count := 0 } (bytes "[]")).succeeded = true ∧
    (Candle.UnmarshalJSON
        { Time := "", EndTime := "", Open := "", High := "", Low := "", Close := "",
          VolumeWAP := "", Volume := "", Count := 0 }
        (bytes "[1,2,3,4,5,6,7,8,9,10]")).succeeded = true ∧
    (Level.UnmarshalJSON 64 { Price := "", Volume := "", WholeLotVolume := 0 }
        (bytes "[\"5525.4\"]")).succeeded = true ∧
    (Level.UnmarshalJSON 64 { Price := "", Volume := "", WholeLotVolume := 0 }
        (bytes "[\"5525.4\",0,\"57.1\",true]")).succeeded = true ∧
    (DecimalValues.UnmarshalJSON { Today := "", Last24 := "" }
        (bytes "[\"1.5\",\"2.5\",\"3.5\"]")).succeeded = true ∧
    (IntValues.UnmarshalJSON { Today := 0, Last24 := 0 } (bytes "[7]")).succeeded = true := by
  decide

/-- C13 (amended): the positional decoders do not look at the length of the
array. For every payload that is a JSON array, of any length,
`Candle.UnmarshalJSON` returns, and it returns without an error exactly when
each element is accepted by the field it is decoded into (`null`, a number or
a string that holds a number for a `json.Number`; `null` or an integer in
range for an integer) and no element past the last field is or holds a
number that no `float64` holds. A field past the end of a shorter array is
left as it was on the receiver, and the elements past the last field are
dropped: the value decoded is the one decoded from the first nine elements.
Likewise `Level`, `DecimalValues` and `IntValues`, with three, two and two
fields. -/
theorem positional_accepts (intSize : Nat) (data : Bytes) (es : List Bytes)
    (hd : decodeTop data = .array es) :
    ((∀ c, (Candle.UnmarshalJSON c data).succeeded = true ↔
        acceptedBy candleAccepts es = true) ∧
      (∀ l, (Level.UnmarshalJSON intSize l data).succeeded = true ↔
        acceptedBy (levelAccepts intSize) es = true) ∧
      (∀ v, (DecimalValues.UnmarshalJSON v data).succeeded = true ↔
        acceptedBy decimalAccepts es = true) ∧
      (∀ v, (IntValues.UnmarshalJSON v data).succeeded = true ↔
        acceptedBy intValuesAccepts es = true)) ∧
    ((∀ c, ∃ c2 err, Candle.UnmarshalJSON c data = .done c2 err ∧
        (es.length ≤ 0 → c2.Time = c.Time) ∧
        (es.length ≤ 1 → c2.EndTime = c.EndTime) ∧
        (es.length ≤ 2 → c2.Open = c.Open) ∧
        (es.length ≤ 3 → c2.High = c.High) ∧
        (es.length ≤ 4 → c2.Low = c.Low) ∧
        (es.length ≤ 5 → c2.Close = c.Close) ∧
        (es.length ≤ 6 → c2.VolumeWAP = c.VolumeWAP) ∧
        (es.length ≤ 7 → c2.Volume = c.Volume) ∧
        (es.length ≤ 8 → c2.Count = c.Count)) ∧
      (∀ l, ∃ l2 err, Level.UnmarshalJSON intSize l data = .done l2 err ∧
        (es.length ≤ 0 → l2.Price = l.Price) ∧
        (es.length ≤ 1 → l2.WholeLotVolume = l.WholeLotVolume) ∧
        (es.length ≤ 2 → l2.Volume = l.Volume)) ∧
      (∀ v, ∃ v2 err, DecimalValues.UnmarshalJSON v data = .done v2 err ∧
        (es.length ≤ 0 → v2.Today = v.Today) ∧
        (es.length ≤ 1 → v2.Last24 = v.Last24)) ∧
      (∀ v, ∃ v2 err, IntValues.UnmarshalJSON v data = .done v2 err ∧
        (es.length ≤ 0 → v2.Today = v.Today) ∧
        (es.length ≤ 1 → v2.Last24 = v.Last24))) ∧
    ((∀ data2 c, decodeTop data2 = .array (es.take 9) →
        ∃ c2 err err2, Candle.UnmarshalJSON c data = .done c2 err ∧
          Candle.UnmarshalJSON c data2 = .done c2 err2) ∧
      (∀ data2 l, decodeTop data2 = .array (es.take 3) →
        ∃ l2 err err2, Level.UnmarshalJSON intSize l data = .done l2 err ∧
          Level.UnmarshalJSON intSize l data2 = .done l2 err2) ∧
      (∀ data2 v, decodeTop data2 = .array (es.take 2) →
        ∃ v2 err err2, DecimalValues.UnmarshalJSON v data = .done v2 err ∧
          DecimalValues.UnmarshalJSON v data2 = .done v2 err2) ∧
      (∀ data2 v, decodeTop data2 = .array (es.take 2) →
        ∃ v2 err err2, IntValues.UnmarshalJSON v data = .done v2 err ∧
          IntValues.UnmarshalJSON v data2 = .done v2 err2)) := by
  refine ⟨⟨fun c => ?_, fun l => ?_, fun v => ?_, fun v => ?_⟩,
    ⟨fun c => ?_, fun l => ?_, fun v => ?_, fun v => ?_⟩,
    ⟨fun data2 c h2 => unmarshalFields_surplus _ data data2 es 9 hd h2 c rfl,
      fun data2 l h2 => unmarshalFields_surplus _ data data2 es 3 hd h2 l rfl,
      fun data2 v h2 => unmarshalFields_surplus _ data data2 es 2 hd h2 v rfl,
      fun data2 v h2 => unmarshalFields_surplus _ data data2 es 2 hd h2 v rfl⟩⟩
  · exact unmarshalFields_succeeded _ _ candleSlots_spec data es hd c
  · exact unmarshalFields_succeeded _ _
      (.cons (storeNumber_spec _) (.cons (storeInt_spec _ _) (.cons (storeNumber_spec _) .nil)))
      data es hd l
  · exact unmarshalFields_succeeded _ _
      (.cons (storeNumber_spec _) (.cons (storeNumber_spec _) .nil)) data es hd v
  · exact unmarshalFields_succeeded _ _
      (.cons (storeInt_spec _ _) (.cons (storeInt_spec _ _) .nil)) data es hd v
  · obtain ⟨err, h⟩ := unmarshalFields_val candleSlots data es hd c
    exact ⟨_, err, h,
      fun h => storeFields_keeps (fun v : Candle => v.Time) es 0 _ _ h
        (fun _ hslot => absurd hslot (List.not_mem_nil _)),
      fun h => storeFields_keeps (fun v : Candle => v.EndTime) es 1 _ _ h (by
        intro slot hslot
        simp only [candleSlots, List.take, List.mem_cons, List.mem_nil_iff, or_false] at hslot
        subst hslot
        exact storeNumber_keeps _ _ (fun _ _ => rfl)),
      fun h => storeFields_keeps (fun v : Candle => v.Open) es 2 _ _ h (by
        intro slot hslot
        simp only [candleSlots, List.take, List.mem_cons, List.mem_nil_iff, or_false] at hslot
        rcases hslot with rfl | rfl
        · exact storeNumber_keeps _ _ (fun _ _ => rfl)
        · exact storeNumber_keeps _ _ (fun _ _ => rfl)),
      fun h => storeFields_keeps (fun v : Candle => v.High) es 3 _ _ h (by
        intro slot hslot
        simp only [candleSlots, List.take, List.mem_cons, List.mem_nil_iff, or_false] at hslot
        rcases hslot with rfl | rfl | rfl
        · exact storeNumber_keeps _ _ (fun _ _ => rfl)
        · exact storeNumber_keeps _ _ (fun _ _ => rfl)
        · exact storeNumber_keeps _ _ (fun _ _ => rfl)),
      fun h => storeFields_keeps (fun v : Candle => v.Low) es 4 _ _ h (by
        intro slot hslot
        simp only [candleSlots, List.take, List.mem_cons, List.mem_nil_iff, or_false] at hslot
        rcases hslot with rfl | rfl | rfl | rfl
        · exact storeNumber_keeps _ _ (fun _ _ => rfl)
        · exact storeNumber_keeps _ _ (fun _ _ => rfl)
        · exact storeNumber_keeps _ _ (fun _ _ => rfl)
        · exact storeNumber_keeps _ _ (fun _ _ => rfl)),
      fun h => storeFields_keeps (fun v : Candle => v.Close) es 5 _ _ h (by
        intro slot hslot
        simp only [candleSlots, List.take, List.mem_cons, List.mem_nil_iff, or_false] at hslot
        rcases hslot with rfl | rfl | rfl | rfl | rfl
        · exact storeNumber_keeps _ _ (fun _ _ => rfl)
        · exact storeNumber_keeps _ _ (fun _ _ => rfl)
        · exact storeNumber_keeps _ _ (fun _ _ => rfl)
        · exact storeNumber_keeps _ _ (fun _ _ => rfl)
        · exact storeNumber_keeps _ _ (fun _ _ => rfl)),
      fun h => storeFields_keeps (fun v : Candle => v.VolumeWAP) es 6 _ _ h (by
        intro slot hslot
        simp only [candleSlots, List.take, List.mem_cons, List.mem_nil_iff, or_false] at hslot
        rcases hslot with rfl | rfl | rfl | rfl | rfl | rfl
        · exact storeNumber_keeps _ _ (fun _ _ => rfl)
        · exact storeNumber_keeps _ _ (fun _ _ => rfl)
        · exact storeNumber_keeps _ _ (fun _ _ => rfl)
        · exact storeNumber_keeps _ _ (fun _ _ => rfl)
        · exact storeNumber_keeps _ _ (fun _ _ => rfl)
        · exact storeNumber_keeps _ _ (fun _ _ => rfl)),
      fun h => storeFields_keeps (fun v : Candle => v.Volume) es 7 _ _ h (by
        intro slot hslot
        simp only [candleSlots, List.take, List.mem_cons, List.mem_nil_iff, or_false] at hslot
        rcases hslot with rfl | rfl | rfl | rfl | rfl | rfl | rfl
        · exact storeNumber_keeps _ _ (fun _ _ => rfl)
        · exact storeNumber_keeps _ _ (fun _ _ => rfl)
        · exact storeNumber_keeps _ _ (fun _ _ => rfl)
        · exact storeNumber_keeps _ _ (fun _ _ => rfl)
        · exact storeNumber_keeps _ _ (fun _ _ => rfl)
        · exact storeNumber_keeps _ _ (fun _ _ => rfl)
        · exact storeNumber_keeps _ _ (fun _ _ => rfl)),
      fun h => storeFields_keeps (fun v : Candle => v.Count) es 8 _ _ h (by
        intro slot hslot
        simp only [candleSlots, List.take, List.mem_cons, List.mem_nil_iff, or_false] at hslot
        rcases hslot with rfl | rfl | rfl | rfl | rfl | rfl | rfl | rfl
        · exact storeNumber_keeps _ _ (fun _ _ => rfl)
        · exact storeNumber_keeps _ _ (fun _ _ => rfl)
        · exact storeNumber_keeps _ _ (fun _ _ => rfl)
        · exact storeNumber_keeps _ _ (fun _ _ => rfl)
        · exact storeNumber_keeps _ _ (fun _ _ => rfl)
        · exact storeNumber_keeps _ _ (fun _ _ => rfl)
        · exact storeNumber_keeps _ _ (fun _ _ => rfl)
        · exact storeNumber_keeps _ _ (fun _ _ => rfl))⟩
  · obtain ⟨err, h⟩ := unmarshalFields_val _ data es hd l
    exact ⟨_, err, h,
      fun h => storeFields_keeps (fun v : Level => v.Price) es 0 _ _ h
        (fun _ hslot => absurd hslot (List.not_mem_nil _)),
      fun h => storeFields_keeps (fun v : Level => v.WholeLotVolume) es 1 _ _ h (by
        intro slot hslot
        simp only [List.take, List.mem_cons, List.mem_nil_iff, or_false] at hslot
        subst hslot
        exact storeNumber_keeps _ _ (fun _ _ => rfl)),
      fun h => storeFields_keeps (fun v : Level => v.Volume) es 2 _ _ h (by
        intro slot hslot
        simp only [List.take, List.mem_cons, List.mem_nil_iff, or_false] at hslot
        rcases hslot with rfl | rfl
        · exact storeNumber_keeps _ _ (fun _ _ => rfl)
        · exact storeInt_keeps _ _ _ (fun _ _ => rfl))⟩
  · obtain ⟨err, h⟩ := unmarshalFields_val _ data es hd v
    exact ⟨_, err, h,
      fun h => storeFields_keeps (fun v : DecimalValues => v.Today) es 0 _ _ h
        (fun _ hslot => absurd hslot (List.not_mem_nil _)),
      fun h => storeFields_keeps (fun v : DecimalValues => v.Last24) es 1 _ _ h (by
        intro slot hslot
        simp only [List.take, List.mem_cons, List.mem_nil_iff, or_false] at hslot
        subst hslot
        exact storeNumber_keeps _ _ (fun _ _ => rfl))⟩
  · obtain ⟨err, h⟩ := unmarshalFields_val _ data es hd v
    exact ⟨_, err, h,
      fun h => storeFields_keeps (fun v : IntValues => v.Today) es 0 _ _ h
        (fun _ hslot => absurd hslot (List.not_mem_nil _)),
      fun h => storeFields_keeps (fun v : IntValues => v.Last24) es 1 _ _ h (by
        intro slot hslot
        simp only [List.take, List.mem_cons, List.mem_nil_iff, or_false] at hslot
        subst hslot
        exact storeInt_keeps _ _ _ (fun _ _ => rfl))⟩

/-- C13 (witness): a candle payload of two elements is accepted and leaves
the fields from `Open` on as they were on the receiver; a payload of nine
elements whose last element is a string is refused. -/
theorem positional_accepts_witness :
    (Candle.UnmarshalJSON
        { Time := "", EndTime := "", Open := "", High := "", Low := "", Close := "",
          VolumeWAP := "", Volume := "", Count := 0 } (bytes "[1,2.5]")).succeeded = true ∧
    (∃ c2 err, Candle.UnmarshalJSON
        { Time := "t", EndTime := "e", Open := "o", High := "h", Low := "l", Close := "c",
          VolumeWAP := "w", Volume := "v", Count := 7 } (bytes "[1,2.5]") = .done c2 err ∧
      c2.Open = "o" ∧ c2.Count = 7) ∧
    ¬ (Candle.UnmarshalJSON
        { Time := "", EndTime := "", Open := "", High := "", Low := "", Close := "",
          VolumeWAP := "", Volume := "", Count := 0 }
        (bytes "[1,2,3,4,5,6,7,8,\"9\"]")).succeeded = true :=
  ⟨((positional_accepts 64 (bytes "[1,2.5]") [bytes "1", bytes "2.5"] (by decide)).1.1 _).mpr
      (by decide),
   (((positional_accepts 64 (bytes "[1,2.5]") [bytes "1", bytes "2.5"] (by decide)).2.1.1
      { Time := "t", EndTime := "e", Open := "o", High := "h", Low := "l", Close := "c",
        VolumeWAP := "w", Volume := "v", Count := 7 })).imp
     (fun _ h => h.imp (fun _ k => ⟨k.1, k.2.2.2.1 (by decide),
       k.2.2.2.2.2.2.2.2.2 (by decide)⟩)),
   fun h => absurd
     (((positional_accepts 64 (bytes "[1,2,3,4,5,6,7,8,\"9\"]")
        [bytes "1", bytes "2", bytes "3", bytes "4", bytes "5", bytes "6", bytes "7",
         bytes "8", bytes "\"9\""] (by decide)).1.1 _).mp h) (by decide)⟩

/-! ## `Spread.UnmarshalJSON` -/

/-- C14 (the code at the failing input): on the spread payload
`["5698.40000","5700.00000","1542057299.545897","1.01234567","0.98765432"]`,
in the published order bid, ask, timestamp, bid volume, ask volume,
`Spread.UnmarshalJSON` stores element 3 in `AskVolume` and element 4 in
`BidVolume`. -/
theorem spread_volumes_swapped :
    Spread.UnmarshalJSON { Ask := "", Bid := "", AskVolume := "", BidVolume := "", Time := "" }
        (bytes "[\"5698.40000\",\"5700.00000\",\"1542057299.545897\",\"1.01234567\",\"0.98765432\"]") =
      .done { Bid := "5698.40000", Ask := "5700.00000", Time := "1542057299.545897",
              AskVolume := "1.01234567", BidVolume := "0.98765432" } none := by
  decide

/-! ## Decoding the same frame twice -/

/-- C15: idempotence of frame decoding. For every frame `b`: decoding `b` into
two fresh messages gives equal results; whether the decode returns an error,
and which, does not depend on the receiver; and if decoding `b` into a message
`m` succeeds with result `m2`, decoding `b` again into `m2` succeeds and
leaves it equal to `m2`. -/
theorem decode_idempotent (b : Bytes) :
    (∀ m1 m2 : Message, m1 = Message.fresh → m2 = Message.fresh →
      Message.UnmarshalJSON m1 b = Message.UnmarshalJSON m2 b) ∧
    (∀ m1 m2 : Message,
      (Message.UnmarshalJSON m1 b).err = (Message.UnmarshalJSON m2 b).err ∧
      (Message.UnmarshalJSON m1 b).panicked = (Message.UnmarshalJSON m2 b).panicked) ∧
    (∀ m m2 : Message, Message.UnmarshalJSON m b = .done m2 none →
      Message.UnmarshalJSON m2 b = .done m2 none) := by
  refine ⟨fun m1 m2 h1 h2 => by rw [h1, h2], ?_, ?_⟩
  · intro m1 m2
    rcases UnmarshalJSON_patch b with h | ⟨p, err, h⟩
    · rw [h m1, h m2]
      exact ⟨rfl, rfl⟩
    · rw [h m1, h m2]
      exact ⟨rfl, rfl⟩
  · intro m m2 hm
    rcases UnmarshalJSON_patch b with h | ⟨p, err, h⟩
    · rw [h m] at hm
      cases hm
    · rw [h m] at hm
      injection hm with h1 h2
      rw [h m2, ← h1, Patch.apply_apply, h2]

/-- C15 (witness): the ticker frame `[7,5,"t","XBT/USD"]` decoded into a
message that already holds a sequence number, and decoded again into the
result. -/
theorem decode_idempotent_witness :
    Message.UnmarshalJSON
        { ChannelID := 7, Data := bytes "5", ChannelName := "t", Pair := "XBT/USD",
          Sequence := { Value := 3 } }
        (bytes "[7,5,\"t\",\"XBT/USD\"]") =
      .done { ChannelID := 7, Data := bytes "5", ChannelName := "t", Pair := "XBT/USD",
              Sequence := { Value := 3 } } none :=
  (decode_idempotent (bytes "[7,5,\"t\",\"XBT/USD\"]")).2.2
    { ChannelID := 0, Data := [], ChannelName := "", Pair := "", Sequence := { Value := 3 } }
    _ (by decide)

/-! ## `Candle.UnmarshalJSON`: nine elements -/

/-- C16 (counterexample): a candle payload of nine elements whose ninth
element is the integer `9223372036854775808`, which no `int64` holds:
`Candle.UnmarshalJSON` returns an error and leaves `Count` as it was. -/
theorem candle_count_out_of_range :
    Candle.UnmarshalJSON
        { Time := "", EndTime := "", Open := "", High := "", Low := "", Close := "",
          VolumeWAP := "", Volume := "", Count := 0 }
        (bytes "[1,2,3,4,5,6,7,8,9223372036854775808]") =
      .done { Time := "1", EndTime := "2", Open := "3", High := "4", Low := "5", Close := "6",
              VolumeWAP := "7", Volume := "8", Count := 0 } (some .typeMismatch) := by
  decide

/-- C16 (amended): for every candle payload of nine elements whose first eight
elements are numbers or strings that hold a number and whose ninth element is
an integer in the range of `int64`, `Candle.UnmarshalJSON` returns no error
and assigns `Time`, `EndTime`, `Open`, `High`, `Low`, `Close`, `VolumeWAP`,
`Volume` and `Count` from the elements 0 to 8, in that order. -/
theorem candle_nine (c : Candle) (data e0 e1 e2 e3 e4 e5 e6 e7 e8 : Bytes) (n : Int)
    (hd : decodeTop data = .array [e0, e1, e2, e3, e4, e5, e6, e7, e8])
    (h0 : isNumeric e0 = true) (h1 : isNumeric e1 = true) (h2 : isNumeric e2 = true)
    (h3 : isNumeric e3 = true) (h4 : isNumeric e4 = true) (h5 : isNumeric e5 = true)
    (h6 : isNumeric e6 = true) (h7 : isNumeric e7 = true) (h8 : parseInt64 e8 = some n) :
    Candle.UnmarshalJSON c data =
      .done { Time := numberText e0, EndTime := numberText e1, Open := numberText e2,
              High := numberText e3, Low := numberText e4, Close := numberText e5,
              VolumeWAP := numberText e6, Volume := numberText e7, Count := n } none := by
  simp only [Candle.UnmarshalJSON, unmarshalFields, hd, candleSlots, storeFields,
    storeNumber_numeric _ _ _ h0, storeNumber_numeric _ _ _ h1, storeNumber_numeric _ _ _ h2,
    storeNumber_numeric _ _ _ h3, storeNumber_numeric _ _ _ h4, storeNumber_numeric _ _ _ h5,
    storeNumber_numeric _ _ _ h6, storeNumber_numeric _ _ _ h7,
    storeInt_parsed _ _ _ _ n (parseIntBits_64 e8 n h8)]

/-- C16 (witness): a candle payload with numbers, strings that hold numbers
and the count 2. -/
theorem candle_nine_witness :
    Candle.UnmarshalJSON
        { Time := "", EndTime := "", Open := "", High := "", Low := "", Close := "",
          VolumeWAP := "", Volume := "", Count := 0 }
        (bytes "[1542057314.748456,1542057360.435743,\"3586.70000\",\"3586.70000\",\"3586.60000\",\"3586.60000\",\"3586.68894\",\"0.03373000\",2]") =
      .done { Time := numberText (bytes "1542057314.748456"),
              EndTime := numberText (bytes "1542057360.435743"),
              Open := numberText (bytes "\"3586.70000\""),
              High := numberText (bytes "\"3586.70000\""),
              Low := numberText (bytes "\"3586.60000\""),
              Close := numberText (bytes "\"3586.60000\""),
              VolumeWAP := numberText (bytes "\"3586.68894\""),
              Volume := numberText (bytes "\"0.03373000\""), Count := 2 } none :=
  candle_nine _
    (bytes "[1542057314.748456,1542057360.435743,\"3586.70000\",\"3586.70000\",\"3586.60000\",\"3586.60000\",\"3586.68894\",\"0.03373000\",2]")
    (bytes "1542057314.748456") (bytes "1542057360.435743") (bytes "\"3586.70000\"")
    (bytes "\"3586.70000\"") (bytes "\"3586.60000\"") (bytes "\"3586.60000\"")
    (bytes "\"3586.68894\"") (bytes "\"0.03373000\"") (bytes "2") 2
    (by decide) (by decide) (by decide) (by decide) (by decide) (by decide) (by decide)
    (by decide) (by decide) (by decide)

/-! ## The ticker arrays -/

/-- C17 (counterexample): arrays of the right length that the decoders do not
turn into their elements. `Level.UnmarshalJSON` returns an error on a level
whose whole lot volume is the integer `9223372036854775808` and on a level
whose price is the string `abc`; `IntValues.UnmarshalJSON` returns an error on
`[9223372036854775808,1]`; `DecimalValues.UnmarshalJSON` returns no error on
`[null,"1.5"]` and leaves `Today` as it was on the receiver. -/
theorem ticker_arrays_refused :
    Level.UnmarshalJSON 64 { Price := "", Volume := "", WholeLotVolume := 0 }
        (bytes "[\"5525.4\",9223372036854775808,\"57.1\"]") =
      .done { Price := "5525.4", Volume := "57.1", WholeLotVolume := 0 }
        (some .typeMismatch) ∧
    Level.UnmarshalJSON 64 { Price := "", Volume := "", WholeLotVolume := 0 }
        (bytes "[\"abc\",0,\"57.1\"]") =
      .done { Price := "", Volume := "", WholeLotVolume := 0 } (some .invalidNumber) ∧
    IntValues.UnmarshalJSON { Today := 0, Last24 := 0 } (bytes "[9223372036854775808,1]") =
      .done { Today := 0, Last24 := 1 } (some .typeMismatch) ∧
    DecimalValues.UnmarshalJSON { Today := "7", Last24 := "8" } (bytes "[null,\"1.5\"]") =
      .done { Today := "7", Last24 := "1.5" } none := by
  decide

/-- C17 (amended): for every ticker level array of three elements whose price and
volume are numbers or strings that hold a number and whose whole lot volume is
an integer an `int` holds, `Level.UnmarshalJSON` returns no error and yields
`Price` = element 0, `WholeLotVolume` = element 1 and `Volume` = element 2;
for every array of two such prices `DecimalValues.UnmarshalJSON` yields
`Today` = element 0 and `Last24` = element 1, and for every array of two
integers an `int64` holds `IntValues.UnmarshalJSON` does. -/
theorem ticker_arrays (intSize : Nat) (data e0 e1 e2 : Bytes) (n : Int)
    (data2 a b data3 x y : Bytes) (p q : Int)
    (hd : decodeTop data = .array [e0, e1, e2])
    (h0 : isNumeric e0 = true) (h1 : parseIntBits intSize e1 = some n)
    (h2 : isNumeric e2 = true)
    (hd2 : decodeTop data2 = .array [a, b]) (ha : isNumeric a = true) (hb : isNumeric b = true)
    (hd3 : decodeTop data3 = .array [x, y]) (hx : parseInt64 x = some p)
    (hy : parseInt64 y = some q) :
    (∀ l, Level.UnmarshalJSON intSize l data =
        .done { Price := numberText e0, WholeLotVolume := n, Volume := numberText e2 } none) ∧
    (∀ v, DecimalValues.UnmarshalJSON v data2 =
        .done { Today := numberText a, Last24 := numberText b } none) ∧
    (∀ v, IntValues.UnmarshalJSON v data3 = .done { Today := p, Last24 := q } none) := by
  refine ⟨fun l => ?_, fun v => ?_, fun v => ?_⟩
  · simp only [Level.UnmarshalJSON, unmarshalFields, hd, storeFields,
      storeNumber_numeric _ _ _ h0, storeNumber_numeric _ _ _ h2, storeInt_parsed _ _ _ _ n h1]
  · simp only [DecimalValues.UnmarshalJSON, unmarshalFields, hd2, storeFields,
      storeNumber_numeric _ _ _ ha, storeNumber_numeric _ _ _ hb]
  · simp only [IntValues.UnmarshalJSON, unmarshalFields, hd3, storeFields,
      storeInt_parsed _ _ _ _ p (parseIntBits_64 x p hx),
      storeInt_parsed _ _ _ _ q (parseIntBits_64 y q hy)]

/-- C17 (witness): the level `["5525.4",0,"57.1"]`, the decimal values
`["5525.4","5500.1"]` and the integer values `[1200,13000]`. -/
theorem ticker_arrays_witness :
    (∀ l, Level.UnmarshalJSON 64 l (bytes "[\"5525.4\",0,\"57.1\"]") =
        .done { Price := numberText (bytes "\"5525.4\""), WholeLotVolume := 0,
                Volume := numberText (bytes "\"57.1\"") } none) ∧
    (∀ v, DecimalValues.UnmarshalJSON v (bytes "[\"5525.4\",\"5500.1\"]") =
        .done { Today := numberText (bytes "\"5525.4\""),
                Last24 := numberText (bytes "\"5500.1\"") } none) ∧
    (∀ v, IntValues.UnmarshalJSON v (bytes "[1200,13000]") =
        .done { Today := 1200, Last24 := 13000 } none) :=
  ticker_arrays 64 (bytes "[\"5525.4\",0,\"57.1\"]") (bytes "\"5525.4\"") (bytes "0")
    (bytes "\"57.1\"") 0 (bytes "[\"5525.4\",\"5500.1\"]") (bytes "\"5525.4\"")
    (bytes "\"5500.1\"") (bytes "[1200,13000]") (bytes "1200") (bytes "13000") 1200 13000
    (by decide) (by decide) (by decide) (by decide) (by decide) (by decide) (by decide)
    (by decide) (by decide) (by decide)

/-! ## The order-book replica -/

/-- C18 (counterexample): on a bid side of depth 2 that holds the levels
`(100,5)` and `(99,3)`, the event `Add(101,1)` evicts the level at the price
99, which is not the price of the event. -/
theorem order_book_full_side_evicts :
    volumeAt 99 exampleBook.bids = some 3 ∧ (99 : Int) ≠ 101 ∧
      applyEvent .bid 2 exampleBook.bids
          { kind := .add, price := 101, volume := 1, timestamp := 0 } =
        [{ price := 101, volume := 1 }, { price := 100, volume := 5 }] ∧
      volumeAt 99 (applyEvent .bid 2 exampleBook.bids
          { kind := .add, price := 101, volume := 1, timestamp := 0 }) = none := by
  decide

/-- C18 (amended): order-book application. Starting from the snapshot with
bids `[(100,5),(99,3)]` and asks `[(101,4),(102,2)]` in a replica of depth 10,
`Modify(100,7)` yields the bid level `(100,7)` and leaves every other level
as it was, `Delete(99)` removes that level and `Add(98,1)` inserts a new
lowest bid level. In general, on a side that is in order and holds at most
`depth` levels, each event keeps the side in order (so prices stay unique)
and within `depth`. `Delete` removes the level at its price and changes no
other level. `Add` and `Modify` of a price the side has, or into a side with
fewer than `depth` levels, set the volume at the event's price and change no
other level. `Add` and `Modify` of a new price into a side that holds `depth`
levels evict one price, the worst among the prices of the side and the new
one; every other level, the new one included, is in the side afterwards with
its volume. -/
theorem order_book_application {P V : Type} [LinearOrder P] (side : BookSide) (depth : Nat)
    (levels : List (PriceLevel P V)) (ev : BookEvent P V) (hs : SideSorted side levels)
    (hd : levels.length ≤ depth) :
    ((∀ t, applyDelta exampleBook
          [{ kind := .modify, price := 100, volume := 7, timestamp := t }] [] =
        { exampleBook with
          bids := [{ price := 100, volume := 7 }, { price := 99, volume := 3 }] }) ∧
      (∀ t, applyDelta exampleBook
          [{ kind := .delete, price := 99, volume := 0, timestamp := t }] [] =
        { exampleBook with bids := [{ price := 100, volume := 5 }] }) ∧
      (∀ t, applyDelta exampleBook
          [{ kind := .add, price := 98, volume := 1, timestamp := t }] [] =
        { exampleBook with
          bids := [{ price := 100, volume := 5 }, { price := 99, volume := 3 },
                   { price := 98, volume := 1 }] })) ∧
    SideSorted side (applyEvent side depth levels ev) ∧
    (applyEvent side depth levels ev).length ≤ depth ∧
    (ev.kind = .delete → ∀ q, volumeAt q (applyEvent side depth levels ev) =
        if q = ev.price then none else volumeAt q levels) ∧
    (ev.kind ≠ .delete → (volumeAt ev.price levels ≠ none ∨ levels.length < depth) →
      ∀ q, volumeAt q (applyEvent side depth levels ev) =
        if q = ev.price then some ev.volume else volumeAt q levels) ∧
    (ev.kind ≠ .delete → volumeAt ev.price levels = none → levels.length = depth →
      ∃ w, (w = ev.price ∨ volumeAt w levels ≠ none) ∧
        (∀ r, r ≠ w → (r = ev.price ∨ volumeAt r levels ≠ none) → comesBefore side r w) ∧
        (∀ q, volumeAt q (applyEvent side depth levels ev) =
          if q = w then none else if q = ev.price then some ev.volume
          else volumeAt q levels)) :=
  ⟨⟨fun _ => rfl, fun _ => rfl, fun _ => rfl⟩,
    (applyEvent_side side depth levels ev hs hd).1,
    (applyEvent_side side depth levels ev hs hd).2.1,
    applyEvent_cases side depth levels ev hs hd⟩

/-- C18 (witness): the bid side of the example under `Modify(100,7)` at depth
10, where no level is evicted, and under `Add(101,1)` at depth 2, where the
side is full and the price is new. -/
theorem order_book_application_witness :
    (SideSorted .bid exampleBook.bids ∧ exampleBook.bids.length ≤ 10 ∧
      ∀ q, volumeAt q (applyEvent .bid 10 exampleBook.bids
          { kind := .modify, price := 100, volume := 7, timestamp := 0 }) =
        if q = 100 then some 7 else volumeAt q exampleBook.bids) ∧
    (exampleBook.bids.length ≤ 2 ∧
      ∃ w, (w = 101 ∨ volumeAt w exampleBook.bids ≠ none) ∧
        (∀ r, r ≠ w → (r = 101 ∨ volumeAt r exampleBook.bids ≠ none) →
          comesBefore .bid r w) ∧
        (∀ q, volumeAt q (applyEvent .bid 2 exampleBook.bids
            { kind := .add, price := 101, volume := 1, timestamp := 0 }) =
          if q = w then none else if q = 101 then some 1
          else volumeAt q exampleBook.bids)) :=
  ⟨⟨by unfold SideSorted; decide, by decide,
      (order_book_application .bid 10 exampleBook.bids
        { kind := .modify, price := 100, volume := 7, timestamp := 0 }
        (by unfold SideSorted; decide) (by decide)).2.2.2.2.1 (by decide)
        (Or.inl (by decide))⟩,
    ⟨by decide,
      (order_book_application .bid 2 exampleBook.bids
        { kind := .add, price := 101, volume := 1, timestamp := 0 }
        (by unfold SideSorted; decide) (by decide)).2.2.2.2.2 (by decide) (by decide)
        (by decide)⟩⟩

/-! ## The fields `Message.UnmarshalJSON` leaves alone -/

/-- C19: the frame of `Message.UnmarshalJSON`. When the call returns on a
frame of three elements, the `ChannelID` and the `Pair` of the receiver are
the ones it had before the call; when it returns on a frame of four or five
elements, the `Sequence` of the receiver is the one it had before the call.
This holds whichever error the call returns, so in particular for every
successfully decoded frame. -/
theorem unmarshal_keeps_fields (msg m2 : Message) (data : Bytes) (es : List Bytes)
    (e : Option GoError) (hframe : decodeTop data = .array es)
    (hret : Message.UnmarshalJSON msg data = .done m2 e) :
    (es.length = 3 → m2.ChannelID = msg.ChannelID ∧ m2.Pair = msg.Pair) ∧
    (es.length = 4 ∨ es.length = 5 → m2.Sequence = msg.Sequence) := by
  have k4 : ∀ t ∈ [Target.channelID, .data, .channelName, .pair], ∀ raw st,
      (storeTarget t raw st).1.Sequence = st.1.Sequence := fun t ht raw st =>
    storeTarget_keeps_Sequence t (by rintro rfl; simp at ht) raw st
  rcases UnmarshalJSON_shape data with ⟨e2, h⟩ | h | ⟨es2, hd, _, h5, h⟩ |
      ⟨r0, A, B, r3, r4, hd, _, _, h⟩
  · rw [h msg] at hret
    injection hret with h1 _
    subst h1
    exact ⟨fun _ => ⟨rfl, rfl⟩, fun _ => rfl⟩
  · rw [h msg] at hret
    cases hret
  · rw [hframe] at hd
    injection hd with hd
    subst hd
    rw [h msg] at hret
    refine ⟨fun h3 => ?_, fun h4 => ?_⟩
    · rw [h3] at hret
      exact ⟨unmarshalBody_keeps (fun m => m.ChannelID) _
          (fun t ht raw st => storeTarget_keeps_ChannelID t
            (by rintro rfl; simp [bodyFor] at ht) raw st) data msg m2 e hret,
        unmarshalBody_keeps (fun m => m.Pair) _
          (fun t ht raw st => storeTarget_keeps_Pair t
            (by rintro rfl; simp [bodyFor] at ht) raw st) data msg m2 e hret⟩
    · have h4b : es.length = 4 := h4.resolve_right h5
      rw [h4b] at hret
      exact unmarshalBody_keeps (fun m => m.Sequence) _ k4 data msg m2 e hret
  · rw [hframe] at hd
    injection hd with hd
    subst hd
    rw [h msg] at hret
    exact ⟨fun h3 => by simp at h3,
      fun _ => unmarshalBody_keeps (fun m => m.Sequence) _ k4 _ msg m2 e hret⟩

/-- C19 (witness): a three-element frame decoded into a message that holds
channel 336 and pair `XBT/USD`, and a four-element frame decoded into a
message that holds sequence number 9. -/
theorem unmarshal_keeps_fields_witness :
    ((3 = 3 → (336 : Int) = 336 ∧ "XBT/USD" = "XBT/USD") ∧
      (3 = 4 ∨ 3 = 5 → ({ Value := 1 } : Seq) = { Value := 0 })) ∧
    ((4 = 3 → (7 : Int) = 0 ∧ "XBT/USD" = "") ∧
      (4 = 4 ∨ 4 = 5 → ({ Value := 9 } : Seq) = { Value := 9 })) :=
  ⟨unmarshal_keeps_fields
      { ChannelID := 336, Data := [], ChannelName := "", Pair := "XBT/USD",
        Sequence := { Value := 0 } }
      { ChannelID := 336, Data := bytes "[]", ChannelName := "openOrders", Pair := "XBT/USD",
        Sequence := { Value := 1 } }
      (bytes "[[],\"openOrders\",\x7b\"sequence\":1\x7d]")
      [bytes "[]", bytes "\"openOrders\"", bytes "\x7b\"sequence\":1\x7d"] none
      (by decide) (by decide),
   unmarshal_keeps_fields
      { ChannelID := 0, Data := [], ChannelName := "", Pair := "", Sequence := { Value := 9 } }
      { ChannelID := 7, Data := bytes "5", ChannelName := "t", Pair := "XBT/USD",
        Sequence := { Value := 9 } }
      (bytes "[7,5,\"t\",\"XBT/USD\"]")
      [bytes "7", bytes "5", bytes "\"t\"", bytes "\"XBT/USD\""] none
      (by decide) (by decide)⟩

/-! ## The depth frame with an empty object -/

theorem merged_not_valid (A B : Bytes) (hA : JValue maxNestingDepth A)
    (hB : JValue maxNestingDepth B) (hl : A.getLast? = some cRBrace)
    (hh : B.head? = some cLBrace) (hemp : objectMembers A = [] ∨ objectMembers B = []) :
    checkValid (mergeAskBid A B) = false ∧ mergeAskBid A B ≠ [] := by
  obtain ⟨g, msA, tA, hg1, hg, rfl, hiA⟩ := JValue_object_of_last _ A hA hl
  obtain ⟨g2, msB, tB, hg2, _, rfl, hiB⟩ := JValue_object_of_head _ B hB hh
  have hgg : g = g2 := by omega
  subst hgg
  rw [objectMembers_of_items g msA tA hg1.symm hiA,
    objectMembers_of_items g msB tB hg1.symm hiB] at hemp
  rw [mergeAskBid_objects tA tB (Items_ne_nil hiA)]
  have hinv := merged_invalid g msA msB tA tB hiA hiB hemp
  have hs : skipSpace (cLBrace :: (tA.dropLast ++ ',' :: tB)) =
      cLBrace :: (tA.dropLast ++ ',' :: tB) := by
    have : isSpace cLBrace = false := by decide
    simp [skipSpace, this]
  refine ⟨?_, by simp⟩
  unfold checkValid
  rw [hs, hg1, hinv]

theorem unmarshalBody_nil (body : List Target) (msg : Message) :
    unmarshalBody body [] msg = .done msg (some .invalidJSON) := rfl

/-- C20: for every five-element frame in which the ask object or the bid
object is an empty object (`{}`, so that the splice is not valid JSON),
`Message.UnmarshalJSON` returns an error: it never succeeds with a corrupted
payload, and the receiver is left as it was. -/
theorem unmarshal_five_empty_object (msg : Message) (data r0 A B r3 r4 : Bytes)
    (hframe : decodeTop data = .array [r0, A, B, r3, r4])
    (hemp : (kindOf A = .object ∧ objectMembers A = []) ∨
      (kindOf B = .object ∧ objectMembers B = [])) :
    (Message.UnmarshalJSON msg data).failed = true ∧
      ∃ e, Message.UnmarshalJSON msg data = .done msg (some e) := by
  have hel := decodeTop_elems data _ hframe
  by_cases hg : A.getLast? ≠ some cRBrace ∨ B.head? ≠ some cLBrace
  · have h1 := unmarshal_five_guard msg data r0 A B r3 r4 hframe
      (fun h => hg.elim (fun g => g h.1) (fun g => g h.2))
    exact ⟨by rw [h1]; rfl, _, h1⟩
  · have hl : A.getLast? = some cRBrace := by
      by_contra h
      exact hg (Or.inl h)
    have hh : B.head? = some cLBrace := by
      by_contra h
      exact hg (Or.inr h)
    have hemp2 : objectMembers A = [] ∨ objectMembers B = [] :=
      hemp.imp (fun h => h.2) (fun h => h.2)
    obtain ⟨hv, hne⟩ := merged_not_valid A B (hel A (by simp)) (hel B (by simp)) hl hh hemp2
    have key : Message.UnmarshalJSON msg data = .done msg (some .invalidJSON) := by
      rw [unmarshal_five_eq msg data r0 A B r3 r4 hframe hl hh,
        marshal_invalid r0 _ r3 r4 hne hv]
      rfl
    exact ⟨by rw [key]; rfl, _, key⟩

/-- C20 (witness): the frames `[1,{},{"b":1},"n","p"]` and `[1,{"a":1},{},"n","p"]`. -/
theorem unmarshal_five_empty_object_witness :
    ((Message.UnmarshalJSON Message.fresh
          (bytes "[1,\x7b\x7d,\x7b\"b\":1\x7d,\"n\",\"p\"]")).failed = true ∧
        ∃ e, Message.UnmarshalJSON Message.fresh
          (bytes "[1,\x7b\x7d,\x7b\"b\":1\x7d,\"n\",\"p\"]") = .done Message.fresh (some e)) ∧
      ((Message.UnmarshalJSON Message.fresh
          (bytes "[1,\x7b\"a\":1\x7d,\x7b\x7d,\"n\",\"p\"]")).failed = true ∧
        ∃ e, Message.UnmarshalJSON Message.fresh
          (bytes "[1,\x7b\"a\":1\x7d,\x7b\x7d,\"n\",\"p\"]") = .done Message.fresh (some e)) :=
  ⟨unmarshal_five_empty_object Message.fresh (bytes "[1,\x7b\x7d,\x7b\"b\":1\x7d,\"n\",\"p\"]")
      (bytes "1") (bytes "\x7b\x7d") (bytes "\x7b\"b\":1\x7d") (bytes "\"n\"") (bytes "\"p\"")
      (by decide) (Or.inl (by decide)),
   unmarshal_five_empty_object Message.fresh (bytes "[1,\x7b\"a\":1\x7d,\x7b\x7d,\"n\",\"p\"]")
      (bytes "1") (bytes "\x7b\"a\":1\x7d") (bytes "\x7b\x7d") (bytes "\"n\"") (bytes "\"p\"")
      (by decide) (Or.inr (by decide))⟩

end Kraken
